import Mathlib

/-!
digitalocean-registry-cleaner: tag classifier and retention engine.

A shallow embedding of `pkg/detect/tag.go` (the version-name classifier `IsTag`),
of `pkg/do/client.go` (the retention engine `RunCleanup`) and of `cmd/run.go` (the run
command), followed by the properties proved about them.

Modelling conventions
* A Go `string` is a Lean `String`; the regular expressions work on its runes.
* A `time.Time` is the instant it denotes, an `Int` number of nanoseconds.
* A `time.Duration` is an `Int` in the signed 64-bit range; the one arithmetic
  operation the code applies to it, unary minus, wraps as Go's does.
* The Go `error` value is its message, `none` being `nil`.
* The standard library and the HTTP transport are parameters (`Env`); for the order
  of ties, `slices.SortFunc` is also given as Go implements it (`Slices.SortFunc`).
-/

namespace Detect

/-! ## Regular expressions (the subset of RE2 syntax used by `tag.go`) -/

/-- Regular expressions over runes. `cls p` is a one-rune character class. -/
inductive Regex where
  | never : Regex
  | eps : Regex
  | cls : (Char → Bool) → Regex
  | seq : Regex → Regex → Regex
  | alt : Regex → Regex → Regex
  | star : Regex → Regex

namespace Regex

/-- The literal rune `c`. -/
def lit (c : Char) : Regex := cls (fun x => x == c)

/-- The pattern `r?`. -/
def opt (r : Regex) : Regex := alt r eps

/-- The pattern `r+`. -/
def plus (r : Regex) : Regex := seq r (star r)

/-- Exactly `n` copies of `r`: the pattern `r{n}`. -/
def rep : Nat → Regex → Regex
  | 0, _ => eps
  | n + 1, r => seq r (rep n r)

/-- At most `n` copies of `r`: the pattern `r{0,n}`. -/
def upTo : Nat → Regex → Regex
  | 0, _ => eps
  | n + 1, r => opt (seq r (upTo n r))

/-- The pattern `r{lo,hi}`. -/
def range (lo hi : Nat) (r : Regex) : Regex := seq (rep lo r) (upTo (hi - lo) r)

/-- Whether the empty string is matched. -/
def nullable : Regex → Bool
  | never => false
  | eps => true
  | cls _ => false
  | seq a b => nullable a && nullable b
  | alt a b => nullable a || nullable b
  | star _ => true

/-- Brzozowski derivative: what remains to be matched after reading `c`. -/
def deriv : Regex → Char → Regex
  | never, _ => never
  | eps, _ => never
  | cls p, c => if p c then eps else never
  | seq a b, c => if nullable a then alt (seq (deriv a c) b) (deriv b c) else seq (deriv a c) b
  | alt a b, c => alt (deriv a c) (deriv b c)
  | star a, c => seq (deriv a c) (star a)

/-- Whole-string match of `r` against a rune sequence. -/
def rmatch : Regex → List Char → Bool
  | r, [] => nullable r
  | r, c :: cs => rmatch (deriv r c) cs

/-- The language of a regular expression. -/
inductive Matches : Regex → List Char → Prop where
  | eps : Matches Regex.eps []
  | cls (p : Char → Bool) (c : Char) : p c = true → Matches (Regex.cls p) [c]
  | seq (a b : Regex) (x y : List Char) : Matches a x → Matches b y → Matches (Regex.seq a b) (x ++ y)
  | altL (a b : Regex) (x : List Char) : Matches a x → Matches (Regex.alt a b) x
  | altR (a b : Regex) (x : List Char) : Matches b x → Matches (Regex.alt a b) x
  | starNil (a : Regex) : Matches (Regex.star a) []
  | starCons (a : Regex) (x y : List Char) :
      Matches a x → Matches (Regex.star a) y → Matches (Regex.star a) (x ++ y)

end Regex

open Regex

/-- The class `\d`, which in Go is `[0-9]`. -/
def isDigit (c : Char) : Bool := decide ('0' ≤ c) && decide (c ≤ '9')

/-- The class `[1-9]`. -/
def isPosDigit (c : Char) : Bool := decide ('1' ≤ c) && decide (c ≤ '9')

/-- The class `[a-zA-Z-]`. -/
def isLetterHyphen (c : Char) : Bool :=
  (decide ('a' ≤ c) && decide (c ≤ 'z')) || (decide ('A' ≤ c) && decide (c ≤ 'Z')) || c == '-'

/-- The class `[0-9a-zA-Z-]`. -/
def isAlnumHyphen (c : Char) : Bool :=
  (decide ('0' ≤ c) && decide (c ≤ '9')) || (decide ('a' ≤ c) && decide (c ≤ 'z'))
    || (decide ('A' ≤ c) && decide (c ≤ 'Z')) || c == '-'

/-- The pattern `0|[1-9]\d*`. -/
def reNumeric : Regex := alt (lit '0') (seq (cls isPosDigit) (star (cls isDigit)))

/-- The pattern `0|[1-9]\d*|\d*[a-zA-Z-][0-9a-zA-Z-]*`. -/
def rePreId : Regex :=
  alt (lit '0')
    (alt (seq (cls isPosDigit) (star (cls isDigit)))
      (seq (star (cls isDigit)) (seq (cls isLetterHyphen) (star (cls isAlnumHyphen)))))

/-- The pattern `[0-9a-zA-Z-]+`. -/
def reAlnumHyphens : Regex := plus (cls isAlnumHyphen)

/-- The pattern `(-[0-9a-zA-Z-]+)?`. -/
def reSuffix : Regex := opt (seq (lit '-') reAlnumHyphens)

/-- The pattern `(\.\d+)?`. -/
def reDotGroup : Regex := opt (seq (lit '.') (plus (cls isDigit)))

/-- The semantic-version pattern
`^(0|[1-9]\d*)\.(0|[1-9]\d*)\.(0|[1-9]\d*)`
`(?:-((?:0|[1-9]\d*|\d*[a-zA-Z-][0-9a-zA-Z-]*)(?:\.(?:0|[1-9]\d*|\d*[a-zA-Z-][0-9a-zA-Z-]*))*))?`
`(?:\+([0-9a-zA-Z-]+(?:\.[0-9a-zA-Z-]+)*))?$`. -/
def reSemVer : Regex :=
  seq reNumeric (seq (lit '.') (seq reNumeric (seq (lit '.') (seq reNumeric
    (seq (opt (seq (lit '-') (seq rePreId (star (seq (lit '.') rePreId)))))
      (opt (seq (lit '+') (seq reAlnumHyphens (star (seq (lit '.') reAlnumHyphens))))))))))

/-- The calendar-version pattern `^\d{4,8}\.\d+(-[0-9a-zA-Z-]+)?$`. -/
def reCalVer : Regex :=
  seq (range 4 8 (cls isDigit)) (seq (lit '.') (seq (plus (cls isDigit)) reSuffix))

/-- The sequential-version pattern `^\d+(\.\d+)?(\.\d+)?(\.\d+)?(-[0-9a-zA-Z-]+)?$`. -/
def reSeqVer : Regex :=
  seq (plus (cls isDigit)) (seq reDotGroup (seq reDotGroup (seq reDotGroup reSuffix)))

/-- Go `(*Regexp).MatchString` for a pattern anchored with `^` and `$`. -/
def MatchString (re : Regex) (s : String) : Bool := rmatch re s.data

/-- Go `strings.TrimPrefix(s, p)`. -/
def TrimPrefix (s p : String) : String :=
  if p.data.isPrefixOf s.data then String.mk (s.data.drop p.data.length) else s

/-- The function `detect.IsTag`. -/
def IsTag (tag : String) : Bool :=
  let tag := TrimPrefix tag "v"
  if tag = "" then false
  else if MatchString reSemVer tag then true
  else if MatchString reCalVer tag then true
  else if MatchString reSeqVer tag then true
  else false

/-- The variant of `IsTag` that leaves the calendar-version check out: it tests only
`reSemVer` and `reSeqVer` on the stripped name. -/
def IsTagWithoutCalVer (tag : String) : Bool :=
  let tag := TrimPrefix tag "v"
  if tag = "" then false
  else if MatchString reSemVer tag then true
  else if MatchString reSeqVer tag then true
  else false

/-! ## The version grammars in the words of the specification -/

namespace Grammar

/-- A numeral: one or more decimal digits. -/
def Numeral (s : List Char) : Prop := s ≠ [] ∧ ∀ c ∈ s, c.isDigit = true

/-- No leading zero, except in the literal `0`. -/
def NoLeadingZero (s : List Char) : Prop := s = ['0'] ∨ s.head? ≠ some '0'

/-- A version component: a numeral with no leading zero. -/
def Component (s : List Char) : Prop := Numeral s ∧ NoLeadingZero s

/-- An identifier: one or more alphanumerics or hyphens. -/
def Identifier (s : List Char) : Prop := s ≠ [] ∧ ∀ c ∈ s, (c.isAlphanum || c == '-') = true

/-- A prerelease identifier: an identifier that, if numeric, has no leading zero. -/
def PrereleaseIdentifier (s : List Char) : Prop := Identifier s ∧ (Numeral s → NoLeadingZero s)

/-- The items of a list joined by dots. -/
def dotJoin : List (List Char) → List Char
  | [] => []
  | [g] => g
  | g :: h :: gs => g ++ '.' :: dotJoin (h :: gs)

/-- One or more dot-separated items, each satisfying `P`. -/
def DotSeparated (P : List Char → Prop) (s : List Char) : Prop :=
  ∃ items : List (List Char), items ≠ [] ∧ (∀ i ∈ items, P i) ∧ s = dotJoin items

/-- An optional part: absent, or the separator `sep` followed by a `P`. -/
def Optional (sep : Char) (P : List Char → Prop) (s : List Char) : Prop :=
  s = [] ∨ ∃ x, P x ∧ s = sep :: x

/-- Semantic version: `MAJOR.MINOR.PATCH`, an optional `-<prerelease>` of dot-separated
prerelease identifiers, an optional `+<build>` of dot-separated identifiers. -/
def SemVer (s : List Char) : Prop :=
  ∃ major minor patch pre build : List Char,
    Component major ∧ Component minor ∧ Component patch ∧
    Optional '-' (DotSeparated PrereleaseIdentifier) pre ∧
    Optional '+' (DotSeparated Identifier) build ∧
    s = major ++ '.' :: minor ++ '.' :: patch ++ pre ++ build

/-- Calendar version: a year-like component of 4 to 8 digits, a dot, one or more digits,
an optional `-<suffix>` of alphanumerics and hyphens. -/
def CalVer (s : List Char) : Prop :=
  ∃ year n suffix : List Char,
    (4 ≤ year.length ∧ year.length ≤ 8 ∧ ∀ c ∈ year, c.isDigit = true) ∧ Numeral n ∧
    Optional '-' Identifier suffix ∧
    s = year ++ '.' :: n ++ suffix

/-- Sequential version: one to four dot-separated numerals, an optional `-<suffix>` of
alphanumerics and hyphens. -/
def SeqVer (s : List Char) : Prop :=
  ∃ (groups : List (List Char)) (suffix : List Char),
    (1 ≤ groups.length ∧ groups.length ≤ 4) ∧ (∀ g ∈ groups, Numeral g) ∧
    Optional '-' Identifier suffix ∧
    s = dotJoin groups ++ suffix

/-- The name without at most one leading `v`. -/
def stripV : List Char → List Char
  | [] => []
  | c :: rest => if c = 'v' then rest else c :: rest

/-- A release name: stripped of at most one leading `v` it is non-empty and belongs to
one of the three grammars. -/
def IsReleaseName (name : String) : Prop :=
  stripV name.data ≠ [] ∧
    (SemVer (stripV name.data) ∨ CalVer (stripV name.data) ∨ SeqVer (stripV name.data))

end Grammar

end Detect

/-! ## Go `slices.SortFunc`

The standard library's pattern-defeating quicksort (`zsortanyfunc.go`), on a slice held
as a list. An index outside the slice reads a default element; the code never does so.
-/

namespace Slices

variable {E : Type} [Inhabited E]

/-- The element `data[i]`. -/
def elem (data : List E) (i : Nat) : E := data.getD i default

/-- The statement `data[i], data[j] = data[j], data[i]`. -/
def swap (data : List E) (i j : Nat) : List E :=
  (data.set i (elem data j)).set j (elem data i)

/-- The inner loop of `insertionSortCmpFunc`, from `j` down:
`for ; j > a && cmp(data[j], data[j-1]) < 0; j--`, swapping `data[j]` and `data[j-1]`. -/
def insertionInner (cmp : E → E → Int) (a : Nat) : Nat → List E → List E
  | 0, data => data
  | j + 1, data =>
    if j + 1 > a ∧ cmp (elem data (j + 1)) (elem data j) < 0 then
      insertionInner cmp a j (swap data (j + 1) j)
    else data

/-- Go `insertionSortCmpFunc(data, a, b, cmp)`: `for i := a + 1; i < b; i++`. -/
def insertionSortCmpFunc (cmp : E → E → Int) (data : List E) (a b : Nat) : List E :=
  (List.range' (a + 1) (b - (a + 1))).foldl (fun data i => insertionInner cmp a i data) data

/-- Go `siftDownCmpFunc(data, lo, hi, first, cmp)`, its loop run from `root`. -/
def siftDownCmpFunc (cmp : E → E → Int) (hi first : Nat) : Nat → Nat → List E → List E
  | 0, _, data => data
  | fuel + 1, root, data =>
    if 2 * root + 1 ≥ hi then data
    else
      let child :=
        if 2 * root + 1 + 1 < hi ∧
            cmp (elem data (first + (2 * root + 1))) (elem data (first + (2 * root + 1) + 1)) < 0
        then 2 * root + 1 + 1 else 2 * root + 1
      if ¬ (cmp (elem data (first + root)) (elem data (first + child)) < 0) then data
      else siftDownCmpFunc cmp hi first fuel child (swap data (first + root) (first + child))

/-- Go `heapSortCmpFunc(data, a, b, cmp)`. -/
def heapSortCmpFunc (cmp : E → E → Int) (data : List E) (a b : Nat) : List E :=
  let heap := (List.range ((b - a - 1) / 2 + 1)).reverse.foldl
    (fun data i => siftDownCmpFunc cmp (b - a) a (b - a) i data) data
  (List.range (b - a)).reverse.foldl
    (fun data i => siftDownCmpFunc cmp i a (b - a) 0 (swap data a (a + i))) heap

/-- The loop `for i <= j && p(data[i])` with body `i++`; the final `i`. -/
def scanUp (p : E → Bool) (data : List E) (j : Nat) : Nat → Nat → Nat
  | 0, i => i
  | fuel + 1, i => if i ≤ j ∧ p (elem data i) = true then scanUp p data j fuel (i + 1) else i

/-- The loop `for i <= j && p(data[j])` with body `j--`, for `i ≥ 1`; the final `j`. -/
def scanDown (p : E → Bool) (data : List E) (i : Nat) : Nat → Nat
  | 0 => 0
  | j + 1 => if i ≤ j + 1 ∧ p (elem data (j + 1)) = true then scanDown p data i j else j + 1

/-- The main loop of `partitionCmpFunc`; the final `j` and slice. -/
def partitionLoop (cmp : E → E → Int) (a : Nat) : Nat → Nat → Nat → List E → Nat × List E
  | 0, _, j, data => (j, data)
  | fuel + 1, i, j, data =>
    let i1 := scanUp (fun x => decide (cmp x (elem data a) < 0)) data j (j + 1 - i) i
    let j1 := scanDown (fun x => !decide (cmp x (elem data a) < 0)) data i1 j
    if i1 > j1 then (j1, data)
    else partitionLoop cmp a fuel (i1 + 1) (j1 - 1) (swap data i1 j1)

/-- Go `partitionCmpFunc(data, a, b, pivot, cmp)`: the new pivot index, whether the
slice was already partitioned, and the slice. -/
def partitionCmpFunc (cmp : E → E → Int) (data : List E) (a b pivot : Nat) :
    Nat × Bool × List E :=
  let data1 := swap data a pivot
  let i := scanUp (fun x => decide (cmp x (elem data1 a) < 0)) data1 (b - 1) (b - a) (a + 1)
  let j := scanDown (fun x => !decide (cmp x (elem data1 a) < 0)) data1 i (b - 1)
  if i > j then (j, true, swap data1 j a)
  else
    let r := partitionLoop cmp a (b - a) (i + 1) (j - 1) (swap data1 i j)
    (r.1, false, swap r.2 r.1 a)

/-- The loop of `partitionEqualCmpFunc`; the final `i` and slice. -/
def partitionEqualLoop (cmp : E → E → Int) (a : Nat) : Nat → Nat → Nat → List E → Nat × List E
  | 0, i, _, data => (i, data)
  | fuel + 1, i, j, data =>
    let i1 := scanUp (fun x => !decide (cmp (elem data a) x < 0)) data j (j + 1 - i) i
    let j1 := scanDown (fun x => decide (cmp (elem data a) x < 0)) data i1 j
    if i1 > j1 then (i1, data)
    else partitionEqualLoop cmp a fuel (i1 + 1) (j1 - 1) (swap data i1 j1)

/-- Go `partitionEqualCmpFunc(data, a, b, pivot, cmp)`. -/
def partitionEqualCmpFunc (cmp : E → E → Int) (data : List E) (a b pivot : Nat) :
    Nat × List E :=
  partitionEqualLoop cmp a (b - a + 1) (a + 1) (b - 1) (swap data a pivot)

/-- The loop `for i < b && !(cmp(data[i], data[i-1]) < 0)` with body `i++`. -/
def skipSorted (cmp : E → E → Int) (data : List E) (b : Nat) : Nat → Nat → Nat
  | 0, i => i
  | fuel + 1, i =>
    if i < b ∧ ¬ (cmp (elem data i) (elem data (i - 1)) < 0) then
      skipSorted cmp data b fuel (i + 1)
    else i

/-- The loop `for j := i - 1; j >= 1; j--` of `partialInsertionSortCmpFunc`. -/
def shiftLeft (cmp : E → E → Int) : Nat → List E → List E
  | 0, data => data
  | j + 1, data =>
    if ¬ (cmp (elem data (j + 1)) (elem data j) < 0) then data
    else shiftLeft cmp j (swap data (j + 1) j)

/-- The loop `for j := i + 1; j < b; j++` of `partialInsertionSortCmpFunc`. -/
def shiftRight (cmp : E → E → Int) (b : Nat) : Nat → Nat → List E → List E
  | 0, _, data => data
  | fuel + 1, j, data =>
    if j < b then
      if ¬ (cmp (elem data j) (elem data (j - 1)) < 0) then data
      else shiftRight cmp b fuel (j + 1) (swap data j (j - 1))
    else data

/-- Go `partialInsertionSortCmpFunc(data, a, b, cmp)`, with the steps left and `i`. -/
def partialInsertionSortCmpFunc (cmp : E → E → Int) (a b : Nat) :
    Nat → Nat → List E → Bool × List E
  | 0, _, data => (false, data)
  | steps + 1, i, data =>
    let i1 := skipSorted cmp data b (b - i) i
    if i1 = b then (true, data)
    else if b - a < 50 then (false, data)
    else
      let d1 := swap data i1 (i1 - 1)
      let d2 := if i1 - a ≥ 2 then shiftLeft cmp (i1 - 1) d1 else d1
      let d3 := if b - i1 ≥ 2 then shiftRight cmp b (b - (i1 + 1)) (i1 + 1) d2 else d2
      partialInsertionSortCmpFunc cmp a b steps i1 d3

/-- Go `bits.Len(uint(n))`, by halving. -/
def bitsLen : Nat → Nat → Nat
  | 0, _ => 0
  | fuel + 1, n => if n = 0 then 0 else bitsLen fuel (n / 2) + 1

/-- Go `breakPatternsCmpFunc(data, a, b, cmp)`; `next` is one step of its `xorshift`
generator. -/
def breakPatternsCmpFunc (next : Nat → Nat) (data : List E) (a b : Nat) : List E :=
  if b - a ≥ 8 then
    ([0, 1, 2].foldl
      (fun (st : Nat × List E) i =>
        let random := next st.1
        let other := random % 2 ^ bitsLen (b - a) (b - a)
        let other1 := if other ≥ b - a then other - (b - a) else other
        (random, swap st.2 (a + (b - a) / 4 * 2 - 1 + i) (a + other1)))
      (b - a, data)).2
  else data

/-- Go `order2CmpFunc(data, a, b, swaps, cmp)`: the two indices and the swap count. -/
def order2CmpFunc (cmp : E → E → Int) (data : List E) (a b swaps : Nat) : Nat × Nat × Nat :=
  if cmp (elem data b) (elem data a) < 0 then (b, a, swaps + 1) else (a, b, swaps)

/-- Go `medianCmpFunc(data, a, b, c, swaps, cmp)`: the index and the swap count. -/
def medianCmpFunc (cmp : E → E → Int) (data : List E) (a b c swaps : Nat) : Nat × Nat :=
  let r1 := order2CmpFunc cmp data a b swaps
  let r2 := order2CmpFunc cmp data r1.2.1 c r1.2.2
  let r3 := order2CmpFunc cmp data r1.1 r2.1 r2.2.2
  (r3.2.1, r3.2.2)

/-- Go `medianAdjacentCmpFunc(data, a, swaps, cmp)`. -/
def medianAdjacentCmpFunc (cmp : E → E → Int) (data : List E) (a swaps : Nat) : Nat × Nat :=
  medianCmpFunc cmp data (a - 1) a (a + 1) swaps

/-- Go `sortedHint`. -/
inductive sortedHint where
  | unknownHint
  | increasingHint
  | decreasingHint
deriving DecidableEq

/-- Go `choosePivotCmpFunc(data, a, b, cmp)`. -/
def choosePivotCmpFunc (cmp : E → E → Int) (data : List E) (a b : Nat) : Nat × sortedHint :=
  let l := b - a
  let r : Nat × Nat :=
    if l ≥ 8 then
      if l ≥ 50 then
        let mi := medianAdjacentCmpFunc cmp data (a + l / 4 * 1) 0
        let mj := medianAdjacentCmpFunc cmp data (a + l / 4 * 2) mi.2
        let mk := medianAdjacentCmpFunc cmp data (a + l / 4 * 3) mj.2
        medianCmpFunc cmp data mi.1 mj.1 mk.1 mk.2
      else medianCmpFunc cmp data (a + l / 4 * 1) (a + l / 4 * 2) (a + l / 4 * 3) 0
    else (a + l / 4 * 2, 0)
  if r.2 = 0 then (r.1, sortedHint.increasingHint)
  else if r.2 = 12 then (r.1, sortedHint.decreasingHint)
  else (r.1, sortedHint.unknownHint)

/-- The loop of `reverseRangeCmpFunc`: `for i < j`, swapping and closing in. -/
def reverseLoop : Nat → Nat → Nat → List E → List E
  | 0, _, _, data => data
  | fuel + 1, i, j, data =>
    if i < j then reverseLoop fuel (i + 1) (j - 1) (swap data i j) else data

/-- Go `reverseRangeCmpFunc(data, a, b, cmp)`. -/
def reverseRangeCmpFunc (data : List E) (a b : Nat) : List E :=
  reverseLoop (b - a) a (b - 1) data

/-- Go `pdqsortCmpFunc(data, a, b, limit, cmp)`, one turn of its loop per unit of fuel,
with the loop variables `wasBalanced` and `wasPartitioned`; `none` when the fuel runs
out. -/
def pdqsortCmpFunc (next : Nat → Nat) (cmp : E → E → Int) :
    Nat → List E → Nat → Nat → Nat → Bool → Bool → Option (List E)
  | 0, _, _, _, _, _, _ => none
  | fuel + 1, data, a, b, limit, wasBalanced, wasPartitioned =>
    if b - a ≤ 12 then some (insertionSortCmpFunc cmp data a b)
    else if limit = 0 then some (heapSortCmpFunc cmp data a b)
    else
      let d1 := if !wasBalanced then breakPatternsCmpFunc next data a b else data
      let limit1 := if !wasBalanced then limit - 1 else limit
      let ph := choosePivotCmpFunc cmp d1 a b
      let d2 := if ph.2 = sortedHint.decreasingHint then reverseRangeCmpFunc d1 a b else d1
      let pivot := if ph.2 = sortedHint.decreasingHint then (b - 1) - (ph.1 - a) else ph.1
      let hint :=
        if ph.2 = sortedHint.decreasingHint then sortedHint.increasingHint else ph.2
      let pi :=
        if wasBalanced && wasPartitioned && decide (hint = sortedHint.increasingHint) then
          partialInsertionSortCmpFunc cmp a b 5 (a + 1) d2
        else (false, d2)
      if pi.1 then some pi.2
      else if a > 0 ∧ ¬ (cmp (elem pi.2 (a - 1)) (elem pi.2 pivot) < 0) then
        let pe := partitionEqualCmpFunc cmp pi.2 a b pivot
        pdqsortCmpFunc next cmp fuel pe.2 pe.1 b limit1 wasBalanced wasPartitioned
      else
        let pt := partitionCmpFunc cmp pi.2 a b pivot
        if pt.1 - a < b - pt.1 then
          match pdqsortCmpFunc next cmp fuel pt.2.2 a pt.1 limit1 true true with
          | none => none
          | some d3 =>
            pdqsortCmpFunc next cmp fuel d3 (pt.1 + 1) b limit1
              (decide (pt.1 - a ≥ (b - a) / 8)) pt.2.1
        else
          match pdqsortCmpFunc next cmp fuel pt.2.2 (pt.1 + 1) b limit1 true true with
          | none => none
          | some d3 =>
            pdqsortCmpFunc next cmp fuel d3 a pt.1 limit1
              (decide (b - pt.1 ≥ (b - a) / 8)) pt.2.1

/-- Go `slices.SortFunc(x, cmp)`, returning the sorted slice. -/
def SortFunc (next : Nat → Nat) (cmp : E → E → Int) (x : List E) : List E :=
  (pdqsortCmpFunc next cmp (x.length + 1) x 0 x.length (bitsLen x.length x.length)
    true true).getD x



/-- The place insertion sort gives `x` after a prefix given in reverse: `x` moves left
past the elements it is less than. -/
def bubble (cmp : E → E → Int) : List E → E → List E
  | [], x => [x]
  | y :: ys, x => if cmp x y < 0 then bubble cmp ys x ++ [y] else (y :: ys).reverse ++ [x]

/-- Insertion sort as a function on lists: the elements of the second list are inserted
one by one, from the right end, into the first. -/
def insertAll (cmp : E → E → Int) : List E → List E → List E
  | pre, [] => pre
  | pre, x :: rest => insertAll cmp (bubble cmp pre.reverse x) rest

end Slices

set_option linter.dupNamespace false

namespace Do

/-! ## Data model of `pkg/do/client.go` -/

/-- The least `int64`. -/
def minInt64 : Int := -9223372036854775808

/-- The greatest `int64`. -/
def maxInt64 : Int := 9223372036854775807

/-- Reduction of an integer to the signed 64-bit range (two's complement). -/
def wrapInt64 (x : Int) : Int := (x + 9223372036854775808) % 18446744073709551616 - 9223372036854775808

/-- Go unary minus on a `time.Duration`. -/
def Duration.neg (d : Int) : Int := wrapInt64 (-d)

/-- Go `t.Add(d)`. -/
def Time.Add (t d : Int) : Int := t + d

/-- Go `t.After(u)`. -/
def Time.After (t u : Int) : Bool := decide (u < t)

/-- Go `t.Compare(u)`. -/
def Time.Compare (t u : Int) : Int := if t < u then -1 else if u < t then 1 else 0

/-- The struct `Tag`. -/
structure Tag where
  Tag : String
  ManifestDigest : String
  CompressedSize : Int
  Size : Int
  UpdatedAt : Int
deriving DecidableEq, Repr

/-- The struct `CleanupInput`. -/
structure CleanupInput where
  Registry : String
  Repository : String
  DryRun : Bool
  KeepTags : Int
  MinAge : Int

/-- The struct `DigitalOceanClient`; its `client` field is the `Do` of `Env`. -/
structure DigitalOceanClient where
  token : String
  protectedTags : List String

/-- The function `NewClient`. -/
def NewClient (token : String) (protectedTags : List String) : DigitalOceanClient :=
  ⟨token, protectedTags⟩

/-- An `http.Request` as far as the code sets it. -/
structure Request where
  Method : String
  URL : String
  Authorization : String
  UserAgent : String
deriving DecidableEq, Repr

/-- An `http.Response` as far as the code reads it; `Body` is what
`io.ReadAll(resp.Body)` returns. -/
structure Response where
  StatusCode : Int
  Body : Except String String

/-- What the code takes from outside: the standard-library functions it calls and,
over a world state `σ`, the clock and the HTTP transport. -/
structure Env (σ : Type) where
  /-- Go `strings.EqualFold`. -/
  EqualFold : String → String → Bool
  /-- Go `slices.SortFunc`, returning the sorted slice. -/
  SortFunc : (Tag → Tag → Int) → List Tag → List Tag
  /-- Go `url.PathEscape`. -/
  PathEscape : String → String
  /-- Go `http.NewRequest(method, url, nil)`. -/
  NewRequest : String → String → Except String Request
  /-- Go `json.Unmarshal` of the response body, giving the `tags` member. -/
  Unmarshal : String → Except String (List Tag)
  /-- Go `time.Now()`. -/
  Now : σ → Int × σ
  /-- Go `c.client.Do(req)`. -/
  Do : Request → σ → Except String Response × σ

/-- What a call of `RunCleanup` returns (`tags`, `err`) and leaves behind: the tag
arguments of its `deleteTag` calls in call order, and the final world state. -/
structure Outcome (σ : Type) where
  tags : List Tag
  err : Option String
  deleteCalls : List String
  state : σ

variable {σ : Type}

/-- The comparison handed to `slices.SortFunc`. -/
def cmpUpdatedAt (a b : Tag) : Int := Time.Compare a.UpdatedAt b.UpdatedAt

/-- The method `isProtected`. -/
def isProtected (c : DigitalOceanClient) (env : Env σ) (tag : String) : Bool :=
  c.protectedTags.any (fun protectedTag => env.EqualFold protectedTag tag)

/-- The method `listTags`. -/
def listTags (c : DigitalOceanClient) (env : Env σ) (registry repository : String) (s : σ) :
    Except String (List Tag) × σ :=
  match env.NewRequest "GET"
      ("https://api.digitalocean.com/v2/registry/" ++ env.PathEscape registry
        ++ "/repositories/" ++ env.PathEscape repository ++ "/tags") with
  | Except.error err => (Except.error ("could not create request: " ++ err), s)
  | Except.ok req =>
    match env.Do { req with Authorization := "Bearer " ++ c.token,
                            UserAgent := "digitalocean-registry-cleaner" } s with
    | (Except.error err, s1) => (Except.error ("could not send request: " ++ err), s1)
    | (Except.ok resp, s1) =>
      if resp.StatusCode ≠ 200 then
        (Except.error ("unexpected status code: " ++ toString resp.StatusCode), s1)
      else
        match resp.Body with
        | Except.error err => (Except.error ("could not read response body: " ++ err), s1)
        | Except.ok body =>
          match env.Unmarshal body with
          | Except.error err =>
            (Except.error ("could not unmarshal response body: " ++ err), s1)
          | Except.ok tags => (Except.ok tags, s1)

/-- The method `deleteTag`. -/
def deleteTag (c : DigitalOceanClient) (env : Env σ) (registry repository tag : String) (s : σ) :
    Option String × σ :=
  match env.NewRequest "DELETE"
      ("https://api.digitalocean.com/v2/registry/" ++ env.PathEscape registry
        ++ "/repositories/" ++ env.PathEscape repository ++ "/tags/" ++ env.PathEscape tag) with
  | Except.error err => (some ("could not create request: " ++ err), s)
  | Except.ok req =>
    match env.Do { req with Authorization := "Bearer " ++ c.token,
                            UserAgent := "digitalocean-registry-cleaner" } s with
    | (Except.error err, s1) => (some ("could not send request: " ++ err), s1)
    | (Except.ok resp, s1) =>
      if resp.StatusCode ≠ 204 then
        (some ("unexpected status code: " ++ toString resp.StatusCode), s1)
      else (none, s1)

/-- The categorisation loop of `RunCleanup` (lines 57-67): the tags still to visit,
then `keepTags`, `deleteTags` and the world state so far. -/
def categorize (c : DigitalOceanClient) (env : Env σ) (input : CleanupInput) :
    List Tag → List Tag → List Tag → σ → List Tag × List Tag × σ
  | [], keepTags, deleteTags, s => (keepTags, deleteTags, s)
  | tag :: rest, keepTags, deleteTags, s =>
    if isProtected c env tag.Tag then
      categorize c env input rest keepTags deleteTags s
    else if Detect.IsTag tag.Tag then
      categorize c env input rest (keepTags ++ [tag]) deleteTags s
    else if Time.After tag.UpdatedAt (Time.Add (env.Now s).1 (Duration.neg input.MinAge)) then
      categorize c env input rest keepTags deleteTags (env.Now s).2
    else
      categorize c env input rest keepTags (deleteTags ++ [tag]) (env.Now s).2

/-- The slice `releaseTagsToDelete` of `RunCleanup` (lines 75-79), from the sorted
`keepTags`. -/
def releaseTagsToDelete (input : CleanupInput) (keepTags : List Tag) : List Tag :=
  if input.KeepTags > 0 ∧ (keepTags.length : Int) > input.KeepTags then
    keepTags.take ((keepTags.length : Int) - input.KeepTags).toNat
  else []

/-- The message of the error a failed delete makes `RunCleanup` return. -/
def deleteError (input : CleanupInput) (tag : String) (err : String) : String :=
  "could not delete tag " ++ input.Registry ++ "." ++ input.Repository ++ ":" ++ tag
    ++ " : " ++ err

/-- One deletion loop of `RunCleanup` (lines 84-91, and again 94-101): the tags
still to visit, then `deletedTags`, the delete calls and the world state so far. -/
def deleteLoop (c : DigitalOceanClient) (env : Env σ) (input : CleanupInput) :
    List Tag → List Tag → List String → σ → Outcome σ
  | [], deletedTags, calls, s => ⟨deletedTags, none, calls, s⟩
  | tag :: rest, deletedTags, calls, s =>
    if !input.DryRun then
      match deleteTag c env input.Registry input.Repository tag.Tag s with
      | (some err, s1) => ⟨deletedTags, some (deleteError input tag.Tag err), calls ++ [tag.Tag], s1⟩
      | (none, s1) => deleteLoop c env input rest (deletedTags ++ [tag]) (calls ++ [tag.Tag]) s1
    else deleteLoop c env input rest (deletedTags ++ [tag]) calls s

/-- The body of `RunCleanup` after a successful listing (lines 54-103). -/
def cleanupListed (c : DigitalOceanClient) (env : Env σ) (input : CleanupInput)
    (tags : List Tag) (s : σ) : Outcome σ :=
  let cat := categorize c env input tags [] [] s
  let keepTags := env.SortFunc cmpUpdatedAt cat.1
  let r := deleteLoop c env input (releaseTagsToDelete input keepTags) [] [] cat.2.2
  match r.err with
  | some _ => r
  | none => deleteLoop c env input cat.2.1 r.tags r.deleteCalls r.state

/-- The method `RunCleanup`. -/
def RunCleanup (c : DigitalOceanClient) (env : Env σ) (input : CleanupInput) (s : σ) :
    Outcome σ :=
  match listTags c env input.Registry input.Repository s with
  | (Except.error err, s1) => ⟨[], some ("could not list tags: " ++ err), [], s1⟩
  | (Except.ok tags, s1) => cleanupListed c env input tags s1

/-- The deletion sequence of a run: the tags `RunCleanup` sets out to delete after
listing `tags` in world state `s`, in the order of its two loops. -/
def deletionSequence (c : DigitalOceanClient) (env : Env σ) (input : CleanupInput)
    (tags : List Tag) (s : σ) : List Tag :=
  releaseTagsToDelete input (env.SortFunc cmpUpdatedAt (categorize c env input tags [] [] s).1)
    ++ (categorize c env input tags [] [] s).2.1

/-! ## Vocabulary of the retention rules -/

/-- A release tag: not protected, and version-named according to `detect.IsTag`. -/
def isRelease (c : DigitalOceanClient) (env : Env σ) (t : Tag) : Bool :=
  !isProtected c env t.Tag && Detect.IsTag t.Tag

/-- A branch tag: not protected and not version-named. -/
def isBranch (c : DigitalOceanClient) (env : Env σ) (t : Tag) : Bool :=
  !isProtected c env t.Tag && !Detect.IsTag t.Tag

/-- A stale branch tag at clock reading `now`: a branch tag whose `UpdatedAt` is not
strictly after `now - MinAge`. -/
def isStaleBranch (c : DigitalOceanClient) (env : Env σ) (input : CleanupInput) (now : Int)
    (t : Tag) : Bool :=
  isBranch c env t && !decide (now - input.MinAge < t.UpdatedAt)

/-- The clock readings of the categorisation loop: for each tag of the listing, in
listing order, what `time.Now()` returns in the world state in which the loop reaches
that tag. The loop calls `time.Now()`, and so moves the world on, only at a tag that
is neither protected nor version-named (line 62). -/
def clockReadings (c : DigitalOceanClient) (env : Env σ) : List Tag → σ → List Int
  | [], _ => []
  | tag :: rest, s =>
    (env.Now s).1 ::
      clockReadings c env rest
        (if isProtected c env tag.Tag || Detect.IsTag tag.Tag then s else (env.Now s).2)

/-- The stale branch tags of a listing, in listing order: the branch tags whose
`UpdatedAt` is not strictly after `now - MinAge`, with `now` the clock reading of the
loop at that tag. -/
def staleBranches (c : DigitalOceanClient) (env : Env σ) (input : CleanupInput)
    (tags : List Tag) (s : σ) : List Tag :=
  ((tags.zip (clockReadings c env tags s)).filter
    (fun p => isStaleBranch c env input p.2 p.1)).map Prod.fst

/-- The documented contract of `slices.SortFunc` for the comparison `RunCleanup`
passes: the result is a rearrangement of the slice in which no element compares
less than an earlier one. -/
def SortFuncSpec (sortFunc : (Tag → Tag → Int) → List Tag → List Tag) : Prop :=
  ∀ xs : List Tag, (sortFunc cmpUpdatedAt xs).Perm xs ∧
    (sortFunc cmpUpdatedAt xs).Pairwise (fun a b => ¬ cmpUpdatedAt b a < 0)

/-- Every delete call of the run succeeds, in whatever world state it is issued. -/
def DeletesSucceed (c : DigitalOceanClient) (env : Env σ) (input : CleanupInput) : Prop :=
  ∀ (tag : String) (s : σ), (deleteTag c env input.Registry input.Repository tag s).1 = none

/-- The clock shows `now` at every reading. -/
def ClockAt (env : Env σ) (now : Int) : Prop := ∀ s : σ, (env.Now s).1 = now

/-! ## A concrete environment for the examples -/

/-- Go `strings.EqualFold` on ASCII strings: equality up to the case of letters. -/
def asciiEqualFold (s t : String) : Bool :=
  s.data.map Char.toLower == t.data.map Char.toLower

/-- A stable insertion sort: one function that meets `SortFuncSpec`. -/
def insertionSortFunc (cmp : Tag → Tag → Int) (xs : List Tag) : List Tag :=
  xs.insertionSort (fun a b => cmp a b ≤ 0)

/-- An environment without world state: the listing request is answered with status
200 and a body that decodes to `listing`, a delete request with the status
`deleteStatus` gives for its URL, and the clock shows `now`. The registry, repository
and tag names of the examples hold no character that `url.PathEscape` escapes, so it
is the identity here. -/
def fixedEnv (listing : List Tag) (now : Int) (deleteStatus : String → Int) : Env Unit where
  EqualFold := asciiEqualFold
  SortFunc := insertionSortFunc
  PathEscape := id
  NewRequest := fun method url => Except.ok ⟨method, url, "", ""⟩
  Unmarshal := fun _ => Except.ok listing
  Now := fun s => (now, s)
  Do := fun req s =>
    if req.Method = "GET" then (Except.ok ⟨200, Except.ok ""⟩, s)
    else (Except.ok ⟨deleteStatus req.URL, Except.ok ""⟩, s)

/-- A tag with the given name and time of last update. -/
def mkTag (name : String) (updatedAt : Int) : Tag := ⟨name, "sha256:test", 12345678, 12345678, updatedAt⟩

/-- One day, in nanoseconds. -/
def day : Int := 86400000000000

/-- The clock reading of the examples: 2026-01-01T00:00:00Z, in nanoseconds since
1970-01-01T00:00:00Z. -/
def exampleNow : Int := 1767225600000000000

/-- The listing of `TestRunCleanup_DeleteOldBranches`. -/
def branchListing : List Tag :=
  [mkTag "prod-protected" (exampleNow - 40 * day), mkTag "tag-40-days-old" (exampleNow - 40 * day),
   mkTag "tag-8-days-old" (exampleNow - 8 * day), mkTag "tag-3-days-old" (exampleNow - 3 * day)]

/-- The listing of `TestRunCleanup_KeepLatestNTags`, not in order of age. -/
def releaseListing : List Tag :=
  [mkTag "1.3.0" (exampleNow - 57 * day), mkTag "1.0.0" (exampleNow - 60 * day),
   mkTag "1.4.0" (exampleNow - 56 * day), mkTag "1.1.0" (exampleNow - 59 * day),
   mkTag "1.2.0" (exampleNow - 58 * day)]

/-- The listing of `TestRunCleanup_MixedTagsAndBranches`, branches first. -/
def mixedListing : List Tag :=
  [mkTag "develop" (exampleNow - 92 * day), mkTag "1.2.0" (exampleNow - 90 * day),
   mkTag "feature-x" (exampleNow - 92 * day), mkTag "1.0.0" (exampleNow - 92 * day),
   mkTag "1.1.0" (exampleNow - 91 * day)]

/-- A transport on which the delete request for the tag `tag-8-days-old` of
repository `test` in registry `test` is answered with status 500, every other one
with 204. -/
def failOn8 (url : String) : Int :=
  if url = "https://api.digitalocean.com/v2/registry/test/repositories/test/tags/tag-8-days-old"
  then 500 else 204

/-- An environment without world state whose listing request is answered with the
status `listStatus` and an empty body that decodes to no tags. -/
def statusEnv (listStatus : Int) : Env Unit where
  EqualFold := asciiEqualFold
  SortFunc := insertionSortFunc
  PathEscape := id
  NewRequest := fun method url => Except.ok ⟨method, url, "", ""⟩
  Unmarshal := fun _ => Except.ok []
  Now := fun s => (exampleNow, s)
  Do := fun req s =>
    if req.Method = "GET" then (Except.ok ⟨listStatus, Except.ok ""⟩, s)
    else (Except.ok ⟨204, Except.ok ""⟩, s)

/-- An environment whose world state is the time of day: every reading of the clock
returns it and moves it on by `step`; the listing request is answered with `listing`
and every delete request with status 204. -/
def tickingEnv (listing : List Tag) (step : Int) : Env Int where
  EqualFold := asciiEqualFold
  SortFunc := insertionSortFunc
  PathEscape := id
  NewRequest := fun method url => Except.ok ⟨method, url, "", ""⟩
  Unmarshal := fun _ => Except.ok listing
  Now := fun s => (s, s + step)
  Do := fun req s =>
    if req.Method = "GET" then (Except.ok ⟨200, Except.ok ""⟩, s)
    else (Except.ok ⟨204, Except.ok ""⟩, s)

/-- One hour, in nanoseconds. -/
def hour : Int := 3600000000000

/-- Five version-named tags updated five days to one day before `exampleNow`. -/
def youngReleaseListing : List Tag :=
  [mkTag "1.0.0" (exampleNow - 5 * day), mkTag "1.1.0" (exampleNow - 4 * day),
   mkTag "1.2.0" (exampleNow - 3 * day), mkTag "1.3.0" (exampleNow - 2 * day),
   mkTag "1.4.0" (exampleNow - 1 * day)]

instance : Inhabited Tag := ⟨⟨"", "", 0, 0, 0⟩⟩

/-- The environment `fixedEnv` with Go's own `slices.SortFunc`; `next` is the step of
the generator behind `breakPatternsCmpFunc`. -/
def goEnv (next : Nat → Nat) (listing : List Tag) (now : Int) : Env Unit :=
  { fixedEnv listing now (fun _ => 204) with SortFunc := Slices.SortFunc next }

/-- Thirteen version-named tags: `1.0.0` to `1.0.11` updated at the same instant, ten
days before `exampleNow`, and `1.0.12` a day earlier. -/
def tieListing : List Tag :=
  [mkTag "1.0.0" (exampleNow - 10 * day), mkTag "1.0.1" (exampleNow - 10 * day),
   mkTag "1.0.2" (exampleNow - 10 * day), mkTag "1.0.3" (exampleNow - 10 * day),
   mkTag "1.0.4" (exampleNow - 10 * day), mkTag "1.0.5" (exampleNow - 10 * day),
   mkTag "1.0.6" (exampleNow - 10 * day), mkTag "1.0.7" (exampleNow - 10 * day),
   mkTag "1.0.8" (exampleNow - 10 * day), mkTag "1.0.9" (exampleNow - 10 * day),
   mkTag "1.0.10" (exampleNow - 10 * day), mkTag "1.0.11" (exampleNow - 10 * day),
   mkTag "1.0.12" (exampleNow - 11 * day)]

/-- Four version-named tags, three of them updated at the same instant. -/
def shortTieListing : List Tag :=
  [mkTag "2.0.0" (exampleNow - 10 * day), mkTag "1.0.0" (exampleNow - 10 * day),
   mkTag "3.0.0" (exampleNow - 11 * day), mkTag "1.5.0" (exampleNow - 10 * day)]

/-- Go `strings.Contains(s, substr)`. -/
def Contains (s substr : String) : Bool :=
  s.data.tails.any (fun t => substr.data.isPrefixOf t)

end Do

namespace Cmd

open Do

/-! ## The run command of `cmd/run.go` -/

/-- The package-level flag variables of `cmd/run.go`. -/
structure Flags where
  registry : String
  repositories : List String
  protectedTags : List String
  keepTags : Int
  minAgeDays : Int
  dryRun : Bool

/-- What the run command takes from the process and the `time` package: `os.Getenv`
and `t.Format(time.RFC3339)`. -/
structure Os where
  Getenv : String → String
  FormatRFC3339 : Int → String

/-- What `RunE` returns (`err`) and leaves behind: the text it printed, call by call,
the repositories it invoked `RunCleanup` for, in order, and the final world state. -/
structure RunResult (σ : Type) where
  err : Option String
  stdout : List String
  invoked : List String
  state : σ

variable {σ : Type}

/-- The expression `time.Duration(minAgeDays) * 24 * time.Hour`, in `int64`. -/
def minAge (minAgeDays : Int) : Int := wrapInt64 (wrapInt64 (minAgeDays * 24) * 3600000000000)

/-- The `CleanupInput` that `RunE` builds for a repository (lines 52-58). -/
def cleanupInput (flags : Flags) (repository : String) : CleanupInput :=
  ⟨flags.registry, repository, flags.dryRun, flags.keepTags, minAge flags.minAgeDays⟩

/-- What `RunE` prints for a repository once `RunCleanup` has returned (lines 60-68). -/
def report (os : Os) (registry repository : String) (deleted : List Tag) : List String :=
  if deleted.length > 0 then
    ["Registry: " ++ registry ++ "\n", "Repository: " ++ repository ++ "\n" ++ "\n"]
      ++ deleted.map (fun tag =>
          "Deleted tag: " ++ tag.Tag ++ "\t" ++ os.FormatRFC3339 tag.UpdatedAt ++ "\n")
      ++ ["=====" ++ "\n"]
  else []

/-- The loop of `RunE` over the repositories (lines 51-73): the repositories still to
process, then the text printed, the invocations and the world state so far. -/
def runLoop (os : Os) (env : Env σ) (doc : DigitalOceanClient) (flags : Flags) :
    List String → List String → List String → σ → RunResult σ
  | [], out, inv, s => ⟨none, out, inv, s⟩
  | repository :: rest, out, inv, s =>
    match (RunCleanup doc env (cleanupInput flags repository) s).err with
    | some err =>
      ⟨some ("cleanup failed: " ++ err),
        out ++ report os flags.registry repository
          (RunCleanup doc env (cleanupInput flags repository) s).tags,
        inv ++ [repository], (RunCleanup doc env (cleanupInput flags repository) s).state⟩
    | none =>
      runLoop os env doc flags rest
        (out ++ report os flags.registry repository
          (RunCleanup doc env (cleanupInput flags repository) s).tags)
        (inv ++ [repository]) (RunCleanup doc env (cleanupInput flags repository) s).state

/-- The function `runCmd.RunE`. -/
def RunE (os : Os) (env : Env σ) (flags : Flags) (s : σ) : RunResult σ :=
  if os.Getenv "DO_TOKEN" = "" then ⟨some "DO_TOKEN is not set", [], [], s⟩
  else
    runLoop os env (NewClient (os.Getenv "DO_TOKEN") flags.protectedTags) flags
      flags.repositories (if flags.dryRun then ["==> Dry run mode" ++ "\n" ++ "\n"] else []) [] s

/-- A process with `DO_TOKEN` set to `test-token`; times are printed as their number
of nanoseconds. -/
def exampleOs : Os :=
  ⟨fun name => if name = "DO_TOKEN" then "test-token" else "", fun t => toString t⟩

end Cmd

/-! # Properties -/

namespace Detect

/-! ## The matcher decides the language -/

namespace Regex

theorem matches_never (s : List Char) : ¬ Matches never s := by
  intro h; cases h

theorem matches_eps_iff (s : List Char) : Matches eps s ↔ s = [] := by
  constructor
  · intro h; cases h; rfl
  · rintro rfl; exact Matches.eps

theorem matches_cls_iff (p : Char → Bool) (s : List Char) :
    Matches (cls p) s ↔ ∃ c, s = [c] ∧ p c = true := by
  constructor
  · intro h; cases h with
    | cls _ c hc => exact ⟨c, rfl, hc⟩
  · rintro ⟨c, rfl, hc⟩; exact Matches.cls p c hc

theorem matches_seq_iff (a b : Regex) (s : List Char) :
    Matches (seq a b) s ↔ ∃ x y, s = x ++ y ∧ Matches a x ∧ Matches b y := by
  constructor
  · intro h; cases h with
    | seq _ _ x y hx hy => exact ⟨x, y, rfl, hx, hy⟩
  · rintro ⟨x, y, rfl, hx, hy⟩; exact Matches.seq a b x y hx hy

theorem matches_alt_iff (a b : Regex) (s : List Char) :
    Matches (alt a b) s ↔ Matches a s ∨ Matches b s := by
  constructor
  · intro h; cases h with
    | altL _ _ _ h => exact Or.inl h
    | altR _ _ _ h => exact Or.inr h
  · rintro (h | h)
    · exact Matches.altL a b s h
    · exact Matches.altR a b s h

/-- A match of `star a` against a non-empty string starts with a non-empty match of `a`. -/
theorem matches_star_cons (a : Regex) (r : Regex) (s : List Char) (h : Matches r s) :
    ∀ (c : Char) (t : List Char), r = star a → s = c :: t →
      ∃ x y, t = x ++ y ∧ Matches a (c :: x) ∧ Matches (star a) y := by
  induction h with
  | eps => intro c t hr; cases hr
  | cls p d hd => intro c t hr; cases hr
  | seq a1 b1 x y _ _ _ _ => intro c t hr; cases hr
  | altL a1 b1 x _ _ => intro c t hr; cases hr
  | altR a1 b1 x _ _ => intro c t hr; cases hr
  | starNil a1 => intro c t _ hs; cases hs
  | starCons a1 x y hx hy _ ih =>
    intro c t hr hs
    cases hr
    cases x with
    | nil => exact ih c t rfl hs
    | cons d x1 =>
      simp only [List.cons_append, List.cons.injEq] at hs
      obtain ⟨rfl, rfl⟩ := hs
      exact ⟨x1, y, rfl, hx, hy⟩

theorem matches_star_iff (a : Regex) (s : List Char) :
    Matches (star a) s ↔
      s = [] ∨ ∃ c x y, s = c :: x ++ y ∧ Matches a (c :: x) ∧ Matches (star a) y := by
  constructor
  · intro h
    cases s with
    | nil => exact Or.inl rfl
    | cons c t =>
      obtain ⟨x, y, rfl, hx, hy⟩ := matches_star_cons a _ _ h c t rfl rfl
      exact Or.inr ⟨c, x, y, rfl, hx, hy⟩
  · rintro (rfl | ⟨c, x, y, rfl, hx, hy⟩)
    · exact Matches.starNil a
    · exact Matches.starCons a _ _ hx hy

theorem nullable_iff (r : Regex) : nullable r = true ↔ Matches r [] := by
  induction r with
  | never => simp [nullable, matches_never]
  | eps => simp [nullable, matches_eps_iff]
  | cls p => simp [nullable, matches_cls_iff]
  | seq a b iha ihb =>
    simp only [nullable, Bool.and_eq_true, iha, ihb, matches_seq_iff]
    constructor
    · rintro ⟨ha, hb⟩; exact ⟨[], [], rfl, ha, hb⟩
    · rintro ⟨x, y, hxy, ha, hb⟩
      obtain ⟨rfl, rfl⟩ := List.append_eq_nil.1 hxy.symm
      exact ⟨ha, hb⟩
  | alt a b iha ihb => simp [nullable, iha, ihb, matches_alt_iff]
  | star a _ => simp [nullable, Matches.starNil]

theorem deriv_iff (r : Regex) : ∀ (c : Char) (s : List Char),
    Matches (deriv r c) s ↔ Matches r (c :: s) := by
  induction r with
  | never => intro c s; simp [deriv, matches_never]
  | eps => intro c s; simp [deriv, matches_never, matches_eps_iff]
  | cls p =>
    intro c s
    simp only [deriv, matches_cls_iff]
    by_cases hp : p c = true
    · rw [if_pos hp, matches_eps_iff]
      constructor
      · rintro rfl; exact ⟨c, rfl, hp⟩
      · rintro ⟨d, hd, _⟩; exact (List.cons.inj hd).2
    · rw [if_neg hp]
      simp only [matches_never, false_iff]
      rintro ⟨d, hd, hpd⟩
      rw [← (List.cons.inj hd).1] at hpd
      exact hp hpd
  | seq a b iha ihb =>
    intro c s
    have key : Matches (seq a b) (c :: s) ↔
        (∃ x y, s = x ++ y ∧ Matches a (c :: x) ∧ Matches b y) ∨
          (Matches a [] ∧ Matches b (c :: s)) := by
      rw [matches_seq_iff]
      constructor
      · rintro ⟨x, y, hxy, ha, hb⟩
        cases x with
        | nil => right; simp only [List.nil_append] at hxy; rw [hxy]; exact ⟨ha, hb⟩
        | cons d x1 =>
          simp only [List.cons_append, List.cons.injEq] at hxy
          obtain ⟨rfl, rfl⟩ := hxy
          exact Or.inl ⟨x1, y, rfl, ha, hb⟩
      · rintro (⟨x, y, rfl, ha, hb⟩ | ⟨ha, hb⟩)
        · exact ⟨c :: x, y, rfl, ha, hb⟩
        · exact ⟨[], c :: s, rfl, ha, hb⟩
    rw [key]
    simp only [deriv]
    by_cases hn : nullable a = true
    · simp only [hn, if_true, matches_alt_iff, matches_seq_iff, iha, ihb]
      rw [nullable_iff] at hn
      simp [hn]
    · rw [if_neg hn]
      simp only [matches_seq_iff, iha]
      rw [nullable_iff] at hn
      simp [hn]
  | alt a b iha ihb => intro c s; simp [deriv, matches_alt_iff, iha, ihb]
  | star a iha =>
    intro c s
    simp only [deriv, matches_seq_iff, iha]
    constructor
    · rintro ⟨x, y, rfl, hx, hy⟩
      exact Matches.starCons a (c :: x) y hx hy
    · intro h
      exact matches_star_cons a _ _ h c s rfl rfl

theorem rmatch_iff (s : List Char) : ∀ r : Regex, rmatch r s = true ↔ Matches r s := by
  induction s with
  | nil => intro r; simp [rmatch, nullable_iff]
  | cons c s ih => intro r; simp [rmatch, ih, deriv_iff]

theorem matches_lit_iff (c : Char) (s : List Char) : Matches (lit c) s ↔ s = [c] := by
  unfold lit
  rw [matches_cls_iff]
  constructor
  · rintro ⟨d, rfl, hd⟩
    simp only [beq_iff_eq] at hd
    rw [hd]
  · rintro rfl
    exact ⟨c, rfl, by simp⟩

theorem matches_opt_iff (r : Regex) (s : List Char) :
    Matches (opt r) s ↔ s = [] ∨ Matches r s := by
  unfold opt
  rw [matches_alt_iff, matches_eps_iff, or_comm]

theorem matches_star_join (a : Regex) (s : List Char) :
    Matches (star a) s ↔ ∃ parts : List (List Char), (∀ x ∈ parts, Matches a x) ∧ s = parts.flatten := by
  constructor
  · intro h
    generalize hr : star a = r at h
    induction h with
    | eps => cases hr
    | cls p d hd => cases hr
    | seq a1 b1 x y _ _ _ _ => cases hr
    | altL a1 b1 x _ _ => cases hr
    | altR a1 b1 x _ _ => cases hr
    | starNil a1 => exact ⟨[], by simp, rfl⟩
    | starCons a1 x y hx _ _ ih =>
      cases hr
      obtain ⟨parts, hp, rfl⟩ := ih rfl
      refine ⟨x :: parts, ?_, by simp⟩
      intro z hz
      rcases List.mem_cons.1 hz with rfl | hz
      · exact hx
      · exact hp z hz
  · rintro ⟨parts, hp, rfl⟩
    induction parts with
    | nil => exact Matches.starNil a
    | cons x parts ih =>
      rw [List.flatten_cons]
      exact Matches.starCons a x _ (hp x (by simp)) (ih (fun z hz => hp z (by simp [hz])))

theorem matches_star_cls_iff (p : Char → Bool) (s : List Char) :
    Matches (star (cls p)) s ↔ ∀ c ∈ s, p c = true := by
  induction s with
  | nil => simp [Matches.starNil]
  | cons c t ih =>
    constructor
    · intro h
      obtain ⟨x, y, rfl, hx, hy⟩ := matches_star_cons (cls p) _ _ h c t rfl rfl
      obtain ⟨d, hd, hpd⟩ := (matches_cls_iff p _).1 hx
      obtain ⟨rfl, rfl⟩ := List.cons.inj hd
      simp only [List.nil_append] at ih ⊢
      intro e he
      rcases List.mem_cons.1 he with rfl | he
      · exact hpd
      · exact ih.1 hy e he
    · intro h
      have h1 : Matches (cls p) [c] := Matches.cls p c (h c (by simp))
      have h2 : Matches (star (cls p)) t := ih.2 (fun e he => h e (by simp [he]))
      exact Matches.starCons (cls p) [c] t h1 h2

theorem matches_plus_cls_iff (p : Char → Bool) (s : List Char) :
    Matches (plus (cls p)) s ↔ s ≠ [] ∧ ∀ c ∈ s, p c = true := by
  unfold plus
  rw [matches_seq_iff]
  constructor
  · rintro ⟨x, y, rfl, hx, hy⟩
    obtain ⟨d, rfl, hpd⟩ := (matches_cls_iff p _).1 hx
    rw [matches_star_cls_iff] at hy
    refine ⟨by simp, ?_⟩
    intro e he
    rcases List.mem_cons.1 he with rfl | he
    · exact hpd
    · exact hy e he
  · rintro ⟨hne, h⟩
    cases s with
    | nil => exact absurd rfl hne
    | cons c t =>
      exact ⟨[c], t, rfl, Matches.cls p c (h c (by simp)),
        (matches_star_cls_iff p t).2 (fun e he => h e (by simp [he]))⟩

theorem matches_rep_cls_iff (p : Char → Bool) : ∀ (n : Nat) (s : List Char),
    Matches (rep n (cls p)) s ↔ s.length = n ∧ ∀ c ∈ s, p c = true
  | 0, s => by
    simp only [rep, matches_eps_iff]
    constructor
    · rintro rfl; simp
    · rintro ⟨h, _⟩; exact List.length_eq_zero.1 h
  | n + 1, s => by
    simp only [rep, matches_seq_iff, matches_cls_iff, matches_rep_cls_iff p n]
    constructor
    · rintro ⟨x, y, rfl, ⟨d, rfl, hd⟩, hlen, hy⟩
      refine ⟨by simp [hlen], ?_⟩
      intro e he
      rcases List.mem_cons.1 he with rfl | he
      · exact hd
      · exact hy e he
    · rintro ⟨hlen, h⟩
      cases s with
      | nil => simp at hlen
      | cons c t =>
        exact ⟨[c], t, rfl, ⟨c, rfl, h c (by simp)⟩, by simpa using hlen,
          fun e he => h e (by simp [he])⟩

theorem matches_upTo_cls_iff (p : Char → Bool) : ∀ (n : Nat) (s : List Char),
    Matches (upTo n (cls p)) s ↔ s.length ≤ n ∧ ∀ c ∈ s, p c = true
  | 0, s => by
    simp only [upTo, matches_eps_iff]
    constructor
    · rintro rfl; simp
    · rintro ⟨h, _⟩; exact List.length_eq_zero.1 (Nat.le_zero.1 h)
  | n + 1, s => by
    simp only [upTo, matches_opt_iff, matches_seq_iff, matches_cls_iff, matches_upTo_cls_iff p n]
    constructor
    · rintro (rfl | ⟨x, y, rfl, ⟨d, rfl, hd⟩, hlen, hy⟩)
      · simp
      · refine ⟨by simp; omega, ?_⟩
        intro e he
        rcases List.mem_cons.1 he with rfl | he
        · exact hd
        · exact hy e he
    · rintro ⟨hlen, h⟩
      cases s with
      | nil => exact Or.inl rfl
      | cons c t =>
        right
        exact ⟨[c], t, rfl, ⟨c, rfl, h c (by simp)⟩, by simp at hlen; omega,
          fun e he => h e (by simp [he])⟩

theorem matches_range_cls_iff (p : Char → Bool) (lo hi : Nat) (hle : lo ≤ hi) (s : List Char) :
    Matches (range lo hi (cls p)) s ↔ (lo ≤ s.length ∧ s.length ≤ hi) ∧ ∀ c ∈ s, p c = true := by
  unfold range
  simp only [matches_seq_iff, matches_rep_cls_iff, matches_upTo_cls_iff]
  constructor
  · rintro ⟨x, y, rfl, ⟨hx, hpx⟩, hy, hpy⟩
    refine ⟨by simp; omega, ?_⟩
    intro e he
    rcases List.mem_append.1 he with he | he
    · exact hpx e he
    · exact hpy e he
  · rintro ⟨⟨h1, h2⟩, h⟩
    refine ⟨s.take lo, s.drop lo, (List.take_append_drop lo s).symm, ⟨?_, ?_⟩, ?_, ?_⟩
    · simp; omega
    · exact fun e he => h e (List.mem_of_mem_take he)
    · simp; omega
    · exact fun e he => h e (List.mem_of_mem_drop he)

end Regex

/-! ## The patterns of `tag.go` and the grammars of the specification -/

open Regex Grammar

theorem eq_iff_toNat (a b : Char) : a = b ↔ a.toNat = b.toNat := by
  constructor
  · rintro rfl; rfl
  · intro h
    rw [← Char.ofNat_toNat a, ← Char.ofNat_toNat b, h]

theorem isDigit_iff (c : Char) : isDigit c = true ↔ 48 ≤ c.toNat ∧ c.toNat ≤ 57 := by
  unfold isDigit
  rw [Bool.and_eq_true, decide_eq_true_iff, decide_eq_true_iff]
  exact Iff.rfl

theorem isPosDigit_iff (c : Char) : isPosDigit c = true ↔ 49 ≤ c.toNat ∧ c.toNat ≤ 57 := by
  unfold isPosDigit
  rw [Bool.and_eq_true, decide_eq_true_iff, decide_eq_true_iff]
  exact Iff.rfl

theorem beq_hyphen_iff (c : Char) : (c == '-') = true ↔ c.toNat = 45 := by
  rw [beq_iff_eq, eq_iff_toNat]
  exact Iff.rfl

theorem isLetterHyphen_iff (c : Char) : isLetterHyphen c = true ↔
    (97 ≤ c.toNat ∧ c.toNat ≤ 122) ∨ (65 ≤ c.toNat ∧ c.toNat ≤ 90) ∨ c.toNat = 45 := by
  unfold isLetterHyphen
  simp only [Bool.or_eq_true, Bool.and_eq_true, decide_eq_true_iff, beq_hyphen_iff, or_assoc]
  exact Iff.rfl

theorem isAlnumHyphen_iff (c : Char) : isAlnumHyphen c = true ↔
    (48 ≤ c.toNat ∧ c.toNat ≤ 57) ∨ (97 ≤ c.toNat ∧ c.toNat ≤ 122) ∨
      (65 ≤ c.toNat ∧ c.toNat ≤ 90) ∨ c.toNat = 45 := by
  unfold isAlnumHyphen
  simp only [Bool.or_eq_true, Bool.and_eq_true, decide_eq_true_iff, beq_hyphen_iff, or_assoc]
  exact Iff.rfl

theorem charIsDigit_iff (c : Char) : c.isDigit = true ↔ 48 ≤ c.toNat ∧ c.toNat ≤ 57 := by
  unfold Char.isDigit
  rw [Bool.and_eq_true, decide_eq_true_iff, decide_eq_true_iff]
  exact Iff.rfl

theorem charIsAlnumHyphen_iff (c : Char) : (c.isAlphanum || c == '-') = true ↔
    (48 ≤ c.toNat ∧ c.toNat ≤ 57) ∨ (97 ≤ c.toNat ∧ c.toNat ≤ 122) ∨
      (65 ≤ c.toNat ∧ c.toNat ≤ 90) ∨ c.toNat = 45 := by
  have hU : c.isUpper = true ↔ 65 ≤ c.toNat ∧ c.toNat ≤ 90 := by
    unfold Char.isUpper
    rw [Bool.and_eq_true, decide_eq_true_iff, decide_eq_true_iff]
    exact Iff.rfl
  have hL : c.isLower = true ↔ 97 ≤ c.toNat ∧ c.toNat ≤ 122 := by
    unfold Char.isLower
    rw [Bool.and_eq_true, decide_eq_true_iff, decide_eq_true_iff]
    exact Iff.rfl
  unfold Char.isAlphanum Char.isAlpha
  simp only [Bool.or_eq_true, hU, hL, charIsDigit_iff, beq_hyphen_iff]
  tauto

theorem isDigit_eq (c : Char) : isDigit c = true ↔ c.isDigit = true := by
  rw [isDigit_iff, charIsDigit_iff]

theorem isAlnumHyphen_eq (c : Char) :
    isAlnumHyphen c = true ↔ (c.isAlphanum || c == '-') = true := by
  rw [isAlnumHyphen_iff, charIsAlnumHyphen_iff]

theorem matches_digits_iff (s : List Char) : Matches (plus (cls isDigit)) s ↔ Numeral s := by
  rw [matches_plus_cls_iff]
  simp only [Numeral, isDigit_eq]

theorem matches_reAlnumHyphens_iff (s : List Char) :
    Matches reAlnumHyphens s ↔ Identifier s := by
  unfold reAlnumHyphens
  rw [matches_plus_cls_iff]
  simp only [Identifier, isAlnumHyphen_eq]

theorem matches_reNumeric_iff (s : List Char) : Matches reNumeric s ↔ Component s := by
  unfold reNumeric Component Numeral NoLeadingZero
  rw [matches_alt_iff, matches_lit_iff, matches_seq_iff]
  constructor
  · rintro (rfl | ⟨x, y, rfl, hx, hy⟩)
    · exact ⟨⟨by simp, by simp⟩, Or.inl rfl⟩
    · obtain ⟨d, rfl, hd⟩ := (matches_cls_iff _ _).1 hx
      rw [matches_star_cls_iff] at hy
      rw [isPosDigit_iff] at hd
      refine ⟨⟨by simp, ?_⟩, Or.inr ?_⟩
      · intro e he
        rcases List.mem_cons.1 he with rfl | he
        · rw [charIsDigit_iff]; omega
        · exact (isDigit_eq e).1 (hy e he)
      · simp only [List.singleton_append, List.head?_cons, ne_eq, Option.some.injEq]
        intro h0
        rw [h0] at hd
        simp at hd
  · rintro ⟨⟨hne, hdig⟩, hz⟩
    cases s with
    | nil => exact absurd rfl hne
    | cons c t =>
      rcases hz with h0 | h0
      · exact Or.inl h0
      · right
        have hc := (charIsDigit_iff c).1 (hdig c (by simp))
        have hc0 : c.toNat ≠ 48 := by
          intro h48
          apply h0
          simp only [List.head?_cons, Option.some.injEq]
          exact (eq_iff_toNat c '0').2 h48
        refine ⟨[c], t, rfl, Matches.cls _ c ((isPosDigit_iff c).2 (by omega)), ?_⟩
        rw [matches_star_cls_iff]
        exact fun e he => (isDigit_eq e).2 (hdig e (by simp [he]))

theorem exists_first_not (p : Char → Bool) : ∀ s : List Char, (¬ ∀ c ∈ s, p c = true) →
    ∃ pre l post, s = pre ++ l :: post ∧ (∀ c ∈ pre, p c = true) ∧ p l = false
  | [], h => absurd (by simp) h
  | c :: t, h => by
    by_cases hc : p c = true
    · have ht : ¬ ∀ d ∈ t, p d = true := by
        intro hall
        apply h
        intro d hd
        rcases List.mem_cons.1 hd with rfl | hd
        · exact hc
        · exact hall d hd
      obtain ⟨pre, l, post, rfl, hpre, hl⟩ := exists_first_not p t ht
      refine ⟨c :: pre, l, post, rfl, ?_, hl⟩
      intro d hd
      rcases List.mem_cons.1 hd with rfl | hd
      · exact hc
      · exact hpre d hd
    · exact ⟨[], c, t, rfl, by simp, by simpa using hc⟩

theorem matches_rePreId_iff (s : List Char) :
    Matches rePreId s ↔ PrereleaseIdentifier s := by
  unfold rePreId PrereleaseIdentifier Identifier Numeral NoLeadingZero
  simp only [matches_alt_iff, matches_lit_iff, matches_seq_iff, matches_star_cls_iff,
    matches_cls_iff]
  constructor
  · rintro (rfl | ⟨x, y, rfl, ⟨d, rfl, hd⟩, hy⟩ | ⟨x, y, rfl, hx, z, w, rfl, ⟨l, rfl, hl⟩, hw⟩)
    · exact ⟨⟨by simp, by simp⟩, fun _ => Or.inl rfl⟩
    · rw [isPosDigit_iff] at hd
      refine ⟨⟨by simp, ?_⟩, fun _ => Or.inr ?_⟩
      · intro e he
        rcases List.mem_cons.1 he with rfl | he
        · rw [charIsAlnumHyphen_iff]; omega
        · have := (isDigit_iff e).1 (hy e he)
          rw [charIsAlnumHyphen_iff]; omega
      · simp only [List.singleton_append, List.head?_cons, ne_eq, Option.some.injEq]
        intro h0
        rw [h0] at hd
        simp at hd
    · rw [isLetterHyphen_iff] at hl
      refine ⟨⟨by simp, ?_⟩, ?_⟩
      · intro e he
        simp only [List.mem_append, List.mem_cons, List.singleton_append] at he
        rcases he with he | rfl | he
        · have := (isDigit_iff e).1 (hx e he)
          rw [charIsAlnumHyphen_iff]; omega
        · rw [charIsAlnumHyphen_iff]; omega
        · exact (isAlnumHyphen_eq e).1 (hw e he)
      · rintro ⟨_, hnum⟩
        have := (charIsDigit_iff l).1 (hnum l (by simp))
        omega
  · rintro ⟨⟨hne, hid⟩, hz⟩
    by_cases hnum : ∀ c ∈ s, c.isDigit = true
    · cases s with
      | nil => exact absurd rfl hne
      | cons c t =>
        rcases hz ⟨hne, hnum⟩ with h0 | h0
        · exact Or.inl h0
        · right; left
          have hc := (charIsDigit_iff c).1 (hnum c (by simp))
          have hc0 : c.toNat ≠ 48 := by
            intro h48
            apply h0
            simp only [List.head?_cons, Option.some.injEq]
            exact (eq_iff_toNat c '0').2 h48
          exact ⟨[c], t, rfl, ⟨c, rfl, (isPosDigit_iff c).2 (by omega)⟩,
            fun e he => (isDigit_eq e).2 (hnum e (by simp [he]))⟩
    · right; right
      have hnum1 : ¬ ∀ c ∈ s, isDigit c = true := by
        intro h
        exact hnum (fun c hc => (isDigit_eq c).1 (h c hc))
      obtain ⟨pre, l, post, rfl, hpre, hl⟩ := exists_first_not isDigit s hnum1
      have hl1 := (charIsAlnumHyphen_iff l).1 (hid l (by simp))
      have hl2 : ¬ (48 ≤ l.toNat ∧ l.toNat ≤ 57) := by
        intro h
        rw [(isDigit_iff l).2 h] at hl
        cases hl
      refine ⟨pre, l :: post, rfl, hpre, [l], post, rfl,
        ⟨l, rfl, (isLetterHyphen_iff l).2 (by omega)⟩, ?_⟩
      exact fun e he => (isAlnumHyphen_eq e).2 (hid e (by simp [he]))

theorem dotJoin_cons (g : List Char) (gs : List (List Char)) :
    dotJoin (g :: gs) = g ++ (gs.map (fun x => '.' :: x)).flatten := by
  induction gs generalizing g with
  | nil => simp [dotJoin]
  | cons h gs ih => simp [dotJoin, ih h]

theorem matches_dotStar_iff (r : Regex) (P : List Char → Prop)
    (hr : ∀ x, Matches r x ↔ P x) (s : List Char) :
    Matches (star (seq (lit '.') r)) s ↔
      ∃ gs : List (List Char), (∀ g ∈ gs, P g) ∧ s = (gs.map (fun x => '.' :: x)).flatten := by
  rw [matches_star_join]
  constructor
  · rintro ⟨parts, hp, rfl⟩
    induction parts with
    | nil => exact ⟨[], by simp, by simp⟩
    | cons x parts ih =>
      obtain ⟨gs, hgs, heq⟩ := ih (fun z hz => hp z (by simp [hz]))
      have hx := hp x (by simp)
      rw [matches_seq_iff] at hx
      obtain ⟨a, b, rfl, ha, hb⟩ := hx
      rw [matches_lit_iff] at ha
      subst ha
      refine ⟨b :: gs, ?_, by simp [heq]⟩
      intro g hg
      rcases List.mem_cons.1 hg with rfl | hg
      · exact (hr _).1 hb
      · exact hgs g hg
  · rintro ⟨gs, hgs, rfl⟩
    refine ⟨gs.map (fun x => '.' :: x), ?_, rfl⟩
    intro x hx
    obtain ⟨g, hg, rfl⟩ := List.mem_map.1 hx
    rw [matches_seq_iff]
    exact ⟨['.'], g, rfl, (matches_lit_iff _ _).2 rfl, (hr g).2 (hgs g hg)⟩

theorem matches_dotted_iff (r : Regex) (P : List Char → Prop)
    (hr : ∀ x, Matches r x ↔ P x) (s : List Char) :
    Matches (seq r (star (seq (lit '.') r))) s ↔ DotSeparated P s := by
  rw [matches_seq_iff]
  unfold DotSeparated
  constructor
  · rintro ⟨x, y, rfl, hx, hy⟩
    obtain ⟨gs, hgs, rfl⟩ := (matches_dotStar_iff r P hr y).1 hy
    refine ⟨x :: gs, by simp, ?_, (dotJoin_cons x gs).symm⟩
    intro g hg
    rcases List.mem_cons.1 hg with rfl | hg
    · exact (hr _).1 hx
    · exact hgs g hg
  · rintro ⟨items, hne, hP, rfl⟩
    cases items with
    | nil => exact absurd rfl hne
    | cons g gs =>
      refine ⟨g, _, dotJoin_cons g gs, (hr g).2 (hP g (by simp)), ?_⟩
      exact (matches_dotStar_iff r P hr _).2 ⟨gs, fun z hz => hP z (by simp [hz]), rfl⟩

theorem matches_optSep_iff (sep : Char) (r : Regex) (P : List Char → Prop)
    (hr : ∀ x, Matches r x ↔ P x) (s : List Char) :
    Matches (opt (seq (lit sep) r)) s ↔ Optional sep P s := by
  rw [matches_opt_iff, matches_seq_iff]
  unfold Optional
  constructor
  · rintro (rfl | ⟨x, y, rfl, hx, hy⟩)
    · exact Or.inl rfl
    · rw [matches_lit_iff] at hx
      subst hx
      exact Or.inr ⟨y, (hr y).1 hy, rfl⟩
  · rintro (rfl | ⟨x, hx, rfl⟩)
    · exact Or.inl rfl
    · exact Or.inr ⟨[sep], x, rfl, (matches_lit_iff _ _).2 rfl, (hr x).2 hx⟩

theorem matches_reSemVer_iff (s : List Char) : Matches reSemVer s ↔ SemVer s := by
  unfold reSemVer SemVer
  simp only [matches_seq_iff, matches_lit_iff, matches_reNumeric_iff,
    matches_optSep_iff '-' _ _ (matches_dotted_iff rePreId _ matches_rePreId_iff),
    matches_optSep_iff '+' _ _ (matches_dotted_iff reAlnumHyphens _ matches_reAlnumHyphens_iff)]
  constructor
  · rintro ⟨major, _, rfl, hmajor, _, _, rfl, rfl, minor, _, rfl, hminor, _, _, rfl, rfl,
      patch, _, rfl, hpatch, pre, build, rfl, hpre, hbuild⟩
    exact ⟨major, minor, patch, pre, build, hmajor, hminor, hpatch, hpre, hbuild, by simp⟩
  · rintro ⟨major, minor, patch, pre, build, hmajor, hminor, hpatch, hpre, hbuild, rfl⟩
    exact ⟨major, _, by simp, hmajor, ['.'], _, rfl, rfl, minor, _, rfl, hminor, ['.'], _, rfl,
      rfl, patch, _, rfl, hpatch, pre, build, rfl, hpre, hbuild⟩

theorem matches_reSuffix_iff (s : List Char) : Matches reSuffix s ↔ Optional '-' Identifier s :=
  matches_optSep_iff '-' _ _ matches_reAlnumHyphens_iff s

theorem matches_reDotGroup_iff (s : List Char) : Matches reDotGroup s ↔ Optional '.' Numeral s :=
  matches_optSep_iff '.' _ _ matches_digits_iff s

theorem matches_reCalVer_iff (s : List Char) : Matches reCalVer s ↔ CalVer s := by
  unfold reCalVer CalVer
  simp only [matches_seq_iff, matches_lit_iff, matches_digits_iff, matches_reSuffix_iff,
    matches_range_cls_iff isDigit 4 8 (by decide), isDigit_eq]
  constructor
  · rintro ⟨year, _, rfl, ⟨⟨h4, h8⟩, hyear⟩, _, _, rfl, rfl, n, suffix, rfl, hn, hsuf⟩
    exact ⟨year, n, suffix, ⟨h4, h8, hyear⟩, hn, hsuf, by simp⟩
  · rintro ⟨year, n, suffix, ⟨h4, h8, hyear⟩, hn, hsuf, rfl⟩
    exact ⟨year, _, by simp, ⟨⟨h4, h8⟩, hyear⟩, ['.'], _, rfl, rfl, n, suffix, rfl, hn, hsuf⟩

theorem matches_reSeqVer_iff (s : List Char) : Matches reSeqVer s ↔ SeqVer s := by
  unfold reSeqVer SeqVer
  simp only [matches_seq_iff, matches_digits_iff, matches_reSuffix_iff, matches_reDotGroup_iff]
  constructor
  · rintro ⟨g0, _, rfl, hg0, x1, _, rfl, hx1, x2, _, rfl, hx2, x3, suffix, rfl, hx3, hsuf⟩
    rcases hx1 with rfl | ⟨g1, hg1, rfl⟩ <;> rcases hx2 with rfl | ⟨g2, hg2, rfl⟩ <;>
      rcases hx3 with rfl | ⟨g3, hg3, rfl⟩
    · exact ⟨[g0], suffix, by simp, by simpa using hg0, hsuf, by simp [dotJoin]⟩
    · exact ⟨[g0, g3], suffix, by simp, by simp [hg0, hg3], hsuf, by simp [dotJoin]⟩
    · exact ⟨[g0, g2], suffix, by simp, by simp [hg0, hg2], hsuf, by simp [dotJoin]⟩
    · exact ⟨[g0, g2, g3], suffix, by simp, by simp [hg0, hg2, hg3], hsuf, by simp [dotJoin]⟩
    · exact ⟨[g0, g1], suffix, by simp, by simp [hg0, hg1], hsuf, by simp [dotJoin]⟩
    · exact ⟨[g0, g1, g3], suffix, by simp, by simp [hg0, hg1, hg3], hsuf, by simp [dotJoin]⟩
    · exact ⟨[g0, g1, g2], suffix, by simp, by simp [hg0, hg1, hg2], hsuf, by simp [dotJoin]⟩
    · exact ⟨[g0, g1, g2, g3], suffix, by simp, by simp [hg0, hg1, hg2, hg3], hsuf,
        by simp [dotJoin]⟩
  · rintro ⟨groups, suffix, ⟨h1, h4⟩, hg, hsuf, rfl⟩
    match groups, h1, h4, hg with
    | [g0], _, _, hg =>
      exact ⟨g0, _, by simp [dotJoin], hg g0 (by simp), [], _, rfl, Or.inl rfl, [], _, rfl,
        Or.inl rfl, [], suffix, rfl, Or.inl rfl, hsuf⟩
    | [g0, g1], _, _, hg =>
      exact ⟨g0, _, by simp [dotJoin], hg g0 (by simp), '.' :: g1, _, rfl,
        Or.inr ⟨g1, hg g1 (by simp), rfl⟩, [], _, rfl, Or.inl rfl, [], suffix, rfl,
        Or.inl rfl, hsuf⟩
    | [g0, g1, g2], _, _, hg =>
      exact ⟨g0, _, by simp [dotJoin], hg g0 (by simp), '.' :: g1, _, rfl,
        Or.inr ⟨g1, hg g1 (by simp), rfl⟩, '.' :: g2, _, rfl,
        Or.inr ⟨g2, hg g2 (by simp), rfl⟩, [], suffix, rfl, Or.inl rfl, hsuf⟩
    | [g0, g1, g2, g3], _, _, hg =>
      exact ⟨g0, _, by simp [dotJoin], hg g0 (by simp), '.' :: g1, _, rfl,
        Or.inr ⟨g1, hg g1 (by simp), rfl⟩, '.' :: g2, _, rfl,
        Or.inr ⟨g2, hg g2 (by simp), rfl⟩, '.' :: g3, suffix, rfl,
        Or.inr ⟨g3, hg g3 (by simp), rfl⟩, hsuf⟩
    | [], h1, _, _ => simp at h1
    | _ :: _ :: _ :: _ :: _ :: _, _, h4, _ => simp at h4

theorem TrimPrefix_v_data (name : String) : (TrimPrefix name "v").data = stripV name.data := by
  unfold TrimPrefix
  cases h : name.data with
  | nil => simp [stripV, h, List.isPrefixOf]
  | cons c t =>
    by_cases hc : c = 'v'
    · subst hc
      simp [stripV, List.isPrefixOf]
    · have hc1 : ¬ 'v' = c := fun h => hc h.symm
      simp [stripV, List.isPrefixOf, hc, hc1, h]

theorem IsTag_iff (name : String) :
    IsTag name = true ↔
      stripV name.data ≠ [] ∧ (Matches reSemVer (stripV name.data) ∨
        Matches reCalVer (stripV name.data) ∨ Matches reSeqVer (stripV name.data)) := by
  have hs : ∀ r : Regex, rmatch r (TrimPrefix name "v").data = true ↔
      Matches r (stripV name.data) := fun r => by rw [rmatch_iff, TrimPrefix_v_data]
  have he : TrimPrefix name "v" = "" ↔ stripV name.data = [] := by
    rw [← TrimPrefix_v_data]
    constructor
    · intro h; rw [h]
    · intro h; exact String.ext h
  unfold IsTag MatchString
  dsimp only
  by_cases h0 : TrimPrefix name "v" = ""
  · rw [if_pos h0]
    simp [he.1 h0]
  · have h1 : stripV name.data ≠ [] := fun h => h0 (he.2 h)
    rw [if_neg h0]
    by_cases ha : rmatch reSemVer (TrimPrefix name "v").data = true
    · rw [if_pos ha]
      simp [(hs _).1 ha, h1]
    · rw [if_neg ha]
      by_cases hb : rmatch reCalVer (TrimPrefix name "v").data = true
      · rw [if_pos hb]
        simp [(hs _).1 hb, h1]
      · rw [if_neg hb]
        by_cases hc : rmatch reSeqVer (TrimPrefix name "v").data = true
        · rw [if_pos hc]
          simp [(hs _).1 hc, h1]
        · rw [if_neg hc]
          rw [hs] at ha hb hc
          simp [ha, hb, hc]

theorem IsTag_iff_grammar (name : String) : IsTag name = true ↔ IsReleaseName name := by
  rw [IsTag_iff]
  unfold IsReleaseName
  rw [matches_reSemVer_iff, matches_reCalVer_iff, matches_reSeqVer_iff]

theorem numeral_cons (g : List Char) (h : Numeral g) :
    ∃ c rest, g = c :: rest ∧ c.isDigit = true := by
  cases g with
  | nil => exact absurd rfl h.1
  | cons c rest => exact ⟨c, rest, rfl, h.2 c (by simp)⟩

theorem grammar_head_digit (s : List Char) (h : SemVer s ∨ CalVer s ∨ SeqVer s) :
    ∃ c, s.head? = some c ∧ c.isDigit = true := by
  rcases h with ⟨major, minor, patch, pre, build, hmajor, _, _, _, _, rfl⟩ |
    ⟨year, n, suffix, ⟨h4, _, hyear⟩, _, _, rfl⟩ | ⟨groups, suffix, ⟨h1, _⟩, hg, _, rfl⟩
  · obtain ⟨c, rest, rfl, hc⟩ := numeral_cons major hmajor.1
    exact ⟨c, by simp, hc⟩
  · cases year with
    | nil => simp at h4
    | cons c rest => exact ⟨c, by simp, hyear c (by simp)⟩
  · cases groups with
    | nil => simp at h1
    | cons g gs =>
      obtain ⟨c, rest, rfl, hc⟩ := numeral_cons g (hg g (by simp))
      exact ⟨c, by rw [dotJoin_cons]; simp, hc⟩

theorem IsTag_false_of_head (name : String)
    (h : ∀ c, (TrimPrefix name "v").data.head? = some c → c.isDigit = false) :
    IsTag name = false := by
  rw [TrimPrefix_v_data] at h
  rw [← Bool.not_eq_true, IsTag_iff_grammar]
  rintro ⟨_, hg⟩
  obtain ⟨c, hs, hc⟩ := grammar_head_digit _ hg
  have := h c hs
  rw [hc] at this
  cases this

theorem digit_not_sep (c : Char) (h : c.isDigit = true) : c ≠ '.' ∧ c ≠ '-' ∧ c ≠ '+' ∧ c ≠ 'v' := by
  rw [charIsDigit_iff] at h
  refine ⟨?_, ?_, ?_, ?_⟩ <;> rintro rfl <;> simp at h

theorem mem_dotTail (gs : List (List Char)) (hg : ∀ g ∈ gs, Numeral g) :
    ∀ c ∈ (gs.map (fun x => '.' :: x)).flatten, c.isDigit = true ∨ c = '.' := by
  intro c hc
  simp only [List.mem_flatten, List.mem_map] at hc
  obtain ⟨l, ⟨g, hgm, rfl⟩, hcl⟩ := hc
  rcases List.mem_cons.1 hcl with rfl | hcg
  · exact Or.inr rfl
  · exact Or.inl ((hg g hgm).2 c hcg)

theorem mem_dotJoin (gs : List (List Char)) (hg : ∀ g ∈ gs, Numeral g) :
    ∀ c ∈ dotJoin gs, c.isDigit = true ∨ c = '.' := by
  cases gs with
  | nil => intro c hc; simp [dotJoin] at hc
  | cons g gs =>
    intro c hc
    rw [dotJoin_cons] at hc
    rcases List.mem_append.1 hc with h | h
    · exact Or.inl ((hg g (by simp)).2 c h)
    · exact mem_dotTail gs (fun x hx => hg x (by simp [hx])) c h

theorem count_dot_digits (g : List Char) (h : ∀ c ∈ g, c.isDigit = true) : g.count '.' = 0 := by
  rw [List.count_eq_zero]
  intro hmem
  exact (digit_not_sep '.' (h '.' hmem)).1 rfl

theorem count_dotTail (gs : List (List Char)) (hg : ∀ g ∈ gs, Numeral g) :
    ((gs.map (fun x => '.' :: x)).flatten).count '.' = gs.length := by
  induction gs with
  | nil => simp
  | cons g gs ih =>
    have h1 := count_dot_digits g (hg g (by simp)).2
    have h2 := ih (fun x hx => hg x (by simp [hx]))
    simp only [List.map_cons, List.flatten_cons, List.cons_append, List.count_cons_self,
      List.count_append, List.length_cons, h1, h2]
    omega

theorem count_dotJoin (gs : List (List Char)) (hg : ∀ g ∈ gs, Numeral g) :
    (dotJoin gs).count '.' + 1 = max 1 gs.length := by
  cases gs with
  | nil => simp [dotJoin]
  | cons g gs =>
    rw [dotJoin_cons, List.count_append, count_dot_digits g (hg g (by simp)).2,
      count_dotTail gs (fun x hx => hg x (by simp [hx]))]
    simp

theorem optional_nil (sep : Char) (P : List Char → Prop) (x : List Char)
    (h : Optional sep P x) (hsep : sep ∉ x) : x = [] := by
  rcases h with rfl | ⟨y, _, rfl⟩
  · rfl
  · exact absurd (by simp) hsep

theorem not_release_of_five (groups : List (List Char)) (h5 : 5 ≤ groups.length)
    (hg : ∀ g ∈ groups, Numeral g) :
    ¬ (SemVer (dotJoin groups) ∨ CalVer (dotJoin groups) ∨ SeqVer (dotJoin groups)) := by
  have hmem := mem_dotJoin groups hg
  have hcount := count_dotJoin groups hg
  have hno : ∀ (sep : Char), sep = '-' ∨ sep = '+' → sep ∉ dotJoin groups := by
    intro sep hsep hin
    rcases hmem sep hin with hd | hd
    · have := digit_not_sep sep hd
      rcases hsep with rfl | rfl
      · exact this.2.1 rfl
      · exact this.2.2.1 rfl
    · rcases hsep with rfl | rfl <;> simp at hd
  rintro (⟨major, minor, patch, pre, build, hmajor, hminor, hpatch, hpre, hbuild, hs⟩ |
    ⟨year, n, suffix, ⟨_, _, hyear⟩, hn, hsuf, hs⟩ | ⟨gs, suffix, ⟨_, h4⟩, hgs, hsuf, hs⟩)
  · have hp : pre = [] := optional_nil _ _ _ hpre (fun h => hno '-' (Or.inl rfl) (by
      rw [hs]; simp [h]))
    have hb : build = [] := optional_nil _ _ _ hbuild (fun h => hno '+' (Or.inr rfl) (by
      rw [hs]; simp [h]))
    rw [hs, hp, hb] at hcount
    simp only [List.append_nil, List.count_append, List.count_cons_self,
      count_dot_digits major hmajor.1.2, count_dot_digits minor hminor.1.2,
      count_dot_digits patch hpatch.1.2] at hcount
    omega
  · have hp : suffix = [] := optional_nil _ _ _ hsuf (fun h => hno '-' (Or.inl rfl) (by
      rw [hs]; simp [h]))
    rw [hs, hp] at hcount
    simp only [List.append_nil, List.count_append, List.count_cons_self,
      count_dot_digits year hyear, count_dot_digits n hn.2] at hcount
    omega
  · have hp : suffix = [] := optional_nil _ _ _ hsuf (fun h => hno '-' (Or.inl rfl) (by
      rw [hs]; simp [h]))
    have hc2 := count_dotJoin gs hgs
    rw [hs, hp, List.append_nil] at hcount
    omega

theorem IsTag_five_groups (groups : List (List Char)) (h5 : 5 ≤ groups.length)
    (hg : ∀ g ∈ groups, Numeral g) :
    IsTag (String.mk (dotJoin groups)) = false ∧
      IsTag (String.mk ('v' :: dotJoin groups)) = false := by
  have hnot := not_release_of_five groups h5 hg
  have hstrip : stripV (dotJoin groups) = dotJoin groups := by
    cases groups with
    | nil => simp at h5
    | cons g gs =>
      obtain ⟨c, rest, rfl, hc⟩ := numeral_cons g (hg g (by simp))
      rw [dotJoin_cons]
      simp [stripV, (digit_not_sep c hc).2.2.2]
  constructor
  · rw [← Bool.not_eq_true, IsTag_iff_grammar]
    unfold IsReleaseName
    simp only [hstrip]
    exact fun h => hnot h.2
  · rw [← Bool.not_eq_true, IsTag_iff_grammar]
    unfold IsReleaseName
    simp only [stripV, if_true]
    exact fun h => hnot h.2

end Detect

/-! ## The retention engine -/

namespace Do

variable {σ : Type}

theorem categorize_keep (c : DigitalOceanClient) (env : Env σ) (input : CleanupInput) :
    ∀ (tags k d : List Tag) (s : σ),
      (categorize c env input tags k d s).1 = k ++ tags.filter (isRelease c env)
  | [], k, d, s => by simp [categorize]
  | t :: rest, k, d, s => by
    rw [categorize]
    split_ifs with h1 h2 h3 <;> rw [categorize_keep c env input rest] <;>
      simp [isRelease, List.filter_cons, *]

theorem categorize_delete_sublist (c : DigitalOceanClient) (env : Env σ) (input : CleanupInput) :
    ∀ (tags k d : List Tag) (s : σ),
      ∃ D, (categorize c env input tags k d s).2.1 = d ++ D ∧
        D.Sublist (tags.filter (isBranch c env))
  | [], k, d, s => ⟨[], by simp [categorize]⟩
  | t :: rest, k, d, s => by
    rw [categorize]
    split_ifs with h1 h2 h3
    · obtain ⟨D, hD, hsub⟩ := categorize_delete_sublist c env input rest k d s
      exact ⟨D, hD, by simpa [isBranch, List.filter_cons, h1] using hsub⟩
    · obtain ⟨D, hD, hsub⟩ := categorize_delete_sublist c env input rest (k ++ [t]) d s
      exact ⟨D, hD, by simpa [isBranch, List.filter_cons, h1, h2] using hsub⟩
    · obtain ⟨D, hD, hsub⟩ := categorize_delete_sublist c env input rest k d (env.Now s).2
      refine ⟨D, hD, ?_⟩
      simp only [isBranch, List.filter_cons, h1, h2] at hsub ⊢
      simpa using hsub.trans (List.sublist_cons_self _ _)
    · obtain ⟨D, hD, hsub⟩ :=
        categorize_delete_sublist c env input rest k (d ++ [t]) (env.Now s).2
      refine ⟨t :: D, by simp [hD], ?_⟩
      simp only [isBranch, List.filter_cons, h1, h2] at hsub ⊢
      simpa using hsub

theorem categorize_delete_clock (c : DigitalOceanClient) (env : Env σ) (input : CleanupInput)
    (now : Int) (hclock : ClockAt env now) :
    ∀ (tags k d : List Tag) (s : σ),
      (categorize c env input tags k d s).2.1 = d ++ tags.filter (fun t =>
        isBranch c env t && !Time.After t.UpdatedAt (Time.Add now (Duration.neg input.MinAge)))
  | [], k, d, s => by simp [categorize]
  | t :: rest, k, d, s => by
    rw [categorize]
    have hn : (env.Now s).1 = now := hclock s
    split_ifs with h1 h2 h3 <;> rw [categorize_delete_clock c env input now hclock rest] <;>
      simp_all [isBranch, List.filter_cons]

theorem neg_of_range (d : Int) (hlo : minInt64 < d) (hhi : d ≤ maxInt64) :
    Duration.neg d = -d := by
  have h1 : (-9223372036854775808 : Int) < d := hlo
  have h2 : d ≤ (9223372036854775807 : Int) := hhi
  show ((-d + 9223372036854775808) % 18446744073709551616 - 9223372036854775808 : Int) = -d
  omega

theorem deleteLoop_append (c : DigitalOceanClient) (env : Env σ) (input : CleanupInput) :
    ∀ (xs ys del : List Tag) (calls : List String) (s : σ),
      deleteLoop c env input (xs ++ ys) del calls s =
        match (deleteLoop c env input xs del calls s).err with
        | some _ => deleteLoop c env input xs del calls s
        | none => deleteLoop c env input ys (deleteLoop c env input xs del calls s).tags
            (deleteLoop c env input xs del calls s).deleteCalls
            (deleteLoop c env input xs del calls s).state
  | [], ys, del, calls, s => by simp [deleteLoop]
  | x :: xs, ys, del, calls, s => by
    rw [List.cons_append, deleteLoop, deleteLoop]
    by_cases hd : input.DryRun = true
    · simp only [hd, Bool.not_true, Bool.false_eq_true, if_false]
      exact deleteLoop_append c env input xs ys _ _ _
    · simp only [hd, Bool.not_false, if_true]
      rcases h : deleteTag c env input.Registry input.Repository x.Tag s with ⟨o, s1⟩
      cases o with
      | none => simpa using deleteLoop_append c env input xs ys _ _ _
      | some e => simp

theorem cleanupListed_eq (c : DigitalOceanClient) (env : Env σ) (input : CleanupInput)
    (tags : List Tag) (s : σ) :
    cleanupListed c env input tags s =
      deleteLoop c env input (deletionSequence c env input tags s) [] []
        (categorize c env input tags [] [] s).2.2 := by
  unfold cleanupListed deletionSequence
  rw [deleteLoop_append]

theorem deleteLoop_dry (c : DigitalOceanClient) (env : Env σ) (input : CleanupInput)
    (hdry : input.DryRun = true) :
    ∀ (xs del : List Tag) (calls : List String) (s : σ),
      deleteLoop c env input xs del calls s = ⟨del ++ xs, none, calls, s⟩
  | [], del, calls, s => by simp [deleteLoop]
  | x :: xs, del, calls, s => by
    rw [deleteLoop]
    simp only [hdry, Bool.not_true, Bool.false_eq_true, if_false]
    rw [deleteLoop_dry c env input hdry xs]
    simp

theorem deleteLoop_ok (c : DigitalOceanClient) (env : Env σ) (input : CleanupInput)
    (hwet : input.DryRun = false) (hok : DeletesSucceed c env input) :
    ∀ (xs del : List Tag) (calls : List String) (s : σ),
      (deleteLoop c env input xs del calls s).tags = del ++ xs ∧
      (deleteLoop c env input xs del calls s).err = none ∧
      (deleteLoop c env input xs del calls s).deleteCalls = calls ++ xs.map (fun t => t.Tag)
  | [], del, calls, s => by simp [deleteLoop]
  | x :: xs, del, calls, s => by
    rw [deleteLoop]
    simp only [hwet, Bool.not_false, if_true]
    rcases h : deleteTag c env input.Registry input.Repository x.Tag s with ⟨o, s1⟩
    have ho : o = none := by simpa [h] using hok x.Tag s
    subst ho
    simpa using deleteLoop_ok c env input hwet hok xs (del ++ [x]) (calls ++ [x.Tag]) s1

theorem deleteLoop_cases (c : DigitalOceanClient) (env : Env σ) (input : CleanupInput)
    (hwet : input.DryRun = false) :
    ∀ (xs del : List Tag) (calls : List String) (s : σ),
      ((deleteLoop c env input xs del calls s).err = none ∧
        (deleteLoop c env input xs del calls s).tags = del ++ xs ∧
        (deleteLoop c env input xs del calls s).deleteCalls = calls ++ xs.map (fun t => t.Tag)) ∨
      (∃ (pre : List Tag) (f : Tag) (post : List Tag) (e : String) (s1 : σ),
        xs = pre ++ f :: post ∧
        (deleteLoop c env input xs del calls s).tags = del ++ pre ∧
        (deleteLoop c env input xs del calls s).deleteCalls
          = calls ++ (pre ++ [f]).map (fun t => t.Tag) ∧
        (deleteLoop c env input xs del calls s).err = some (deleteError input f.Tag e) ∧
        (deleteTag c env input.Registry input.Repository f.Tag s1).1 = some e)
  | [], del, calls, s => by simp [deleteLoop]
  | x :: xs, del, calls, s => by
    rw [deleteLoop]
    simp only [hwet, Bool.not_false, if_true]
    rcases h : deleteTag c env input.Registry input.Repository x.Tag s with ⟨o, s1⟩
    cases o with
    | some e =>
      right
      exact ⟨[], x, xs, e, s, by simp [h]⟩
    | none =>
      rcases deleteLoop_cases c env input hwet xs (del ++ [x]) (calls ++ [x.Tag]) s1 with
        ⟨h1, h2, h3⟩ | ⟨pre, f, post, e, s2, h1, h2, h3, h4, h5⟩
      · left
        simp [h1, h2, h3]
      · right
        exact ⟨x :: pre, f, post, e, s2, by simp [h1], by simp [h2], by simp [h3], by simp [h4], h5⟩

theorem deleteLoop_fails (c : DigitalOceanClient) (env : Env σ) (input : CleanupInput)
    (hwet : input.DryRun = false) :
    ∀ (xs del : List Tag) (calls : List String) (s : σ),
      (∃ t ∈ xs, ∀ s1 : σ, (deleteTag c env input.Registry input.Repository t.Tag s1).1 ≠ none) →
      (deleteLoop c env input xs del calls s).err ≠ none
  | [], del, calls, s => by simp
  | x :: xs, del, calls, s => by
    rintro ⟨t, ht, hfail⟩
    rw [deleteLoop]
    simp only [hwet, Bool.not_false, if_true]
    rcases h : deleteTag c env input.Registry input.Repository x.Tag s with ⟨o, s1⟩
    cases o with
    | some e => simp
    | none =>
      rcases List.mem_cons.1 ht with rfl | ht1
      · exact absurd (by simp [h]) (hfail s)
      · exact deleteLoop_fails c env input hwet xs _ _ s1 ⟨t, ht1, hfail⟩

theorem deleteLoop_subset (c : DigitalOceanClient) (env : Env σ) (input : CleanupInput)
    (xs : List Tag) (s : σ) :
    (∀ t ∈ (deleteLoop c env input xs [] [] s).tags, t ∈ xs) ∧
    (∀ n ∈ (deleteLoop c env input xs [] [] s).deleteCalls, ∃ t ∈ xs, t.Tag = n) := by
  cases hd : input.DryRun with
  | true => simp [deleteLoop_dry c env input hd]
  | false =>
    rcases deleteLoop_cases c env input hd xs [] [] s with
      ⟨_, h2, h3⟩ | ⟨pre, f, post, e, s2, h1, h2, h3, _, _⟩
    · simp [h2, h3]
    · rw [h2, h3, h1]
      constructor
      · intro t ht
        simp only [List.nil_append] at ht
        simp [ht]
      · intro n hn
        simp only [List.nil_append, List.map_append, List.mem_append, List.mem_map,
          List.map_cons, List.map_nil, List.mem_singleton] at hn
        rcases hn with ⟨t, ht, rfl⟩ | rfl
        · exact ⟨t, by simp [ht], rfl⟩
        · exact ⟨f, by simp, rfl⟩

theorem releaseTagsToDelete_sublist (input : CleanupInput) (keepTags : List Tag) :
    (releaseTagsToDelete input keepTags).Sublist keepTags := by
  unfold releaseTagsToDelete
  split_ifs
  · exact List.take_sublist _ _
  · exact List.nil_sublist _

theorem deletionSequence_mem (c : DigitalOceanClient) (env : Env σ) (input : CleanupInput)
    (hsort : SortFuncSpec env.SortFunc) (tags : List Tag) (s : σ) (t : Tag)
    (ht : t ∈ deletionSequence c env input tags s) :
    t ∈ tags ∧ isProtected c env t.Tag = false := by
  unfold deletionSequence at ht
  rcases List.mem_append.1 ht with h | h
  · have h1 := (releaseTagsToDelete_sublist input _).subset h
    have h2 := ((hsort _).1.subset h1)
    rw [categorize_keep] at h2
    simp only [List.nil_append, List.mem_filter, isRelease, Bool.and_eq_true,
      Bool.not_eq_true'] at h2
    exact ⟨h2.1, h2.2.1⟩
  · obtain ⟨D, hD, hsub⟩ := categorize_delete_sublist c env input tags [] [] s
    rw [hD] at h
    have h2 := hsub.subset (by simpa using h)
    simp only [List.mem_filter, isBranch, Bool.and_eq_true, Bool.not_eq_true'] at h2
    exact ⟨h2.1, h2.2.1⟩

theorem isProtected_false_iff (c : DigitalOceanClient) (env : Env σ) (name : String) :
    isProtected c env name = false ↔ ∀ p ∈ c.protectedTags, env.EqualFold p name = false := by
  simp [isProtected]

/-- C1. No tag that `RunCleanup` returns, and no tag it passes to `deleteTag`, has a
name that `strings.EqualFold` equates with an entry of the protected list: for every
client, environment (listing, clock, outcomes of the delete calls), input and state. -/
theorem C1_protected_never_deleted (c : DigitalOceanClient) (env : Env σ) (input : CleanupInput)
    (s : σ) (hsort : SortFuncSpec env.SortFunc) :
    (∀ t ∈ (RunCleanup c env input s).tags,
        ∀ p ∈ c.protectedTags, env.EqualFold p t.Tag = false) ∧
    (∀ n ∈ (RunCleanup c env input s).deleteCalls,
        ∀ p ∈ c.protectedTags, env.EqualFold p n = false) := by
  unfold RunCleanup
  rcases h : listTags c env input.Registry input.Repository s with ⟨r, s1⟩
  cases r with
  | error e => simp
  | ok tags =>
    simp only [cleanupListed_eq]
    have hsub := deleteLoop_subset c env input (deletionSequence c env input tags s1)
      (categorize c env input tags [] [] s1).2.2
    constructor
    · intro t ht
      exact (isProtected_false_iff c env t.Tag).1
        (deletionSequence_mem c env input hsort tags s1 t (hsub.1 t ht)).2
    · intro n hn
      obtain ⟨t, ht, rfl⟩ := hsub.2 n hn
      exact (isProtected_false_iff c env t.Tag).1
        (deletionSequence_mem c env input hsort tags s1 t ht).2

theorem cmpUpdatedAt_neg_iff (a b : Tag) : cmpUpdatedAt a b < 0 ↔ a.UpdatedAt < b.UpdatedAt := by
  unfold cmpUpdatedAt Time.Compare
  split_ifs with h1 h2 <;> simp <;> omega

theorem cmpUpdatedAt_nonpos_iff (a b : Tag) : cmpUpdatedAt a b ≤ 0 ↔ a.UpdatedAt ≤ b.UpdatedAt := by
  unfold cmpUpdatedAt Time.Compare
  split_ifs with h1 h2 <;> simp <;> omega

theorem insertionSortFunc_spec : SortFuncSpec insertionSortFunc := by
  intro xs
  refine ⟨List.perm_insertionSort _ xs, ?_⟩
  haveI : IsTotal Tag (fun a b => cmpUpdatedAt a b ≤ 0) :=
    ⟨fun a b => by simp only [cmpUpdatedAt_nonpos_iff]; exact le_total _ _⟩
  haveI : IsTrans Tag (fun a b => cmpUpdatedAt a b ≤ 0) :=
    ⟨fun a b c => by simp only [cmpUpdatedAt_nonpos_iff]; exact le_trans⟩
  have h := List.sorted_insertionSort (fun a b => cmpUpdatedAt a b ≤ 0) xs
  refine List.Pairwise.imp ?_ h
  intro a b hab
  rw [cmpUpdatedAt_neg_iff]
  rw [cmpUpdatedAt_nonpos_iff] at hab
  exact not_lt.2 hab

/-- The run of C1: the listing of `TestRunCleanup_DeleteOldBranches`, whose protected tag
is as old as the oldest deleted one. -/
theorem C1_protected_never_deleted_witness :
    ((RunCleanup ⟨"test-token", ["prod-protected"]⟩ (fixedEnv branchListing exampleNow (fun _ => 204))
        ⟨"test", "test", false, 0, 7 * day⟩ ()).tags.map (fun t => t.Tag)
      = ["tag-40-days-old", "tag-8-days-old"]) ∧
    ((∀ t ∈ (RunCleanup ⟨"test-token", ["prod-protected"]⟩
          (fixedEnv branchListing exampleNow (fun _ => 204))
          ⟨"test", "test", false, 0, 7 * day⟩ ()).tags,
        ∀ p ∈ ["prod-protected"], asciiEqualFold p t.Tag = false) ∧
     (∀ n ∈ (RunCleanup ⟨"test-token", ["prod-protected"]⟩
          (fixedEnv branchListing exampleNow (fun _ => 204))
          ⟨"test", "test", false, 0, 7 * day⟩ ()).deleteCalls,
        ∀ p ∈ ["prod-protected"], asciiEqualFold p n = false)) :=
  ⟨by decide,
   C1_protected_never_deleted ⟨"test-token", ["prod-protected"]⟩
     (fixedEnv branchListing exampleNow (fun _ => 204)) ⟨"test", "test", false, 0, 7 * day⟩ ()
     insertionSortFunc_spec⟩

theorem RunCleanup_listed (c : DigitalOceanClient) (env : Env σ) (input : CleanupInput)
    (s : σ) (tags : List Tag) (s1 : σ)
    (hlist : listTags c env input.Registry input.Repository s = (Except.ok tags, s1)) :
    RunCleanup c env input s =
      deleteLoop c env input (deletionSequence c env input tags s1) [] []
        (categorize c env input tags [] [] s1).2.2 := by
  unfold RunCleanup
  rw [hlist]
  exact cleanupListed_eq c env input tags s1

theorem RunCleanup_complete (c : DigitalOceanClient) (env : Env σ) (input : CleanupInput)
    (s : σ) (tags : List Tag) (s1 : σ)
    (hlist : listTags c env input.Registry input.Repository s = (Except.ok tags, s1))
    (hrun : input.DryRun = true ∨ DeletesSucceed c env input) :
    (RunCleanup c env input s).tags = deletionSequence c env input tags s1 ∧
    (RunCleanup c env input s).err = none ∧
    (RunCleanup c env input s).deleteCalls =
      if input.DryRun then [] else (deletionSequence c env input tags s1).map (fun t => t.Tag) := by
  rw [RunCleanup_listed c env input s tags s1 hlist]
  cases hd : input.DryRun with
  | true => simp [deleteLoop_dry c env input hd]
  | false =>
    have hok : DeletesSucceed c env input := by
      rcases hrun with h | h
      · rw [hd] at h; cases h
      · exact h
    have h := deleteLoop_ok c env input hd hok (deletionSequence c env input tags s1) [] []
      (categorize c env input tags [] [] s1).2.2
    simpa using h

theorem deletionSequence_clock (c : DigitalOceanClient) (env : Env σ) (input : CleanupInput)
    (now : Int) (hclock : ClockAt env now)
    (hmin : minInt64 < input.MinAge) (hmax : input.MinAge ≤ maxInt64) (tags : List Tag) (s : σ) :
    deletionSequence c env input tags s =
      releaseTagsToDelete input (env.SortFunc cmpUpdatedAt (tags.filter (isRelease c env)))
        ++ tags.filter (isStaleBranch c env input now) := by
  unfold deletionSequence
  rw [categorize_keep, categorize_delete_clock c env input now hclock]
  simp only [List.nil_append]
  congr 1
  apply List.filter_congr
  intro t _
  simp only [isStaleBranch, Time.After, Time.Add, neg_of_range input.MinAge hmin hmax]
  congr 3

theorem releaseTagsToDelete_release (c : DigitalOceanClient) (env : Env σ) (input : CleanupInput)
    (hsort : SortFuncSpec env.SortFunc) (tags : List Tag) (t : Tag)
    (ht : t ∈ releaseTagsToDelete input (env.SortFunc cmpUpdatedAt (tags.filter (isRelease c env)))) :
    t ∈ tags ∧ isRelease c env t = true := by
  have h1 := (releaseTagsToDelete_sublist input _).subset ht
  have h2 := (hsort _).1.subset h1
  simpa [List.mem_filter] using h2

theorem isStaleBranch_not_release (c : DigitalOceanClient) (env : Env σ) (input : CleanupInput)
    (now : Int) (t : Tag) (h : isStaleBranch c env input now t = true) :
    isRelease c env t = false := by
  simp only [isStaleBranch, isBranch, Bool.and_eq_true, Bool.not_eq_true'] at h
  simp [isRelease, h.1.2]

theorem fixedEnv_deletesSucceed (c : DigitalOceanClient) (listing : List Tag) (now : Int)
    (input : CleanupInput) : DeletesSucceed c (fixedEnv listing now (fun _ => 204)) input := by
  intro tag s
  simp [deleteTag, fixedEnv]

theorem RunCleanup_success (c : DigitalOceanClient) (env : Env σ) (input : CleanupInput)
    (s : σ) (tags : List Tag) (s1 : σ)
    (hlist : listTags c env input.Registry input.Repository s = (Except.ok tags, s1))
    (hrun : input.DryRun = true ∨ (RunCleanup c env input s).err = none) :
    (RunCleanup c env input s).tags = deletionSequence c env input tags s1 ∧
    (RunCleanup c env input s).deleteCalls =
      if input.DryRun then [] else (deletionSequence c env input tags s1).map (fun t => t.Tag) := by
  rw [RunCleanup_listed c env input s tags s1 hlist] at hrun ⊢
  cases hd : input.DryRun with
  | true => simp [deleteLoop_dry c env input hd]
  | false =>
    have herr : (deleteLoop c env input (deletionSequence c env input tags s1) [] []
        (categorize c env input tags [] [] s1).2.2).err = none := by
      rcases hrun with h | h
      · rw [hd] at h; cases h
      · exact h
    rcases deleteLoop_cases c env input hd (deletionSequence c env input tags s1) [] []
        (categorize c env input tags [] [] s1).2.2 with
      ⟨_, h2, h3⟩ | ⟨pre, f, post, e, s2, _, _, _, h4, _⟩
    · simpa using And.intro h2 h3
    · rw [h4] at herr; cases herr

theorem categorize_delete_readings (c : DigitalOceanClient) (env : Env σ) (input : CleanupInput)
    (hmin : minInt64 < input.MinAge) (hmax : input.MinAge ≤ maxInt64) :
    ∀ (tags k d : List Tag) (s : σ),
      (categorize c env input tags k d s).2.1 = d ++ staleBranches c env input tags s
  | [], k, d, s => by simp [categorize, staleBranches, clockReadings]
  | t :: rest, k, d, s => by
    rw [categorize]
    have hafter : Time.After t.UpdatedAt (Time.Add (env.Now s).1 (Duration.neg input.MinAge))
        = decide ((env.Now s).1 - input.MinAge < t.UpdatedAt) := by
      simp only [Time.After, Time.Add, neg_of_range input.MinAge hmin hmax]
      congr 1
    split_ifs with h1 h2 h3 <;>
      rw [categorize_delete_readings c env input hmin hmax rest] <;>
      simp_all [staleBranches, clockReadings, isStaleBranch, isBranch, List.filter_cons]

theorem deletionSequence_readings (c : DigitalOceanClient) (env : Env σ) (input : CleanupInput)
    (hmin : minInt64 < input.MinAge) (hmax : input.MinAge ≤ maxInt64) (tags : List Tag) (s : σ) :
    deletionSequence c env input tags s =
      releaseTagsToDelete input (env.SortFunc cmpUpdatedAt (tags.filter (isRelease c env)))
        ++ staleBranches c env input tags s := by
  unfold deletionSequence
  rw [categorize_keep, categorize_delete_readings c env input hmin hmax]
  simp only [List.nil_append]

theorem staleBranches_clock (c : DigitalOceanClient) (env : Env σ) (input : CleanupInput)
    (now : Int) (hclock : ClockAt env now)
    (hmin : minInt64 < input.MinAge) (hmax : input.MinAge ≤ maxInt64) (tags : List Tag) (s : σ) :
    staleBranches c env input tags s = tags.filter (isStaleBranch c env input now) := by
  have h1 := deletionSequence_readings c env input hmin hmax tags s
  rw [deletionSequence_clock c env input now hclock hmin hmax] at h1
  exact (List.append_cancel_left h1).symm

theorem clockReadings_length (c : DigitalOceanClient) (env : Env σ) :
    ∀ (tags : List Tag) (s : σ), (clockReadings c env tags s).length = tags.length
  | [], s => rfl
  | t :: rest, s => by simp [clockReadings, clockReadings_length c env rest]

theorem staleBranches_sublist (c : DigitalOceanClient) (env : Env σ) (input : CleanupInput)
    (tags : List Tag) (s : σ) : (staleBranches c env input tags s).Sublist tags := by
  have h : ((tags.zip (clockReadings c env tags s)).map Prod.fst) = tags := by
    rw [List.map_fst_zip]
    rw [clockReadings_length]
  unfold staleBranches
  have h2 := (List.filter_sublist (tags.zip (clockReadings c env tags s))
    (p := fun p => isStaleBranch c env input p.2 p.1)).map Prod.fst
  rwa [h] at h2

theorem mem_staleBranches (c : DigitalOceanClient) (env : Env σ) (input : CleanupInput)
    (tags : List Tag) (s : σ) (t : Tag) :
    t ∈ staleBranches c env input tags s ↔
      ∃ now : Int, (t, now) ∈ tags.zip (clockReadings c env tags s) ∧
        isStaleBranch c env input now t = true := by
  simp [staleBranches, List.mem_map, List.mem_filter]

/-- C2 (amended). Age rule, for every `MinAge` above the least `int64` (the one value
whose negation overflows): in a dry run or a run that returns a nil error, a listed tag
that is not protected and not version-named is in the list `RunCleanup` returns
exactly when, at some place where the listing holds it, its `UpdatedAt` is not
strictly after `now - MinAge`, `now` being what `time.Now()` returns when the loop
examines the tag there; so a tag exactly at `now - MinAge` is deleted, and with
`MinAge = 0` every such tag not strictly after `now` is. Under a clock that shows one
instant `now` throughout, this is the claim with that `now`. -/
theorem C2_age_rule (c : DigitalOceanClient) (env : Env σ) (input : CleanupInput)
    (s : σ) (tags : List Tag) (s1 : σ)
    (hsort : SortFuncSpec env.SortFunc)
    (hlist : listTags c env input.Registry input.Repository s = (Except.ok tags, s1))
    (hmin : minInt64 < input.MinAge) (hmax : input.MinAge ≤ maxInt64)
    (hrun : input.DryRun = true ∨ (RunCleanup c env input s).err = none)
    (t : Tag) (ht : t ∈ tags) (hprot : isProtected c env t.Tag = false)
    (hname : Detect.IsTag t.Tag = false) :
    (t ∈ (RunCleanup c env input s).tags ↔
      ∃ now : Int, (t, now) ∈ tags.zip (clockReadings c env tags s1) ∧
        ¬ (now - input.MinAge < t.UpdatedAt)) ∧
    (∀ now : Int, (t, now) ∈ tags.zip (clockReadings c env tags s1) →
      (t.UpdatedAt = now - input.MinAge → t ∈ (RunCleanup c env input s).tags) ∧
      (input.MinAge = 0 → ¬ (now < t.UpdatedAt) → t ∈ (RunCleanup c env input s).tags)) ∧
    (∀ now : Int, ClockAt env now →
      (t ∈ (RunCleanup c env input s).tags ↔ ¬ (now - input.MinAge < t.UpdatedAt)) ∧
      (t.UpdatedAt = now - input.MinAge → t ∈ (RunCleanup c env input s).tags) ∧
      (input.MinAge = 0 → ¬ (now < t.UpdatedAt) → t ∈ (RunCleanup c env input s).tags)) := by
  have hres : t ∈ (RunCleanup c env input s).tags ↔ t ∈ staleBranches c env input tags s1 := by
    rw [(RunCleanup_success c env input s tags s1 hlist hrun).1,
      deletionSequence_readings c env input hmin hmax, List.mem_append]
    constructor
    · rintro (h | h)
      · have := (releaseTagsToDelete_release c env input hsort tags t h).2
        simp [isRelease, hname] at this
      · exact h
    · exact Or.inr
  have key : t ∈ (RunCleanup c env input s).tags ↔
      ∃ now : Int, (t, now) ∈ tags.zip (clockReadings c env tags s1) ∧
        ¬ (now - input.MinAge < t.UpdatedAt) := by
    rw [hres, mem_staleBranches]
    simp [isStaleBranch, isBranch, hprot, hname]
  have keyc : ∀ now : Int, ClockAt env now →
      (t ∈ (RunCleanup c env input s).tags ↔ ¬ (now - input.MinAge < t.UpdatedAt)) := by
    intro now hclock
    rw [hres, staleBranches_clock c env input now hclock hmin hmax]
    simp [List.mem_filter, isStaleBranch, isBranch, hprot, hname, ht]
  refine ⟨key, fun now hz => ⟨fun h => key.2 ⟨now, hz, by omega⟩,
      fun h0 h => key.2 ⟨now, hz, by omega⟩⟩,
    fun now hclock => ⟨keyc now hclock, fun h => (keyc now hclock).2 (by omega),
      fun h0 h => (keyc now hclock).2 (by omega)⟩⟩

/-- The run of C2: with `prod` protected, the 40 days old tag `prod-protected` is an
unprotected branch tag and is deleted under a minimum age of 9 days, on a transport
that would refuse the delete of `tag-8-days-old`, which the run does not ask for. The
second run is under a clock that moves on by ten days at each reading: `develop` and
`feature-x` were updated at the same instant, and only `feature-x`, examined at the
later reading, is in the list. -/
theorem C2_age_rule_witness :
    ((mkTag "prod-protected" (exampleNow - 40 * day) ∈
        (RunCleanup ⟨"test-token", ["prod"]⟩ (fixedEnv branchListing exampleNow failOn8)
          ⟨"test", "test", false, 0, 9 * day⟩ ()).tags ↔
      ¬ (exampleNow - 9 * day < exampleNow - 40 * day)) ∧
     (mkTag "tag-8-days-old" (exampleNow - 8 * day) ∉
        (RunCleanup ⟨"test-token", ["prod"]⟩ (fixedEnv branchListing exampleNow failOn8)
          ⟨"test", "test", false, 0, 9 * day⟩ ()).tags)) ∧
    ((mkTag "feature-x" (exampleNow - 92 * day) ∈
        (RunCleanup ⟨"test-token", []⟩ (tickingEnv mixedListing (10 * day))
          ⟨"test", "test", false, 2, 97 * day⟩ exampleNow).tags ↔
      ∃ now : Int,
        (mkTag "feature-x" (exampleNow - 92 * day), now) ∈
          mixedListing.zip (clockReadings ⟨"test-token", []⟩
            (tickingEnv mixedListing (10 * day)) mixedListing exampleNow) ∧
        ¬ (now - 97 * day < (mkTag "feature-x" (exampleNow - 92 * day)).UpdatedAt)) ∧
     clockReadings ⟨"test-token", []⟩ (tickingEnv mixedListing (10 * day)) mixedListing
        exampleNow
      = [exampleNow, exampleNow + 10 * day, exampleNow + 10 * day, exampleNow + 20 * day,
         exampleNow + 20 * day] ∧
     (RunCleanup ⟨"test-token", []⟩ (tickingEnv mixedListing (10 * day))
        ⟨"test", "test", false, 2, 97 * day⟩ exampleNow).tags.map (fun t => t.Tag)
      = ["1.0.0", "feature-x"]) :=
  ⟨⟨((C2_age_rule ⟨"test-token", ["prod"]⟩ (fixedEnv branchListing exampleNow failOn8)
      ⟨"test", "test", false, 0, 9 * day⟩ () branchListing () insertionSortFunc_spec
      rfl (by decide) (by decide) (Or.inr (by decide))
      (mkTag "prod-protected" (exampleNow - 40 * day)) (by decide) (by decide)
      (by decide)).2.2 exampleNow (fun _ => rfl)).1,
    by decide⟩,
   ⟨(C2_age_rule ⟨"test-token", []⟩ (tickingEnv mixedListing (10 * day))
      ⟨"test", "test", false, 2, 97 * day⟩ exampleNow mixedListing exampleNow
      insertionSortFunc_spec rfl (by decide) (by decide) (Or.inr (by decide))
      (mkTag "feature-x" (exampleNow - 92 * day)) (by decide) (by decide) (by decide)).1,
    by decide, by decide⟩⟩

/-- C2 as stated fails at `MinAge = math.MinInt64`, whose negation is itself: the
cut-off becomes `now - 2^63 ns`, so a branch tag 40 days old, which is not after
`now - MinAge`, is not in the list a dry run returns. -/
theorem C2_counterexample :
    mkTag "old-branch" (exampleNow - 40 * day) ∈ [mkTag "old-branch" (exampleNow - 40 * day)] ∧
    isProtected ⟨"test-token", []⟩
      (fixedEnv [mkTag "old-branch" (exampleNow - 40 * day)] exampleNow (fun _ => 204))
      "old-branch" = false ∧
    Detect.IsTag "old-branch" = false ∧
    ¬ (exampleNow - minInt64 < (mkTag "old-branch" (exampleNow - 40 * day)).UpdatedAt) ∧
    mkTag "old-branch" (exampleNow - 40 * day) ∉
      (RunCleanup ⟨"test-token", []⟩
        (fixedEnv [mkTag "old-branch" (exampleNow - 40 * day)] exampleNow (fun _ => 204))
        ⟨"test", "test", true, 0, minInt64⟩ ()).tags := by
  decide

theorem deletionSequence_release (c : DigitalOceanClient) (env : Env σ) (input : CleanupInput)
    (hsort : SortFuncSpec env.SortFunc) (tags : List Tag) (s : σ) :
    (deletionSequence c env input tags s).filter (isRelease c env) =
      releaseTagsToDelete input (env.SortFunc cmpUpdatedAt (tags.filter (isRelease c env))) := by
  unfold deletionSequence
  obtain ⟨D, hD, hsub⟩ := categorize_delete_sublist c env input tags [] [] s
  rw [hD, categorize_keep, List.filter_append]
  simp only [List.nil_append]
  have h1 : (releaseTagsToDelete input
      (env.SortFunc cmpUpdatedAt (tags.filter (isRelease c env)))).filter (isRelease c env) =
      releaseTagsToDelete input (env.SortFunc cmpUpdatedAt (tags.filter (isRelease c env))) :=
    List.filter_eq_self.2 (fun t ht => (releaseTagsToDelete_release c env input hsort tags t ht).2)
  have h2 : D.filter (isRelease c env) = [] := by
    rw [List.filter_eq_nil_iff]
    intro t ht
    have := hsub.subset ht
    simp only [List.mem_filter, isBranch, Bool.and_eq_true, Bool.not_eq_true'] at this
    simp [isRelease, this.2.2]
  rw [h1, h2, List.append_nil]

theorem releaseTagsToDelete_length (input : CleanupInput) (keepTags : List Tag) :
    (0 < input.KeepTags →
      ((releaseTagsToDelete input keepTags).length : Int)
        = max 0 ((keepTags.length : Int) - input.KeepTags)) ∧
    (input.KeepTags = 0 → (releaseTagsToDelete input keepTags).length = 0) := by
  unfold releaseTagsToDelete
  constructor
  · intro hn
    split_ifs with h
    · rw [List.length_take]
      omega
    · simp only [List.length_nil]
      have : ¬ ((keepTags.length : Int) > input.KeepTags) := fun h1 => h ⟨hn, h1⟩
      omega
  · intro h0
    simp [h0]

/-- C3. Count rule: with `k` the number of listed tags that are not protected and
version-named and `n = KeepTags`, in a dry run or a run that returns a nil error the
number of such tags in the list `RunCleanup` returns is `max(0, k - n)` when `n > 0`
and `0` when `n = 0`. -/
theorem C3_count_rule (c : DigitalOceanClient) (env : Env σ) (input : CleanupInput)
    (s : σ) (tags : List Tag) (s1 : σ)
    (hsort : SortFuncSpec env.SortFunc)
    (hlist : listTags c env input.Registry input.Repository s = (Except.ok tags, s1))
    (hrun : input.DryRun = true ∨ (RunCleanup c env input s).err = none) :
    (0 < input.KeepTags →
      ((((RunCleanup c env input s).tags.filter (isRelease c env)).length : Nat) : Int)
        = max 0 (((tags.filter (isRelease c env)).length : Int) - input.KeepTags)) ∧
    (input.KeepTags = 0 →
      ((RunCleanup c env input s).tags.filter (isRelease c env)).length = 0) := by
  rw [(RunCleanup_success c env input s tags s1 hlist hrun).1,
    deletionSequence_release c env input hsort]
  have h := releaseTagsToDelete_length input
    (env.SortFunc cmpUpdatedAt (tags.filter (isRelease c env)))
  rw [(hsort _).1.length_eq] at h
  exact h

/-- The run of C3: five version-named tags and `KeepTags = 3` leave two in the list, on
a transport that would refuse the delete of a tag the run does not ask for. -/
theorem C3_count_rule_witness :
    (0 < (3 : Int) →
      ((((RunCleanup ⟨"test-token", []⟩ (fixedEnv releaseListing exampleNow failOn8)
          ⟨"test", "test", false, 3, 0⟩ ()).tags.filter
            (isRelease ⟨"test-token", []⟩
              (fixedEnv releaseListing exampleNow failOn8))).length : Nat) : Int)
        = max 0 (((releaseListing.filter (isRelease ⟨"test-token", []⟩
              (fixedEnv releaseListing exampleNow failOn8))).length : Int) - 3)) ∧
    (releaseListing.filter (isRelease ⟨"test-token", []⟩
        (fixedEnv releaseListing exampleNow failOn8))).length = 5 ∧
    (RunCleanup ⟨"test-token", []⟩ (fixedEnv releaseListing exampleNow failOn8)
        ⟨"test", "test", false, 3, 0⟩ ()).tags.map (fun t => t.Tag) = ["1.0.0", "1.1.0"] :=
  ⟨(C3_count_rule ⟨"test-token", []⟩ (fixedEnv releaseListing exampleNow failOn8)
      ⟨"test", "test", false, 3, 0⟩ () releaseListing () insertionSortFunc_spec rfl
      (Or.inr (by decide))).1,
   by decide, by decide⟩

theorem releaseTagsToDelete_oldest (input : CleanupInput) (keepTags : List Tag)
    (hs : keepTags.Pairwise (fun a b => ¬ cmpUpdatedAt b a < 0)) (d u : Tag)
    (hd : d ∈ releaseTagsToDelete input keepTags) (hu : u ∈ keepTags)
    (hnu : u ∉ releaseTagsToDelete input keepTags) : d.UpdatedAt ≤ u.UpdatedAt := by
  unfold releaseTagsToDelete at hd hnu
  split_ifs at hd hnu with h
  · have hs1 : (keepTags.take ((keepTags.length : Int) - input.KeepTags).toNat ++
        keepTags.drop ((keepTags.length : Int) - input.KeepTags).toNat).Pairwise
        (fun a b => ¬ cmpUpdatedAt b a < 0) := by
      rw [List.take_append_drop]; exact hs
    have hu1 : u ∈ keepTags.take ((keepTags.length : Int) - input.KeepTags).toNat ++
        keepTags.drop ((keepTags.length : Int) - input.KeepTags).toNat := by
      rw [List.take_append_drop]; exact hu
    rcases List.mem_append.1 hu1 with h1 | h1
    · exact absurd h1 hnu
    · have := (List.pairwise_append.1 hs1).2.2 d hd u h1
      rw [cmpUpdatedAt_neg_iff] at this
      exact not_lt.1 this
  · cases hd

/-- C4. The count rule retains the most recently updated release tags: in a dry run or
a run that returns a nil error, every release tag in the list `RunCleanup` returns has
an `UpdatedAt` no later than that of every release tag of the listing that is not in
the list. -/
theorem C4_count_rule_keeps_newest (c : DigitalOceanClient) (env : Env σ) (input : CleanupInput)
    (s : σ) (tags : List Tag) (s1 : σ)
    (hsort : SortFuncSpec env.SortFunc)
    (hlist : listTags c env input.Registry input.Repository s = (Except.ok tags, s1))
    (hrun : input.DryRun = true ∨ (RunCleanup c env input s).err = none) :
    ∀ d ∈ (RunCleanup c env input s).tags, isRelease c env d = true →
      ∀ u ∈ tags, isRelease c env u = true → u ∉ (RunCleanup c env input s).tags →
        d.UpdatedAt ≤ u.UpdatedAt := by
  intro d hd hdr u hu hur hnu
  have hres := (RunCleanup_success c env input s tags s1 hlist hrun).1
  have hrel := deletionSequence_release c env input hsort tags s1
  rw [hres] at hd hnu
  have hd1 : d ∈ releaseTagsToDelete input
      (env.SortFunc cmpUpdatedAt (tags.filter (isRelease c env))) := by
    rw [← hrel]; exact List.mem_filter.2 ⟨hd, hdr⟩
  have hu1 : u ∈ env.SortFunc cmpUpdatedAt (tags.filter (isRelease c env)) :=
    (hsort _).1.mem_iff.2 (List.mem_filter.2 ⟨hu, hur⟩)
  have hnu1 : u ∉ releaseTagsToDelete input
      (env.SortFunc cmpUpdatedAt (tags.filter (isRelease c env))) := by
    intro h
    rw [← hrel] at h
    exact hnu (List.mem_filter.1 h).1
  exact releaseTagsToDelete_oldest input _ (hsort _).2 d u hd1 hu1 hnu1

/-- The run of C4: of three version-named tags and `KeepTags = 2` the oldest, `1.0.0`,
is deleted; it is no newer than the retained `1.1.0`. The transport would refuse the
delete of a tag the run does not ask for. -/
theorem C4_count_rule_keeps_newest_witness :
    (RunCleanup ⟨"test-token", []⟩ (fixedEnv mixedListing exampleNow failOn8)
        ⟨"test", "test", false, 2, day⟩ ()).tags.filter
          (isRelease ⟨"test-token", []⟩ (fixedEnv mixedListing exampleNow failOn8))
      = [mkTag "1.0.0" (exampleNow - 92 * day)] ∧
    (mkTag "1.0.0" (exampleNow - 92 * day)).UpdatedAt
      ≤ (mkTag "1.1.0" (exampleNow - 91 * day)).UpdatedAt :=
  ⟨by decide,
   C4_count_rule_keeps_newest ⟨"test-token", []⟩ (fixedEnv mixedListing exampleNow failOn8)
     ⟨"test", "test", false, 2, day⟩ () mixedListing () insertionSortFunc_spec rfl
     (Or.inr (by decide))
     (mkTag "1.0.0" (exampleNow - 92 * day)) (by decide) (by decide)
     (mkTag "1.1.0" (exampleNow - 91 * day)) (by decide) (by decide) (by decide)⟩

theorem releaseTagsToDelete_sorted (input : CleanupInput) (keepTags : List Tag)
    (hs : keepTags.Pairwise (fun a b => ¬ cmpUpdatedAt b a < 0)) :
    (releaseTagsToDelete input keepTags).Pairwise (fun a b => a.UpdatedAt ≤ b.UpdatedAt) := by
  refine List.Pairwise.imp ?_ (hs.sublist (releaseTagsToDelete_sublist input keepTags))
  intro a b hab
  rw [cmpUpdatedAt_neg_iff] at hab
  exact not_lt.1 hab

/-- C5 (amended). Deletion order, for every `MinAge` above the least `int64`: in a dry
run or a run that returns a nil error, the list `RunCleanup` returns is the release
tags selected by the count rule, which are the release tags of the list and ascend in
`UpdatedAt`, followed by the stale branch tags in their order in the listing, a branch
tag being stale when its `UpdatedAt` is not strictly after `now - MinAge` for the `now`
that `time.Now()` returns when the loop examines it (under a clock that shows one
instant throughout, for that instant); no release tag comes after a branch tag; and
the delete calls of a run that is not dry are issued in that order. -/
theorem C5_deletion_order (c : DigitalOceanClient) (env : Env σ) (input : CleanupInput)
    (s : σ) (tags : List Tag) (s1 : σ)
    (hsort : SortFuncSpec env.SortFunc)
    (hlist : listTags c env input.Registry input.Repository s = (Except.ok tags, s1))
    (hmin : minInt64 < input.MinAge) (hmax : input.MinAge ≤ maxInt64)
    (hrun : input.DryRun = true ∨ (RunCleanup c env input s).err = none) :
    (RunCleanup c env input s).tags =
      releaseTagsToDelete input (env.SortFunc cmpUpdatedAt (tags.filter (isRelease c env)))
        ++ staleBranches c env input tags s1 ∧
    (staleBranches c env input tags s1).Sublist tags ∧
    (∀ now : Int, ClockAt env now →
      staleBranches c env input tags s1 = tags.filter (isStaleBranch c env input now)) ∧
    releaseTagsToDelete input (env.SortFunc cmpUpdatedAt (tags.filter (isRelease c env)))
      = (RunCleanup c env input s).tags.filter (isRelease c env) ∧
    (releaseTagsToDelete input
      (env.SortFunc cmpUpdatedAt (tags.filter (isRelease c env)))).Pairwise
        (fun a b => a.UpdatedAt ≤ b.UpdatedAt) ∧
    (∀ (l1 : List Tag) (x : Tag) (l2 : List Tag),
      (RunCleanup c env input s).tags = l1 ++ x :: l2 → isBranch c env x = true →
        ∀ y ∈ l2, isRelease c env y = false) ∧
    (RunCleanup c env input s).deleteCalls =
      (if input.DryRun then [] else (RunCleanup c env input s).tags.map (fun t => t.Tag)) := by
  obtain ⟨h1, h3⟩ := RunCleanup_success c env input s tags s1 hlist hrun
  have hseq := deletionSequence_readings c env input hmin hmax tags s1
  have hrel := deletionSequence_release c env input hsort tags s1
  refine ⟨by rw [h1, hseq], staleBranches_sublist c env input tags s1,
    fun now hclock => staleBranches_clock c env input now hclock hmin hmax tags s1,
    by rw [h1, hrel], releaseTagsToDelete_sorted input _ (hsort _).2, ?_, by rw [h3, h1]⟩
  intro l1 x l2 hsplit hx y hy
  rw [h1, hseq] at hsplit
  have hstale : ∀ z ∈ staleBranches c env input tags s1, isRelease c env z = false := by
    intro z hz
    obtain ⟨now, _, hst⟩ := (mem_staleBranches c env input tags s1 z).1 hz
    exact isStaleBranch_not_release c env input now z hst
  rcases List.append_eq_append_iff.1 hsplit with ⟨a, ha, hb⟩ | ⟨b, ha, hb⟩
  · exact hstale y (by rw [hb]; simp [hy])
  · cases b with
    | nil =>
      simp only [List.nil_append] at hb
      exact hstale y (by rw [← hb]; simp [hy])
    | cons z b =>
      simp only [List.cons_append, List.cons.injEq] at hb
      have hxr := (releaseTagsToDelete_release c env input hsort tags x
        (by rw [ha, hb.1]; simp)).2
      simp only [isBranch, Bool.and_eq_true, Bool.not_eq_true'] at hx
      simp [isRelease, hx.2] at hxr

/-- The run of C5: `TestRunCleanup_MixedTagsAndBranches` with the listing shuffled. The
release tag `1.0.0` comes first, then `develop` and `feature-x` as listed. The second
run is under a clock that moves on by ten days at each reading: `develop` and
`feature-x` were updated at the same instant, five days before the minimum age is
reached at the first reading, and only `feature-x`, examined second, is stale. -/
theorem C5_deletion_order_witness :
    ((RunCleanup ⟨"test-token", []⟩ (fixedEnv mixedListing exampleNow failOn8)
        ⟨"test", "test", false, 2, day⟩ ()).tags.map (fun t => t.Tag)
      = ["1.0.0", "develop", "feature-x"] ∧
     (RunCleanup ⟨"test-token", []⟩ (fixedEnv mixedListing exampleNow failOn8)
        ⟨"test", "test", false, 2, day⟩ ()).deleteCalls
      = (RunCleanup ⟨"test-token", []⟩ (fixedEnv mixedListing exampleNow failOn8)
        ⟨"test", "test", false, 2, day⟩ ()).tags.map (fun t => t.Tag)) ∧
    ((RunCleanup ⟨"test-token", []⟩ (tickingEnv mixedListing (10 * day))
        ⟨"test", "test", false, 2, 97 * day⟩ exampleNow).tags.map (fun t => t.Tag)
      = ["1.0.0", "feature-x"] ∧
     (RunCleanup ⟨"test-token", []⟩ (tickingEnv mixedListing (10 * day))
        ⟨"test", "test", false, 2, 97 * day⟩ exampleNow).tags
      = releaseTagsToDelete ⟨"test", "test", false, 2, 97 * day⟩
          ((tickingEnv mixedListing (10 * day)).SortFunc cmpUpdatedAt
            (mixedListing.filter (isRelease ⟨"test-token", []⟩
              (tickingEnv mixedListing (10 * day)))))
        ++ staleBranches ⟨"test-token", []⟩ (tickingEnv mixedListing (10 * day))
            ⟨"test", "test", false, 2, 97 * day⟩ mixedListing exampleNow) :=
  ⟨⟨by decide,
    (C5_deletion_order ⟨"test-token", []⟩ (fixedEnv mixedListing exampleNow failOn8)
      ⟨"test", "test", false, 2, day⟩ () mixedListing () insertionSortFunc_spec rfl
      (by decide) (by decide) (Or.inr (by decide))).2.2.2.2.2.2⟩,
   ⟨by decide,
    (C5_deletion_order ⟨"test-token", []⟩ (tickingEnv mixedListing (10 * day))
      ⟨"test", "test", false, 2, 97 * day⟩ exampleNow mixedListing exampleNow
      insertionSortFunc_spec rfl (by decide) (by decide) (Or.inr (by decide))).1⟩⟩

/-- C5 as stated fails at `MinAge = math.MinInt64`: the branch tag `feature-x`, 30 days
old, is stale by the claim (not after `now - MinAge`), yet the list returned is empty,
so it does not end with the stale branch tags of the listing. -/
theorem C5_counterexample :
    ¬ ∃ rel : List Tag,
      (RunCleanup ⟨"test-token", []⟩
        (fixedEnv [mkTag "feature-x" (exampleNow - 30 * day)] exampleNow (fun _ => 204))
        ⟨"test", "test", false, 5, minInt64⟩ ()).tags
      = rel ++ [mkTag "feature-x" (exampleNow - 30 * day)].filter
          (isStaleBranch ⟨"test-token", []⟩
            (fixedEnv [mkTag "feature-x" (exampleNow - 30 * day)] exampleNow (fun _ => 204))
            ⟨"test", "test", false, 5, minInt64⟩ exampleNow) := by
  rintro ⟨rel, h⟩
  have h1 : (RunCleanup ⟨"test-token", []⟩
        (fixedEnv [mkTag "feature-x" (exampleNow - 30 * day)] exampleNow (fun _ => 204))
        ⟨"test", "test", false, 5, minInt64⟩ ()).tags = [] := by decide
  have h2 : [mkTag "feature-x" (exampleNow - 30 * day)].filter
          (isStaleBranch ⟨"test-token", []⟩
            (fixedEnv [mkTag "feature-x" (exampleNow - 30 * day)] exampleNow (fun _ => 204))
            ⟨"test", "test", false, 5, minInt64⟩ exampleNow)
        = [mkTag "feature-x" (exampleNow - 30 * day)] := by decide
  rw [h1, h2] at h
  simp at h

theorem categorize_congr (c : DigitalOceanClient) (env : Env σ) (i1 i2 : CleanupInput)
    (h : i1.MinAge = i2.MinAge) :
    ∀ (tags k d : List Tag) (s : σ),
      categorize c env i1 tags k d s = categorize c env i2 tags k d s
  | [], k, d, s => by simp [categorize]
  | t :: rest, k, d, s => by
    rw [categorize, categorize, h]
    split_ifs <;> exact categorize_congr c env i1 i2 h rest _ _ _

theorem deletionSequence_congr (c : DigitalOceanClient) (env : Env σ) (i1 i2 : CleanupInput)
    (h : i1.MinAge = i2.MinAge) (hk : i1.KeepTags = i2.KeepTags) (tags : List Tag) (s : σ) :
    deletionSequence c env i1 tags s = deletionSequence c env i2 tags s := by
  unfold deletionSequence releaseTagsToDelete
  rw [categorize_congr c env i1 i2 h, hk]

/-- C6. Dry run: `RunCleanup` with `DryRun = true` issues no `deleteTag` call, whatever
the transport would answer to one; after a successful listing it returns a nil error;
and whenever `RunCleanup` with `DryRun = false`, from the same world state (same
listing, same clock) under the same policy, returns a nil error, that is, every delete
call of that run succeeds, the dry run returns with a nil error exactly the list that
run returns. -/
theorem C6_dry_run (c : DigitalOceanClient) (env : Env σ) (input : CleanupInput) (s : σ) :
    (RunCleanup c env { input with DryRun := true } s).deleteCalls = [] ∧
    (∀ (tags : List Tag) (s1 : σ),
      listTags c env input.Registry input.Repository s = (Except.ok tags, s1) →
        (RunCleanup c env { input with DryRun := true } s).err = none) ∧
    ((RunCleanup c env { input with DryRun := false } s).err = none →
      (RunCleanup c env { input with DryRun := true } s).err = none ∧
      (RunCleanup c env { input with DryRun := true } s).tags
        = (RunCleanup c env { input with DryRun := false } s).tags) := by
  rcases h : listTags c env input.Registry input.Repository s with ⟨r, s1⟩
  cases r with
  | error e =>
    refine ⟨by simp [RunCleanup, h], fun tags s2 h2 => (by cases h2), fun hwet => ?_⟩
    simp [RunCleanup, h] at hwet
  | ok tags =>
    have hdry : RunCleanup c env { input with DryRun := true } s =
        ⟨deletionSequence c env { input with DryRun := true } tags s1, none, [],
          (categorize c env { input with DryRun := true } tags [] [] s1).2.2⟩ := by
      rw [RunCleanup_listed c env { input with DryRun := true } s tags s1 h,
        deleteLoop_dry c env { input with DryRun := true } rfl]
      simp
    refine ⟨by rw [hdry], fun _ _ _ => by rw [hdry], fun hwet => ⟨by rw [hdry], ?_⟩⟩
    rw [(RunCleanup_success c env { input with DryRun := false } s tags s1 h (Or.inr hwet)).1,
      hdry]
    exact deletionSequence_congr c env { input with DryRun := true }
      { input with DryRun := false } rfl rfl tags s1

/-- The run of C6: Scenario C of the specification, one branch tag older than the
minimum age of 24 hours. On a transport that answers 403 to every delete request the
dry run issues no call and returns the tag with a nil error; on a transport that
accepts the delete, the run with `DryRun = false` returns the same list. -/
theorem C6_dry_run_witness :
    ((RunCleanup ⟨"test-token", []⟩
        (fixedEnv [mkTag "old-branch" (exampleNow - 2 * day)] exampleNow (fun _ => 403))
        ⟨"test", "test", true, 0, day⟩ ()).tags = [mkTag "old-branch" (exampleNow - 2 * day)] ∧
     (RunCleanup ⟨"test-token", []⟩
        (fixedEnv [mkTag "old-branch" (exampleNow - 2 * day)] exampleNow (fun _ => 403))
        { (⟨"test", "test", true, 0, day⟩ : CleanupInput) with DryRun := true } ()).deleteCalls
      = [] ∧
     (RunCleanup ⟨"test-token", []⟩
        (fixedEnv [mkTag "old-branch" (exampleNow - 2 * day)] exampleNow (fun _ => 403))
        { (⟨"test", "test", true, 0, day⟩ : CleanupInput) with DryRun := true } ()).err
      = none) ∧
    ((RunCleanup ⟨"test-token", []⟩
        (fixedEnv [mkTag "old-branch" (exampleNow - 2 * day)] exampleNow failOn8)
        { (⟨"test", "test", true, 0, day⟩ : CleanupInput) with DryRun := true } ()).err = none ∧
     (RunCleanup ⟨"test-token", []⟩
        (fixedEnv [mkTag "old-branch" (exampleNow - 2 * day)] exampleNow failOn8)
        { (⟨"test", "test", true, 0, day⟩ : CleanupInput) with DryRun := true } ()).tags
      = (RunCleanup ⟨"test-token", []⟩
        (fixedEnv [mkTag "old-branch" (exampleNow - 2 * day)] exampleNow failOn8)
        { (⟨"test", "test", true, 0, day⟩ : CleanupInput) with DryRun := false } ()).tags) :=
  ⟨⟨by decide,
    (C6_dry_run ⟨"test-token", []⟩
      (fixedEnv [mkTag "old-branch" (exampleNow - 2 * day)] exampleNow (fun _ => 403))
      ⟨"test", "test", true, 0, day⟩ ()).1,
    (C6_dry_run ⟨"test-token", []⟩
      (fixedEnv [mkTag "old-branch" (exampleNow - 2 * day)] exampleNow (fun _ => 403))
      ⟨"test", "test", true, 0, day⟩ ()).2.1 [mkTag "old-branch" (exampleNow - 2 * day)] () rfl⟩,
   (C6_dry_run ⟨"test-token", []⟩
      (fixedEnv [mkTag "old-branch" (exampleNow - 2 * day)] exampleNow failOn8)
      ⟨"test", "test", true, 0, day⟩ ()).2.2 (by decide)⟩

/-- C7. Fail-fast deletion: after a successful listing and with `DryRun = false`, a tag
of the deletion sequence whose delete call fails makes `RunCleanup` return a non-nil
error; and whenever the error is non-nil, the deletion sequence splits at a failing tag
`f` into `pre ++ f :: post`, the list returned is exactly `pre`, the delete calls issued
are those for `pre` and then `f` (none for `post`), and the error message names the
registry, the repository and `f` and wraps the error `e` of the failed delete call. -/
theorem C7_fail_fast (c : DigitalOceanClient) (env : Env σ) (input : CleanupInput)
    (s : σ) (tags : List Tag) (s1 : σ)
    (hwet : input.DryRun = false)
    (hlist : listTags c env input.Registry input.Repository s = (Except.ok tags, s1)) :
    ((∃ t ∈ deletionSequence c env input tags s1,
        ∀ s2 : σ, (deleteTag c env input.Registry input.Repository t.Tag s2).1 ≠ none) →
      (RunCleanup c env input s).err ≠ none) ∧
    ((RunCleanup c env input s).err ≠ none →
      ∃ (pre : List Tag) (f : Tag) (post : List Tag) (e : String),
        deletionSequence c env input tags s1 = pre ++ f :: post ∧
        (RunCleanup c env input s).tags = pre ∧
        (RunCleanup c env input s).deleteCalls = pre.map (fun t => t.Tag) ++ [f.Tag] ∧
        (RunCleanup c env input s).err =
          some ("could not delete tag " ++ input.Registry ++ "." ++ input.Repository ++ ":"
            ++ f.Tag ++ " : " ++ e) ∧
        ∃ s2 : σ, (deleteTag c env input.Registry input.Repository f.Tag s2).1 = some e) := by
  rw [RunCleanup_listed c env input s tags s1 hlist]
  constructor
  · exact deleteLoop_fails c env input hwet _ [] [] _
  · intro herr
    rcases deleteLoop_cases c env input hwet (deletionSequence c env input tags s1) [] []
        (categorize c env input tags [] [] s1).2.2 with
      ⟨h1, _, _⟩ | ⟨pre, f, post, e, s2, h1, h2, h3, h4, h5⟩
    · exact absurd h1 herr
    · exact ⟨pre, f, post, e, h1, by simpa using h2, by simpa using h3, h4, s2, h5⟩

/-- The run of C7: the listing of `TestRunCleanup_DeleteOldBranches` on a transport that
refuses the delete of `tag-8-days-old`, the third of four tags to delete. -/
theorem C7_fail_fast_witness :
    (deletionSequence ⟨"test-token", []⟩ (fixedEnv branchListing exampleNow failOn8)
        ⟨"test", "test", false, 0, 2 * day⟩ branchListing ()).map (fun t => t.Tag)
      = ["prod-protected", "tag-40-days-old", "tag-8-days-old", "tag-3-days-old"] ∧
    (RunCleanup ⟨"test-token", []⟩ (fixedEnv branchListing exampleNow failOn8)
        ⟨"test", "test", false, 0, 2 * day⟩ ()).tags.map (fun t => t.Tag)
      = ["prod-protected", "tag-40-days-old"] ∧
    (RunCleanup ⟨"test-token", []⟩ (fixedEnv branchListing exampleNow failOn8)
        ⟨"test", "test", false, 0, 2 * day⟩ ()).deleteCalls
      = ["prod-protected", "tag-40-days-old", "tag-8-days-old"] ∧
    (RunCleanup ⟨"test-token", []⟩ (fixedEnv branchListing exampleNow failOn8)
        ⟨"test", "test", false, 0, 2 * day⟩ ()).err
      = some "could not delete tag test.test:tag-8-days-old : unexpected status code: 500" ∧
    (RunCleanup ⟨"test-token", []⟩ (fixedEnv branchListing exampleNow failOn8)
        ⟨"test", "test", false, 0, 2 * day⟩ ()).err ≠ none :=
  ⟨by decide, by decide, by decide, by decide,
   (C7_fail_fast ⟨"test-token", []⟩ (fixedEnv branchListing exampleNow failOn8)
     ⟨"test", "test", false, 0, 2 * day⟩ () branchListing () rfl rfl).1
     ⟨mkTag "tag-8-days-old" (exampleNow - 8 * day), by decide,
      fun s2 => by cases s2; decide⟩⟩

end Do

/-! ## The classifier -/

namespace Detect

open Regex Grammar

/-- C8. `detect.IsTag` is true exactly when the name, with at most one leading `v`
removed, is non-empty and belongs to one of the three grammars of the specification
(semantic, calendar or sequential version); and a name of five or more dot-separated
numerals, with or without a leading `v`, is rejected. -/
theorem C8_IsTag_grammar :
    (∀ name : String, IsTag name = true ↔ IsReleaseName name) ∧
    (∀ groups : List (List Char), 5 ≤ groups.length → (∀ g ∈ groups, Numeral g) →
      IsTag (String.mk (dotJoin groups)) = false ∧
      IsTag (String.mk ('v' :: dotJoin groups)) = false) := by
  constructor
  · intro name
    rw [IsTag_iff]
    unfold IsReleaseName
    rw [matches_reSemVer_iff, matches_reCalVer_iff, matches_reSeqVer_iff]
  · intro groups h5 hg
    exact IsTag_five_groups groups h5 hg

/-- C9. For every string `s` that does not start with `v`, `detect.IsTag` gives the same
answer for `"v" ++ s` and for `s`. -/
theorem C9_leading_v (s : String) (h : s.data.head? ≠ some 'v') :
    IsTag ("v" ++ s) = IsTag s := by
  have h1 : stripV ("v" ++ s).data = s.data := by
    simp [stripV]
  have h2 : stripV s.data = s.data := by
    cases hd : s.data with
    | nil => rfl
    | cons c t =>
      have hc : c ≠ 'v' := by
        intro hcv
        apply h
        rw [hd, hcv]
        rfl
      simp [stripV, hc]
  rw [Bool.eq_iff_iff, IsTag_iff, IsTag_iff, h1, h2]

/-- C9 at `1.2.3`, where both answers are true, and at the empty string, where both
are false. -/
theorem C9_leading_v_witness :
    (IsTag ("v" ++ "1.2.3") = IsTag "1.2.3" ∧ IsTag "1.2.3" = true) ∧
    (IsTag ("v" ++ "") = IsTag "" ∧ IsTag "" = false) :=
  ⟨⟨C9_leading_v "1.2.3" (by decide), by decide⟩, ⟨C9_leading_v "" (by decide), by decide⟩⟩

/-- C10. `detect.IsTag` is false for every name that, after the removal of at most one
leading `v`, is empty or does not begin with a decimal digit; so it is for `develop`,
`feature-x`, `latest`, the empty name, `v` and `vv1.2.3`. -/
theorem C10_branch_names :
    (∀ name : String,
      ((TrimPrefix name "v").data = [] ∨
        ∃ c rest, (TrimPrefix name "v").data = c :: rest ∧ c.isDigit = false) →
      IsTag name = false) ∧
    IsTag "develop" = false ∧ IsTag "feature-x" = false ∧ IsTag "latest" = false ∧
    IsTag "" = false ∧ IsTag "v" = false ∧ IsTag "vv1.2.3" = false := by
  refine ⟨?_, by decide, by decide, by decide, by decide, by decide, by decide⟩
  intro name h
  apply IsTag_false_of_head
  intro c hc
  rcases h with h | ⟨d, rest, h, hd⟩
  · rw [h] at hc
    cases hc
  · rw [h] at hc
    simp only [List.head?_cons, Option.some.injEq] at hc
    rw [← hc]
    exact hd

/-- C10 at `vfeature-x`: without its `v` the name begins with `f`. -/
theorem C10_branch_names_witness : IsTag "vfeature-x" = false :=
  C10_branch_names.1 "vfeature-x" (Or.inr ⟨'f', "eature-x".data, rfl, by decide⟩)

end Detect

/-! ## The retention engine, continued -/

namespace Do

variable {σ : Type}

theorem deleteLoop_prefix (c : DigitalOceanClient) (env : Env σ) (input : CleanupInput)
    (xs : List Tag) (s : σ) :
    (deleteLoop c env input xs [] [] s).tags <+: xs ∧
    (deleteLoop c env input xs [] [] s).deleteCalls <+: xs.map (fun t => t.Tag) := by
  cases hd : input.DryRun with
  | true =>
    rw [deleteLoop_dry c env input hd]
    exact ⟨by simp, List.nil_prefix⟩
  | false =>
    rcases deleteLoop_cases c env input hd xs [] [] s with
      ⟨_, h2, h3⟩ | ⟨pre, f, post, e, s2, h1, h2, h3, _, _⟩
    · rw [h2, h3]
      exact ⟨by simp, by simp⟩
    · rw [h2, h3, h1]
      constructor
      · simp
      · simp only [List.nil_append, List.map_append, List.map_cons, List.map_nil]
        exact ⟨post.map (fun t => t.Tag), by simp⟩

theorem release_branch_perm (c : DigitalOceanClient) (env : Env σ) (tags : List Tag) :
    (tags.filter (isRelease c env) ++ tags.filter (isBranch c env)).Perm
      (tags.filter (fun t => !isProtected c env t.Tag)) := by
  induction tags with
  | nil => simp
  | cons t rest ih =>
    cases hp : isProtected c env t.Tag <;> cases hn : Detect.IsTag t.Tag
    · simp only [List.filter_cons, isRelease, isBranch, hp, hn, Bool.not_false, Bool.and_false,
        Bool.false_eq_true, if_false, Bool.and_self, if_true]
      exact List.perm_middle.trans (List.Perm.cons t ih)
    · simp only [List.filter_cons, isRelease, isBranch, hp, hn, Bool.not_false, Bool.and_self,
        if_true, Bool.not_true, Bool.and_false, Bool.false_eq_true, if_false, List.cons_append]
      exact List.Perm.cons t ih
    · simpa [List.filter_cons, isRelease, isBranch, hp, hn] using ih
    · simpa [List.filter_cons, isRelease, isBranch, hp, hn] using ih

theorem deletionSequence_subperm (c : DigitalOceanClient) (env : Env σ) (input : CleanupInput)
    (hsort : SortFuncSpec env.SortFunc) (tags : List Tag) (s : σ) :
    (deletionSequence c env input tags s).Subperm
      (tags.filter (fun t => !isProtected c env t.Tag)) := by
  unfold deletionSequence
  obtain ⟨D, hD, hsub⟩ := categorize_delete_sublist c env input tags [] [] s
  rw [hD, categorize_keep]
  simp only [List.nil_append]
  have h1 : (releaseTagsToDelete input
      (env.SortFunc cmpUpdatedAt (tags.filter (isRelease c env)))).Subperm
      (tags.filter (isRelease c env)) :=
    (releaseTagsToDelete_sublist input _).subperm.trans (hsort _).1.subperm
  have h2 : D.Subperm (tags.filter (isBranch c env)) := hsub.subperm
  have h3 : (releaseTagsToDelete input
      (env.SortFunc cmpUpdatedAt (tags.filter (isRelease c env))) ++ D).Subperm
      (tags.filter (isRelease c env) ++ tags.filter (isBranch c env)) :=
    ((List.subperm_append_right D).2 h1).trans ((List.subperm_append_left _).2 h2)
  exact h3.trans (release_branch_perm c env tags).subperm

/-- C12. Each tag is visited at most once: for every listing, policy and outcome of the
delete calls, the list `RunCleanup` returns is a sub-multiset of the unprotected tags of
the listing, hence of the listing; when the names of the listing are distinct, no tag
is returned twice and none is passed to `deleteTag` twice; and the returned tags, the
remaining unprotected tags and the protected tags together are the listing, the
remaining ones being disjoint from the returned ones when names are distinct. -/
theorem C12_each_tag_once (c : DigitalOceanClient) (env : Env σ) (input : CleanupInput)
    (s : σ) (tags : List Tag) (s1 : σ)
    (hsort : SortFuncSpec env.SortFunc)
    (hlist : listTags c env input.Registry input.Repository s = (Except.ok tags, s1)) :
    (RunCleanup c env input s).tags.Subperm (tags.filter (fun t => !isProtected c env t.Tag)) ∧
    (RunCleanup c env input s).tags.Subperm tags ∧
    ((tags.map (fun t => t.Tag)).Nodup →
      ((RunCleanup c env input s).tags.map (fun t => t.Tag)).Nodup ∧
      (RunCleanup c env input s).deleteCalls.Nodup) ∧
    (∃ survive : List Tag,
      (∀ t ∈ survive, isProtected c env t.Tag = false) ∧
      tags.Perm ((RunCleanup c env input s).tags ++ survive
        ++ tags.filter (fun t => isProtected c env t.Tag)) ∧
      ((tags.map (fun t => t.Tag)).Nodup → ∀ t ∈ survive, t ∉ (RunCleanup c env input s).tags)) := by
  rw [RunCleanup_listed c env input s tags s1 hlist]
  obtain ⟨hpre, hcalls⟩ := deleteLoop_prefix c env input (deletionSequence c env input tags s1)
    (categorize c env input tags [] [] s1).2.2
  have hseq := deletionSequence_subperm c env input hsort tags s1
  have hres := hpre.sublist.subperm.trans hseq
  have hall : (tags.filter (fun t => !isProtected c env t.Tag)).Subperm tags :=
    (List.filter_sublist _).subperm
  have hnames : (tags.map (fun t => t.Tag)).Nodup →
      ((deletionSequence c env input tags s1).map (fun t => t.Tag)).Nodup := by
    intro hnd
    obtain ⟨l, hl, hsub⟩ := (hseq.trans hall)
    exact (hl.map _).nodup_iff.1 ((hsub.map _).nodup hnd)
  have hsplit : tags.Perm (tags.filter (fun t => !isProtected c env t.Tag)
      ++ tags.filter (fun t => isProtected c env t.Tag)) := by
    have := List.filter_append_perm (fun t => !isProtected c env t.Tag) tags
    simpa using this.symm
  have hdiff := List.subperm_append_diff_self_of_count_le
    (List.subperm_ext_iff.1 hres)
  refine ⟨hres, hres.trans hall, ?_, ?_⟩
  · intro hnd
    exact ⟨((hpre.sublist.map _).nodup (hnames hnd)), hcalls.sublist.nodup (hnames hnd)⟩
  · refine ⟨(tags.filter (fun t => !isProtected c env t.Tag)).diff
      (deleteLoop c env input (deletionSequence c env input tags s1) [] []
        (categorize c env input tags [] [] s1).2.2).tags, ?_, ?_, ?_⟩
    · intro t ht
      have := (List.diff_sublist _ _).subset ht
      simp only [List.mem_filter, Bool.not_eq_true'] at this
      exact this.2
    · exact hsplit.trans (List.Perm.append_right _ hdiff.symm)
    · intro hnd t ht hin
      have hnd1 : (tags.filter (fun t => !isProtected c env t.Tag)).Nodup :=
        ((List.filter_sublist _).nodup (List.Nodup.of_map _ hnd))
      have hnd2 := (hdiff.nodup_iff).2 hnd1
      exact (List.nodup_append.1 hnd2).2.2 hin ht

/-- The run of C12: the listing of `TestRunCleanup_DeleteOldBranches` on a transport that
refuses the delete of `tag-8-days-old`; the two tags returned are tags of the listing,
and no tag is passed to `deleteTag` twice. -/
theorem C12_each_tag_once_witness :
    (RunCleanup ⟨"test-token", []⟩ (fixedEnv branchListing exampleNow failOn8)
        ⟨"test", "test", false, 0, 2 * day⟩ ()).tags.map (fun t => t.Tag)
      = ["prod-protected", "tag-40-days-old"] ∧
    (RunCleanup ⟨"test-token", []⟩ (fixedEnv branchListing exampleNow failOn8)
        ⟨"test", "test", false, 0, 2 * day⟩ ()).tags.Subperm branchListing ∧
    (RunCleanup ⟨"test-token", []⟩ (fixedEnv branchListing exampleNow failOn8)
        ⟨"test", "test", false, 0, 2 * day⟩ ()).deleteCalls.Nodup :=
  ⟨by decide,
   (C12_each_tag_once ⟨"test-token", []⟩ (fixedEnv branchListing exampleNow failOn8)
     ⟨"test", "test", false, 0, 2 * day⟩ () branchListing () insertionSortFunc_spec rfl).2.1,
   ((C12_each_tag_once ⟨"test-token", []⟩ (fixedEnv branchListing exampleNow failOn8)
     ⟨"test", "test", false, 0, 2 * day⟩ () branchListing () insertionSortFunc_spec rfl).2.2.1
     (by decide)).2⟩

/-- C13. Release precedence over age: for every listing, protected list, `KeepTags` and
clock, two runs that are dry or return a nil error and that differ in `MinAge`
(and possibly in the world state they start from) return the same release tags in the
same order, namely the ones the count rule selects, whatever their age. -/
theorem C13_release_independent_of_age (c : DigitalOceanClient) (env : Env σ)
    (i1 i2 : CleanupInput) (s s' : σ) (tags : List Tag) (s1 s1' : σ)
    (hsort : SortFuncSpec env.SortFunc)
    (hkeep : i1.KeepTags = i2.KeepTags)
    (hlist1 : listTags c env i1.Registry i1.Repository s = (Except.ok tags, s1))
    (hlist2 : listTags c env i2.Registry i2.Repository s' = (Except.ok tags, s1'))
    (hrun1 : i1.DryRun = true ∨ (RunCleanup c env i1 s).err = none)
    (hrun2 : i2.DryRun = true ∨ (RunCleanup c env i2 s').err = none) :
    (RunCleanup c env i1 s).tags.filter (isRelease c env)
      = (RunCleanup c env i2 s').tags.filter (isRelease c env) ∧
    (RunCleanup c env i1 s).tags.filter (isRelease c env)
      = releaseTagsToDelete i1 (env.SortFunc cmpUpdatedAt (tags.filter (isRelease c env))) := by
  have h1 : (RunCleanup c env i1 s).tags.filter (isRelease c env)
      = releaseTagsToDelete i1 (env.SortFunc cmpUpdatedAt (tags.filter (isRelease c env))) := by
    rw [(RunCleanup_success c env i1 s tags s1 hlist1 hrun1).1,
      deletionSequence_release c env i1 hsort]
  have h2 : (RunCleanup c env i2 s').tags.filter (isRelease c env)
      = releaseTagsToDelete i2 (env.SortFunc cmpUpdatedAt (tags.filter (isRelease c env))) := by
    rw [(RunCleanup_success c env i2 s' tags s1' hlist2 hrun2).1,
      deletionSequence_release c env i2 hsort]
  refine ⟨?_, h1⟩
  rw [h1, h2]
  unfold releaseTagsToDelete
  rw [hkeep]

/-- The run of C13: `TestRunCleanup_MixedTagsAndBranches` in a dry run with a minimum age
of one day and of one thousand days; the release tag `1.0.0` is returned in both. -/
theorem C13_release_independent_of_age_witness :
    (RunCleanup ⟨"test-token", []⟩ (fixedEnv mixedListing exampleNow (fun _ => 204))
        ⟨"test", "test", true, 2, day⟩ ()).tags.filter
          (isRelease ⟨"test-token", []⟩ (fixedEnv mixedListing exampleNow (fun _ => 204)))
      = (RunCleanup ⟨"test-token", []⟩ (fixedEnv mixedListing exampleNow (fun _ => 204))
        ⟨"test", "test", true, 2, 1000 * day⟩ ()).tags.filter
          (isRelease ⟨"test-token", []⟩ (fixedEnv mixedListing exampleNow (fun _ => 204))) ∧
    (RunCleanup ⟨"test-token", []⟩ (fixedEnv mixedListing exampleNow (fun _ => 204))
        ⟨"test", "test", true, 2, 1000 * day⟩ ()).tags.map (fun t => t.Tag) = ["1.0.0"] :=
  ⟨(C13_release_independent_of_age ⟨"test-token", []⟩
      (fixedEnv mixedListing exampleNow (fun _ => 204))
      ⟨"test", "test", true, 2, day⟩ ⟨"test", "test", true, 2, 1000 * day⟩ () ()
      mixedListing () () insertionSortFunc_spec rfl rfl rfl (Or.inl rfl) (Or.inl rfl)).1,
   by decide⟩

/-- C14 at a failing input: five version-named tags one to five days old, `KeepTags = 3`
and a minimum age of 30 days. `RunCleanup` returns (and deletes) `1.0.0` and `1.1.0`,
which are younger than the minimum age; the run command with `--keep-tags 3` and
`--min-age-days 30` reports both as deleted. -/
theorem C14_young_release_deleted :
    (RunCleanup ⟨"test-token", []⟩ (fixedEnv youngReleaseListing exampleNow (fun _ => 204))
        ⟨"test", "test", false, 3, 30 * day⟩ ()).tags
      = [mkTag "1.0.0" (exampleNow - 5 * day), mkTag "1.1.0" (exampleNow - 4 * day)] ∧
    (RunCleanup ⟨"test-token", []⟩ (fixedEnv youngReleaseListing exampleNow (fun _ => 204))
        ⟨"test", "test", false, 3, 30 * day⟩ ()).deleteCalls = ["1.0.0", "1.1.0"] ∧
    exampleNow - 30 * day < (mkTag "1.0.0" (exampleNow - 5 * day)).UpdatedAt ∧
    exampleNow - 30 * day < (mkTag "1.1.0" (exampleNow - 4 * day)).UpdatedAt ∧
    (Cmd.RunE Cmd.exampleOs (fixedEnv youngReleaseListing exampleNow (fun _ => 204))
        ⟨"test", ["test"], ["latest", "main", "master", "prod", "production"], 3, 30, false⟩
        ()).stdout
      = ["Registry: test\n", "Repository: test\n\n",
         "Deleted tag: 1.0.0\t1766793600000000000\n",
         "Deleted tag: 1.1.0\t1766880000000000000\n", "=====\n"] := by
  decide

/-- C15. Listing failure aborts the repository: whenever `listTags` fails, `RunCleanup`
returns no tags and the error `could not list tags: ` followed by the listing error, and
issues no `deleteTag` call; and `listTags` fails on a transport error, on a status other
than 200, on an unreadable body and on a body that does not decode. -/
theorem C15_listing_failure (c : DigitalOceanClient) (env : Env σ) (input : CleanupInput)
    (s : σ) :
    (∀ (e : String) (s1 : σ),
      listTags c env input.Registry input.Repository s = (Except.error e, s1) →
        (RunCleanup c env input s).tags = [] ∧
        (RunCleanup c env input s).err = some ("could not list tags: " ++ e) ∧
        (RunCleanup c env input s).deleteCalls = []) ∧
    (∀ (req : Request),
      env.NewRequest "GET"
        ("https://api.digitalocean.com/v2/registry/" ++ env.PathEscape input.Registry
          ++ "/repositories/" ++ env.PathEscape input.Repository ++ "/tags") = Except.ok req →
      (∀ (e : String) (s1 : σ),
        env.Do { req with Authorization := "Bearer " ++ c.token,
                          UserAgent := "digitalocean-registry-cleaner" } s
          = (Except.error e, s1) →
        listTags c env input.Registry input.Repository s
          = (Except.error ("could not send request: " ++ e), s1)) ∧
      (∀ (resp : Response) (s1 : σ),
        env.Do { req with Authorization := "Bearer " ++ c.token,
                          UserAgent := "digitalocean-registry-cleaner" } s
          = (Except.ok resp, s1) →
        (resp.StatusCode ≠ 200 →
          listTags c env input.Registry input.Repository s
            = (Except.error ("unexpected status code: " ++ toString resp.StatusCode), s1)) ∧
        (∀ e : String, resp.StatusCode = 200 → resp.Body = Except.error e →
          listTags c env input.Registry input.Repository s
            = (Except.error ("could not read response body: " ++ e), s1)) ∧
        (∀ body e : String, resp.StatusCode = 200 → resp.Body = Except.ok body →
          env.Unmarshal body = Except.error e →
          listTags c env input.Registry input.Repository s
            = (Except.error ("could not unmarshal response body: " ++ e), s1)))) := by
  constructor
  · intro e s1 h
    unfold RunCleanup
    rw [h]
    exact ⟨rfl, rfl, rfl⟩
  · intro req hreq
    constructor
    · intro e s1 hdo
      unfold listTags
      rw [hreq]
      simp only [hdo]
    · intro resp s1 hdo
      refine ⟨?_, ?_, ?_⟩
      · intro hstatus
        unfold listTags
        rw [hreq]
        simp only [hdo, hstatus, ne_eq, not_false_eq_true, if_true]
      · intro e hstatus hbody
        unfold listTags
        rw [hreq]
        simp only [hdo, hstatus, ne_eq, not_true_eq_false, if_false, hbody]
      · intro body e hstatus hbody hjson
        unfold listTags
        rw [hreq]
        simp only [hdo, hstatus, ne_eq, not_true_eq_false, if_false, hbody, hjson]

/-- The run of C15: a listing answered with status 500. -/
theorem C15_listing_failure_witness :
    (RunCleanup ⟨"test-token", []⟩ (statusEnv 500) ⟨"test", "test", false, 5, 30 * day⟩ ()).tags
      = [] ∧
    (RunCleanup ⟨"test-token", []⟩ (statusEnv 500) ⟨"test", "test", false, 5, 30 * day⟩ ()).err
      = some ("could not list tags: " ++ "unexpected status code: 500") ∧
    (RunCleanup ⟨"test-token", []⟩ (statusEnv 500)
        ⟨"test", "test", false, 5, 30 * day⟩ ()).deleteCalls = [] :=
  (C15_listing_failure ⟨"test-token", []⟩ (statusEnv 500)
    ⟨"test", "test", false, 5, 30 * day⟩ ()).1 "unexpected status code: 500" () rfl

/-- C16 at a failing input: the listing of repository `my-repository` in registry
`my-registry` is answered with status 500. The error `RunCleanup` returns is
`could not list tags: unexpected status code: 500`, which contains neither name. -/
theorem C16_listing_error_omits_repository :
    (RunCleanup ⟨"test-token", []⟩ (statusEnv 500)
        ⟨"my-registry", "my-repository", false, 5, 30 * day⟩ ()).err
      = some "could not list tags: unexpected status code: 500" ∧
    Contains "could not list tags: unexpected status code: 500" "my-repository" = false ∧
    Contains "could not list tags: unexpected status code: 500" "my-registry" = false := by
  decide

/-- C17 (amended). Dry-run determinism under one clock reading: two calls of `RunCleanup`
with `DryRun = true` on the same tag snapshot, with the same protected list, `KeepTags`
and `MinAge`, during which the clock shows the same instant `now`, return the same
sequence, with no error and no delete call. -/
theorem C17_dry_run_determinism (c : DigitalOceanClient) (env : Env σ) (input : CleanupInput)
    (s s' : σ) (tags : List Tag) (s1 s1' : σ) (now : Int)
    (hdry : input.DryRun = true)
    (hlist1 : listTags c env input.Registry input.Repository s = (Except.ok tags, s1))
    (hlist2 : listTags c env input.Registry input.Repository s' = (Except.ok tags, s1'))
    (hclock : ClockAt env now) :
    (RunCleanup c env input s).tags = (RunCleanup c env input s').tags ∧
    (RunCleanup c env input s).err = none ∧ (RunCleanup c env input s').err = none ∧
    (RunCleanup c env input s).deleteCalls = [] ∧
    (RunCleanup c env input s').deleteCalls = [] := by
  obtain ⟨h1, h2, h3⟩ := RunCleanup_complete c env input s tags s1 hlist1 (Or.inl hdry)
  obtain ⟨k1, k2, k3⟩ := RunCleanup_complete c env input s' tags s1' hlist2 (Or.inl hdry)
  rw [hdry] at h3 k3
  refine ⟨?_, h2, k2, h3, k3⟩
  rw [h1, k1]
  unfold deletionSequence
  rw [categorize_keep, categorize_keep, categorize_delete_clock c env input now hclock,
    categorize_delete_clock c env input now hclock]

/-- The run of C17: Scenario C of the specification, run twice under a clock that
stands still. -/
theorem C17_dry_run_determinism_witness :
    (RunCleanup ⟨"test-token", []⟩
        (fixedEnv [mkTag "old-branch" (exampleNow - 2 * day)] exampleNow (fun _ => 204))
        ⟨"test", "test", true, 0, day⟩ ()).tags
      = (RunCleanup ⟨"test-token", []⟩
        (fixedEnv [mkTag "old-branch" (exampleNow - 2 * day)] exampleNow (fun _ => 204))
        ⟨"test", "test", true, 0, day⟩
        (RunCleanup ⟨"test-token", []⟩
          (fixedEnv [mkTag "old-branch" (exampleNow - 2 * day)] exampleNow (fun _ => 204))
          ⟨"test", "test", true, 0, day⟩ ()).state).tags :=
  (C17_dry_run_determinism ⟨"test-token", []⟩
    (fixedEnv [mkTag "old-branch" (exampleNow - 2 * day)] exampleNow (fun _ => 204))
    ⟨"test", "test", true, 0, day⟩ () _ [mkTag "old-branch" (exampleNow - 2 * day)] () ()
    exampleNow rfl rfl rfl (fun _ => rfl)).1

/-- C17 as stated fails when the clock moves between the two calls: a branch tag updated
23 hours before the first call is younger than the minimum age of 24 hours then, and
older than it at the second call two hours later. The first dry run returns nothing,
the second one the tag, on the same snapshot and policy. -/
theorem C17_counterexample :
    (RunCleanup ⟨"test-token", []⟩
        (tickingEnv [mkTag "feature-x" (exampleNow - 23 * hour)] (2 * hour))
        ⟨"test", "test", true, 0, 24 * hour⟩ exampleNow).tags = [] ∧
    (RunCleanup ⟨"test-token", []⟩
        (tickingEnv [mkTag "feature-x" (exampleNow - 23 * hour)] (2 * hour))
        ⟨"test", "test", true, 0, 24 * hour⟩
        (RunCleanup ⟨"test-token", []⟩
          (tickingEnv [mkTag "feature-x" (exampleNow - 23 * hour)] (2 * hour))
          ⟨"test", "test", true, 0, 24 * hour⟩ exampleNow).state).tags
      = [mkTag "feature-x" (exampleNow - 23 * hour)] := by
  decide

end Do

/-! ## The classifier, continued -/

namespace Detect

open Regex Grammar

theorem count_dot_identifier (x : List Char) (h : Identifier x) : x.count '.' = 0 := by
  rw [List.count_eq_zero]
  intro hmem
  have := (charIsAlnumHyphen_iff '.').1 (h.2 '.' hmem)
  simp at this

theorem count_dot_optional (x : List Char) (h : Optional '-' Identifier x) :
    x.count '.' = 0 := by
  rcases h with rfl | ⟨y, hy, rfl⟩
  · rfl
  · rw [List.count_cons_of_ne (by decide), count_dot_identifier y hy]

theorem count_dot_semVer (s : List Char) (h : SemVer s) : 2 ≤ s.count '.' := by
  obtain ⟨major, minor, patch, pre, build, _, _, _, _, _, rfl⟩ := h
  simp only [List.count_append, List.count_cons_self]
  omega

theorem count_dot_calVer (s : List Char) (h : CalVer s) : s.count '.' = 1 := by
  obtain ⟨year, n, suffix, ⟨_, _, hyear⟩, hn, hsuf, rfl⟩ := h
  simp only [List.count_append, List.count_cons_self, count_dot_digits year hyear,
    count_dot_digits n hn.2, count_dot_optional suffix hsuf]

theorem calVer_seqVer (s : List Char) (h : CalVer s) : SeqVer s := by
  obtain ⟨year, n, suffix, ⟨h4, _, hyear⟩, hn, hsuf, rfl⟩ := h
  refine ⟨[year, n], suffix, by simp, ?_, hsuf, by simp [dotJoin]⟩
  intro g hg
  simp only [List.mem_cons, List.mem_singleton, List.not_mem_nil, or_false] at hg
  rcases hg with rfl | rfl
  · refine ⟨?_, hyear⟩
    intro h0
    rw [h0] at h4
    simp at h4
  · exact hn

/-- C18 (amended). `reSemVer` and `reCalVer` are mutually exclusive: no string is matched
by both, so at most two of the three checks in `IsTag` succeed for a name; and `IsTag`
is the disjunction of the three checks on the non-empty stripped name, so their order
does not change its result. -/
theorem C18_semver_calver_exclusive :
    (∀ s : String, ¬ (MatchString reSemVer s = true ∧ MatchString reCalVer s = true)) ∧
    (∀ name : String, IsTag name =
      (decide (TrimPrefix name "v" ≠ "") &&
        (MatchString reSemVer (TrimPrefix name "v") ||
          MatchString reCalVer (TrimPrefix name "v") ||
          MatchString reSeqVer (TrimPrefix name "v")))) := by
  constructor
  · intro s
    unfold MatchString
    rw [rmatch_iff, rmatch_iff, matches_reSemVer_iff, matches_reCalVer_iff]
    rintro ⟨h1, h2⟩
    have := count_dot_semVer _ h1
    rw [count_dot_calVer _ h2] at this
    omega
  · intro name
    unfold IsTag
    dsimp only
    by_cases h0 : TrimPrefix name "v" = ""
    · simp [h0]
    · rw [if_neg h0]
      cases MatchString reSemVer (TrimPrefix name "v") <;>
        cases MatchString reCalVer (TrimPrefix name "v") <;>
        cases MatchString reSeqVer (TrimPrefix name "v") <;> simp [h0]

/-- C18 as stated fails at `1.2.3`, which `reSemVer` and `reSeqVer` both match, and at
`2024.01`, which `reCalVer` and `reSeqVer` both match. -/
theorem C18_counterexample :
    (MatchString reSemVer "1.2.3" = true ∧ MatchString reSeqVer "1.2.3" = true) ∧
    (MatchString reCalVer "2024.01" = true ∧ MatchString reSeqVer "2024.01" = true) := by
  decide

/-- C19. The calendar-version check is redundant: every string `reCalVer` matches is
matched by `reSeqVer`, and `detect.IsTag` equals its variant that tests only `reSemVer`
and `reSeqVer` on the stripped name. -/
theorem C19_calver_redundant :
    (∀ s : String, MatchString reCalVer s = true → MatchString reSeqVer s = true) ∧
    (∀ name : String, IsTag name = IsTagWithoutCalVer name) := by
  have key : ∀ s : String, MatchString reCalVer s = true → MatchString reSeqVer s = true := by
    intro s h
    unfold MatchString at h ⊢
    rw [rmatch_iff, matches_reCalVer_iff] at h
    rw [rmatch_iff, matches_reSeqVer_iff]
    exact calVer_seqVer _ h
  refine ⟨key, ?_⟩
  intro name
  unfold IsTag IsTagWithoutCalVer
  dsimp only
  by_cases h0 : TrimPrefix name "v" = ""
  · rw [if_pos h0, if_pos h0]
  · rw [if_neg h0, if_neg h0]
    by_cases ha : MatchString reSemVer (TrimPrefix name "v") = true
    · rw [if_pos ha, if_pos ha]
    · rw [if_neg ha, if_neg ha]
      by_cases hb : MatchString reCalVer (TrimPrefix name "v") = true
      · rw [if_pos hb, if_pos (key _ hb)]
      · rw [if_neg hb]

/-- C19 at `2024.01-rc1`, a calendar version: both patterns match it and both variants
of the classifier accept it. -/
theorem C19_calver_redundant_witness :
    MatchString reCalVer "2024.01-rc1" = true ∧ MatchString reSeqVer "2024.01-rc1" = true ∧
    IsTag "2024.01-rc1" = IsTagWithoutCalVer "2024.01-rc1" :=
  ⟨by decide, C19_calver_redundant.1 "2024.01-rc1" (by decide),
   C19_calver_redundant.2 "2024.01-rc1"⟩

end Detect

/-! ## The run command -/

namespace Cmd

open Do

variable {σ : Type}

theorem runLoop_cases (os : Os) (env : Env σ) (doc : DigitalOceanClient) (flags : Flags) :
    ∀ (repos out inv : List String) (s : σ),
      ((runLoop os env doc flags repos out inv s).err = none ∧
        (runLoop os env doc flags repos out inv s).invoked = inv ++ repos) ∨
      (∃ (pre : List String) (repository : String) (post : List String) (s1 : σ) (e : String)
          (out1 : List String),
        repos = pre ++ repository :: post ∧
        (runLoop os env doc flags repos out inv s).invoked = inv ++ pre ++ [repository] ∧
        (RunCleanup doc env (cleanupInput flags repository) s1).err = some e ∧
        (runLoop os env doc flags repos out inv s).err = some ("cleanup failed: " ++ e) ∧
        (runLoop os env doc flags repos out inv s).stdout = out1 ++
          report os flags.registry repository
            (RunCleanup doc env (cleanupInput flags repository) s1).tags)
  | [], out, inv, s => by simp [runLoop]
  | r :: rest, out, inv, s => by
    rw [runLoop]
    cases h : (RunCleanup doc env (cleanupInput flags r) s).err with
    | some e =>
      right
      exact ⟨[], r, rest, s, e, out, rfl, by simp, h, rfl, rfl⟩
    | none =>
      simp only []
      rcases runLoop_cases os env doc flags rest
          (out ++ report os flags.registry r (RunCleanup doc env (cleanupInput flags r) s).tags)
          (inv ++ [r]) (RunCleanup doc env (cleanupInput flags r) s).state with
        ⟨h1, h2⟩ | ⟨pre, repository, post, s1, e, out1, h1, h2, h3, h4, h5⟩
      · left
        exact ⟨h1, by simp [h2]⟩
      · right
        exact ⟨r :: pre, repository, post, s1, e, out1, by simp [h1], by simp [h2], h3, h4, h5⟩

theorem runLoop_fails (os : Os) (env : Env σ) (doc : DigitalOceanClient) (flags : Flags) :
    ∀ (repos out inv : List String) (s : σ),
      (∃ repository ∈ repos,
        ∀ s1 : σ, (RunCleanup doc env (cleanupInput flags repository) s1).err ≠ none) →
      (runLoop os env doc flags repos out inv s).err ≠ none
  | [], out, inv, s => by simp
  | r :: rest, out, inv, s => by
    rintro ⟨repository, hmem, hfail⟩
    rw [runLoop]
    cases h : (RunCleanup doc env (cleanupInput flags r) s).err with
    | some e => simp
    | none =>
      simp only []
      rcases List.mem_cons.1 hmem with rfl | hmem1
      · exact absurd h (hfail s)
      · exact runLoop_fails os env doc flags rest _ _ _ ⟨repository, hmem1, hfail⟩

/-- C20. With `DO_TOKEN` set, the run command invokes `RunCleanup` for the repositories
in the order given and stops at the first one whose `RunCleanup` returns an error: the
invocations are a prefix of the repositories; when the command returns an error, they
end with a repository whose `RunCleanup` returned an error `e`, the text printed ends
with the report of the tags that invocation returned, the command's error is
`cleanup failed: ` followed by `e`, and no later repository is invoked; when it returns
no error, every repository was invoked once, in order. A repository whose `RunCleanup`
always fails makes the command fail. -/
theorem C20_run_aborts_at_first_failure (os : Os) (env : Env σ) (flags : Flags) (s : σ)
    (htoken : os.Getenv "DO_TOKEN" ≠ "") :
    (RunE os env flags s).invoked <+: flags.repositories ∧
    ((RunE os env flags s).err = none → (RunE os env flags s).invoked = flags.repositories) ∧
    ((RunE os env flags s).err ≠ none →
      ∃ (pre : List String) (repository : String) (post : List String) (s1 : σ) (e : String)
          (out1 : List String),
        flags.repositories = pre ++ repository :: post ∧
        (RunE os env flags s).invoked = pre ++ [repository] ∧
        (RunCleanup (NewClient (os.Getenv "DO_TOKEN") flags.protectedTags) env
          (cleanupInput flags repository) s1).err = some e ∧
        (RunE os env flags s).err = some ("cleanup failed: " ++ e) ∧
        (RunE os env flags s).stdout = out1 ++
          report os flags.registry repository
            (RunCleanup (NewClient (os.Getenv "DO_TOKEN") flags.protectedTags) env
              (cleanupInput flags repository) s1).tags) ∧
    ((∃ repository ∈ flags.repositories, ∀ s1 : σ,
        (RunCleanup (NewClient (os.Getenv "DO_TOKEN") flags.protectedTags) env
          (cleanupInput flags repository) s1).err ≠ none) →
      (RunE os env flags s).err ≠ none) := by
  unfold RunE
  rw [if_neg htoken]
  rcases runLoop_cases os env (NewClient (os.Getenv "DO_TOKEN") flags.protectedTags) flags
      flags.repositories (if flags.dryRun then ["==> Dry run mode" ++ "\n" ++ "\n"] else []) [] s with
    ⟨h1, h2⟩ | ⟨pre, repository, post, s1, e, out1, h1, h2, h3, h4, h5⟩
  · refine ⟨by rw [h2]; simp, fun _ => by simpa using h2, fun h => absurd h1 h, ?_⟩
    exact runLoop_fails os env _ flags _ _ _ s
  · refine ⟨?_, ?_, ?_, ?_⟩
    · rw [h2, h1]
      exact ⟨post, by simp⟩
    · intro h
      rw [h4] at h
      cases h
    · intro _
      exact ⟨pre, repository, post, s1, e, out1, h1, by simpa using h2, h3, h4, h5⟩
    · exact runLoop_fails os env _ flags _ _ _ s

/-- The run of C20: three repositories on a transport that refuses the delete of
`tag-8-days-old` in repository `test`. The command stops at `test`, the second one,
after reporting the tag it deleted there, and never reaches `third`. -/
theorem C20_run_aborts_at_first_failure_witness :
    (RunE exampleOs (fixedEnv branchListing exampleNow failOn8)
        ⟨"test", ["other", "test", "third"], ["prod-protected"], 5, 2, false⟩ ()).invoked
      = ["other", "test"] ∧
    (RunE exampleOs (fixedEnv branchListing exampleNow failOn8)
        ⟨"test", ["other", "test", "third"], ["prod-protected"], 5, 2, false⟩ ()).err
      = some ("cleanup failed: could not delete tag test.test:tag-8-days-old : "
          ++ "unexpected status code: 500") ∧
    (RunE exampleOs (fixedEnv branchListing exampleNow failOn8)
        ⟨"test", ["other", "test", "third"], ["prod-protected"], 5, 2, false⟩ ()).stdout
      = ["Registry: test\n", "Repository: other\n\n",
         "Deleted tag: tag-40-days-old\t1763769600000000000\n",
         "Deleted tag: tag-8-days-old\t1766534400000000000\n",
         "Deleted tag: tag-3-days-old\t1766966400000000000\n", "=====\n",
         "Registry: test\n", "Repository: test\n\n",
         "Deleted tag: tag-40-days-old\t1763769600000000000\n", "=====\n"] ∧
    (RunE exampleOs (fixedEnv branchListing exampleNow failOn8)
        ⟨"test", ["other", "test", "third"], ["prod-protected"], 5, 2, false⟩ ()).invoked
      <+: ["other", "test", "third"] :=
  ⟨by decide, by decide, by decide,
   (C20_run_aborts_at_first_failure exampleOs (fixedEnv branchListing exampleNow failOn8)
     ⟨"test", ["other", "test", "third"], ["prod-protected"], 5, 2, false⟩ () (by decide)).1⟩

end Cmd

/-! ## The order of ties under Go's `slices.SortFunc` -/

namespace Slices

variable {E : Type}

theorem elem_append_length [Inhabited E] (l : List E) (y : E) (r : List E) :
    elem (l ++ y :: r) l.length = y := by
  induction l with
  | nil => rfl
  | cons a l ih => simpa [elem] using ih

theorem elem_append_succ [Inhabited E] (l : List E) (y x : E) (r : List E) :
    elem (l ++ y :: x :: r) (l.length + 1) = x := by
  induction l with
  | nil => rfl
  | cons a l ih => simpa [elem] using ih

theorem swap_adjacent [Inhabited E] (l : List E) (y x : E) (r : List E) :
    swap (l ++ y :: x :: r) (l.length + 1) l.length = l ++ x :: y :: r := by
  unfold swap
  rw [elem_append_length, elem_append_succ]
  induction l with
  | nil => rfl
  | cons a l ih => simp [ih]

theorem insertionInner_eq [Inhabited E] (cmp : E → E → Int) : ∀ (rp : List E) (x : E) (rest : List E),
    insertionInner cmp 0 rp.length (rp.reverse ++ x :: rest) = bubble cmp rp x ++ rest
  | [], x, rest => by simp [insertionInner, bubble]
  | y :: ys, x, rest => by
    have hlen : ys.reverse.length = ys.length := List.length_reverse ys
    have hdata : (y :: ys).reverse ++ x :: rest = ys.reverse ++ y :: x :: rest := by simp
    rw [List.length_cons, insertionInner, hdata]
    have h1 : elem (ys.reverse ++ y :: x :: rest) (ys.length + 1) = x := by
      rw [← hlen]; exact elem_append_succ _ _ _ _
    have h2 : elem (ys.reverse ++ y :: x :: rest) ys.length = y := by
      rw [← hlen]; exact elem_append_length _ _ _
    have h3 : swap (ys.reverse ++ y :: x :: rest) (ys.length + 1) ys.length
        = ys.reverse ++ x :: y :: rest := by
      rw [← hlen]; exact swap_adjacent _ _ _ _
    rw [h1, h2, h3]
    by_cases hc : cmp x y < 0
    · rw [if_pos ⟨Nat.succ_pos _, hc⟩, insertionInner_eq cmp ys x (y :: rest)]
      simp [bubble, hc]
    · rw [if_neg (fun h => hc h.2)]
      simp [bubble, hc]

theorem bubble_length (cmp : E → E → Int) : ∀ (rp : List E) (x : E),
    (bubble cmp rp x).length = rp.length + 1
  | [], x => rfl
  | y :: ys, x => by
    unfold bubble
    split_ifs
    · simp [bubble_length cmp ys x]
    · simp

theorem insertion_fold_eq [Inhabited E] (cmp : E → E → Int) : ∀ (rest pre : List E),
    (List.range' pre.length rest.length).foldl (fun data i => insertionInner cmp 0 i data)
      (pre ++ rest) = insertAll cmp pre rest
  | [], pre => by simp [insertAll]
  | x :: rest, pre => by
    rw [List.length_cons, List.range'_succ, List.foldl_cons]
    have h := insertionInner_eq cmp pre.reverse x rest
    rw [List.length_reverse, List.reverse_reverse] at h
    rw [h, insertAll]
    have hl : (bubble cmp pre.reverse x).length = pre.length + 1 := by
      rw [bubble_length, List.length_reverse]
    rw [← hl]
    exact insertion_fold_eq cmp rest (bubble cmp pre.reverse x)

theorem insertionSortCmpFunc_eq [Inhabited E] (cmp : E → E → Int) (data : List E) :
    insertionSortCmpFunc cmp data 0 data.length = insertAll cmp [] data := by
  unfold insertionSortCmpFunc
  cases data with
  | nil => rfl
  | cons x rest =>
    have h := insertion_fold_eq cmp rest [x]
    simp only [List.length_cons, List.length_nil, Nat.zero_add, List.singleton_append] at h
    simp only [List.length_cons, Nat.zero_add, Nat.add_sub_cancel]
    rw [h]
    simp [insertAll, bubble]

theorem SortFunc_short [Inhabited E] (next : Nat → Nat) (cmp : E → E → Int) (x : List E)
    (h : x.length ≤ 12) : SortFunc next cmp x = insertAll cmp [] x := by
  unfold SortFunc
  rw [pdqsortCmpFunc]
  simp only [Nat.sub_zero, h, if_true, Option.getD_some]
  exact insertionSortCmpFunc_eq cmp x

theorem bubble_perm (cmp : E → E → Int) : ∀ (rp : List E) (x : E),
    (bubble cmp rp x).Perm (rp.reverse ++ [x])
  | [], x => by simp [bubble]
  | y :: ys, x => by
    unfold bubble
    split_ifs
    · have h := bubble_perm cmp ys x
      simp only [List.reverse_cons, List.append_assoc]
      refine (h.append_right [y]).trans ?_
      simp only [List.append_assoc]
      exact List.Perm.append_left _ (List.perm_append_comm)
    · exact List.Perm.refl _

theorem insertAll_perm (cmp : E → E → Int) : ∀ (rest pre : List E),
    (insertAll cmp pre rest).Perm (pre ++ rest)
  | [], pre => by simp [insertAll]
  | x :: rest, pre => by
    rw [insertAll]
    refine (insertAll_perm cmp rest _).trans ?_
    have h := bubble_perm cmp pre.reverse x
    rw [List.reverse_reverse] at h
    simpa using h.append_right rest

theorem bubble_filter (cmp : E → E → Int) (key : E → Int)
    (hcmp : ∀ a b, cmp a b < 0 ↔ key a < key b) (u : Int) : ∀ (rp : List E) (x : E),
    (bubble cmp rp x).filter (fun t => decide (key t = u))
      = (rp.reverse ++ [x]).filter (fun t => decide (key t = u))
  | [], x => by simp [bubble]
  | y :: ys, x => by
    unfold bubble
    split_ifs with h
    · rw [hcmp] at h
      rw [List.filter_append, bubble_filter cmp key hcmp u ys x]
      simp only [List.reverse_cons, List.filter_append, List.append_assoc]
      congr 1
      by_cases hx : key x = u
      · have hy : ¬ key y = u := by omega
        simp [List.filter_cons, hx, hy]
      · simp [List.filter_cons, hx]
    · rfl

theorem insertAll_filter (cmp : E → E → Int) (key : E → Int)
    (hcmp : ∀ a b, cmp a b < 0 ↔ key a < key b) (u : Int) : ∀ (rest pre : List E),
    (insertAll cmp pre rest).filter (fun t => decide (key t = u))
      = (pre ++ rest).filter (fun t => decide (key t = u))
  | [], pre => by simp [insertAll]
  | x :: rest, pre => by
    have e : pre ++ x :: rest = (pre ++ [x]) ++ rest := by simp
    rw [insertAll, insertAll_filter cmp key hcmp u rest, e, List.filter_append,
      List.filter_append (pre ++ [x]) rest, bubble_filter cmp key hcmp u, List.reverse_reverse]

theorem bubble_sorted (cmp : E → E → Int) (key : E → Int)
    (hcmp : ∀ a b, cmp a b < 0 ↔ key a < key b) : ∀ (rp : List E) (x : E),
    rp.reverse.Pairwise (fun a b => key a ≤ key b) →
      (bubble cmp rp x).Pairwise (fun a b => key a ≤ key b)
  | [], x, _ => by simp [bubble]
  | y :: ys, x, hs => by
    rw [List.reverse_cons, List.pairwise_append] at hs
    obtain ⟨hys, _, hle⟩ := hs
    unfold bubble
    split_ifs with h
    · rw [hcmp] at h
      rw [List.pairwise_append]
      refine ⟨bubble_sorted cmp key hcmp ys x hys, by simp, ?_⟩
      intro a ha b hb
      simp only [List.mem_singleton] at hb
      subst hb
      have hmem := (bubble_perm cmp ys x).mem_iff.1 ha
      rcases List.mem_append.1 hmem with h1 | h1
      · exact hle a h1 b (by simp)
      · simp only [List.mem_singleton] at h1
        subst h1
        omega
    · rw [hcmp] at h
      rw [List.pairwise_append]
      refine ⟨?_, by simp, ?_⟩
      · rw [List.reverse_cons, List.pairwise_append]
        exact ⟨hys, by simp, hle⟩
      · intro a ha b hb
        simp only [List.mem_singleton] at hb
        subst hb
        simp only [List.reverse_cons, List.mem_append, List.mem_singleton] at ha
        rcases ha with h1 | rfl
        · have := hle a h1 y (by simp)
          omega
        · omega

theorem insertAll_sorted (cmp : E → E → Int) (key : E → Int)
    (hcmp : ∀ a b, cmp a b < 0 ↔ key a < key b) : ∀ (rest pre : List E),
    pre.Pairwise (fun a b => key a ≤ key b) →
      (insertAll cmp pre rest).Pairwise (fun a b => key a ≤ key b)
  | [], pre, hs => by simpa [insertAll] using hs
  | x :: rest, pre, hs => by
    rw [insertAll]
    apply insertAll_sorted cmp key hcmp rest
    apply bubble_sorted cmp key hcmp
    rw [List.reverse_reverse]
    exact hs

theorem scanDown_le [Inhabited E] (p : E → Bool) (data : List E) (i : Nat) : ∀ j : Nat,
    scanDown p data i j ≤ j
  | 0 => by simp [scanDown]
  | j + 1 => by
    rw [scanDown]
    split_ifs
    · exact Nat.le_succ_of_le (scanDown_le p data i j)
    · exact Nat.le_refl _

theorem partitionLoop_le [Inhabited E] (cmp : E → E → Int) (a : Nat) : ∀ (fuel i j : Nat) (data : List E),
    (partitionLoop cmp a fuel i j data).1 ≤ j
  | 0, i, j, data => by simp [partitionLoop]
  | fuel + 1, i, j, data => by
    rw [partitionLoop]
    split_ifs
    · exact scanDown_le _ _ _ _
    · refine Nat.le_trans (partitionLoop_le cmp a fuel _ _ _) ?_
      exact Nat.le_trans (Nat.sub_le _ _) (scanDown_le _ _ _ _)

theorem partitionCmpFunc_le [Inhabited E] (cmp : E → E → Int) (data : List E) (a b pivot : Nat) :
    (partitionCmpFunc cmp data a b pivot).1 ≤ b - 1 := by
  unfold partitionCmpFunc
  dsimp only
  split_ifs
  · exact scanDown_le _ _ _ _
  · refine Nat.le_trans (partitionLoop_le cmp a _ _ _ _) ?_
    exact Nat.le_trans (Nat.sub_le _ _) (scanDown_le _ _ _ _)

theorem pdqsortCmpFunc_short [Inhabited E] (next : Nat → Nat) (cmp : E → E → Int) (fuel : Nat)
    (data : List E) (a b limit : Nat) (wb wp : Bool) (h : b - a ≤ 12) :
    pdqsortCmpFunc next cmp (fuel + 1) data a b limit wb wp
      = some (insertionSortCmpFunc cmp data a b) := by
  rw [pdqsortCmpFunc, if_pos h]

theorem pdqsortCmpFunc_thirteen [Inhabited E] (next next1 : Nat → Nat) (cmp : E → E → Int) (fuel : Nat)
    (data : List E) (b limit : Nat) (wp : Bool) (hb : b ≤ 13) :
    pdqsortCmpFunc next cmp (fuel + 2) data 0 b limit true wp
      = pdqsortCmpFunc next1 cmp (fuel + 2) data 0 b limit true wp := by
  have hmid : ∀ (d : List E) (pivot : Nat), (partitionCmpFunc cmp d 0 b pivot).1 - 0 ≤ 12 := by
    intro d pivot
    have := partitionCmpFunc_le cmp d 0 b pivot
    omega
  have hright : ∀ m : Nat, b - (m + 1) ≤ 12 := by
    intro m
    omega
  rw [pdqsortCmpFunc, pdqsortCmpFunc]
  simp only [Bool.not_true, Bool.false_eq_true, if_false, Nat.lt_irrefl, false_and,
    pdqsortCmpFunc_short _ cmp fuel _ _ _ _ _ _ (hmid _ _),
    pdqsortCmpFunc_short _ cmp fuel _ _ _ _ _ _ (hright _)]

theorem SortFunc_thirteen [Inhabited E] (next next1 : Nat → Nat) (cmp : E → E → Int)
    (x : List E) (h : x.length ≤ 13) : SortFunc next cmp x = SortFunc next1 cmp x := by
  unfold SortFunc
  by_cases h12 : x.length ≤ 12
  · rw [pdqsortCmpFunc_short next cmp _ _ _ _ _ _ _ (by simpa using h12),
      pdqsortCmpFunc_short next1 cmp _ _ _ _ _ _ _ (by simpa using h12)]
  · have h13 : x.length = 13 := by omega
    rw [h13]
    rw [pdqsortCmpFunc_thirteen next next1 cmp 12 x 13 _ _ (Nat.le_refl _)]

end Slices

namespace Do

variable {σ : Type}

theorem deletionSequence_release_of_perm (c : DigitalOceanClient) (env : Env σ)
    (input : CleanupInput) (tags : List Tag) (s : σ)
    (hperm : (env.SortFunc cmpUpdatedAt (tags.filter (isRelease c env))).Perm
      (tags.filter (isRelease c env))) :
    (deletionSequence c env input tags s).filter (isRelease c env) =
      releaseTagsToDelete input (env.SortFunc cmpUpdatedAt (tags.filter (isRelease c env))) := by
  unfold deletionSequence
  obtain ⟨D, hD, hsub⟩ := categorize_delete_sublist c env input tags [] [] s
  rw [hD, categorize_keep, List.filter_append]
  simp only [List.nil_append]
  have h1 : (releaseTagsToDelete input
      (env.SortFunc cmpUpdatedAt (tags.filter (isRelease c env)))).filter (isRelease c env) =
      releaseTagsToDelete input (env.SortFunc cmpUpdatedAt (tags.filter (isRelease c env))) := by
    rw [List.filter_eq_self]
    intro t ht
    have h2 := hperm.subset ((releaseTagsToDelete_sublist input _).subset ht)
    exact (List.mem_filter.1 h2).2
  have h2 : D.filter (isRelease c env) = [] := by
    rw [List.filter_eq_nil_iff]
    intro t ht
    have := hsub.subset ht
    simp only [List.mem_filter, isBranch, Bool.and_eq_true, Bool.not_eq_true'] at this
    simp [isRelease, this.2.2]
  rw [h1, h2, List.append_nil]

/-- C11 (amended). Tie-breaking for a listing with at most 12 release tags, under Go's
`slices.SortFunc`, which sorts so short a slice by insertion: the release tags are
ordered by `UpdatedAt` ascending, those of equal `UpdatedAt` in their order in the
listing; the release tags returned by a run that is dry or ends with a nil error are
the first ones in that order, so among release tags of one `UpdatedAt` the deleted
ones are the earliest listed. -/
theorem C11_ties_up_to_twelve (c : DigitalOceanClient) (env : Env σ) (input : CleanupInput)
    (s : σ) (tags : List Tag) (s1 : σ) (next : Nat → Nat)
    (hgo : env.SortFunc = Slices.SortFunc next)
    (hlist : listTags c env input.Registry input.Repository s = (Except.ok tags, s1))
    (hrun : input.DryRun = true ∨ (RunCleanup c env input s).err = none)
    (hlen : (tags.filter (isRelease c env)).length ≤ 12) :
    (env.SortFunc cmpUpdatedAt (tags.filter (isRelease c env))).Pairwise
      (fun a b => a.UpdatedAt ≤ b.UpdatedAt) ∧
    (∀ u : Int,
      (env.SortFunc cmpUpdatedAt (tags.filter (isRelease c env))).filter
          (fun t => decide (t.UpdatedAt = u))
        = (tags.filter (isRelease c env)).filter (fun t => decide (t.UpdatedAt = u))) ∧
    (RunCleanup c env input s).tags.filter (isRelease c env)
      = releaseTagsToDelete input (env.SortFunc cmpUpdatedAt (tags.filter (isRelease c env))) ∧
    (∀ u : Int,
      ((RunCleanup c env input s).tags.filter (isRelease c env)).filter
          (fun t => decide (t.UpdatedAt = u))
        <+: (tags.filter (isRelease c env)).filter (fun t => decide (t.UpdatedAt = u))) := by
  have hsorted : env.SortFunc cmpUpdatedAt (tags.filter (isRelease c env))
      = Slices.insertAll cmpUpdatedAt [] (tags.filter (isRelease c env)) := by
    rw [hgo]
    exact Slices.SortFunc_short next cmpUpdatedAt _ hlen
  have hperm : (env.SortFunc cmpUpdatedAt (tags.filter (isRelease c env))).Perm
      (tags.filter (isRelease c env)) := by
    rw [hsorted]
    simpa using Slices.insertAll_perm cmpUpdatedAt (tags.filter (isRelease c env)) []
  have hties : ∀ u : Int,
      (env.SortFunc cmpUpdatedAt (tags.filter (isRelease c env))).filter
          (fun t => decide (t.UpdatedAt = u))
        = (tags.filter (isRelease c env)).filter (fun t => decide (t.UpdatedAt = u)) := by
    intro u
    rw [hsorted]
    simpa using Slices.insertAll_filter cmpUpdatedAt (fun t => t.UpdatedAt)
      cmpUpdatedAt_neg_iff u (tags.filter (isRelease c env)) []
  have hres : (RunCleanup c env input s).tags.filter (isRelease c env)
      = releaseTagsToDelete input
          (env.SortFunc cmpUpdatedAt (tags.filter (isRelease c env))) := by
    rw [(RunCleanup_success c env input s tags s1 hlist hrun).1]
    exact deletionSequence_release_of_perm c env input tags s1 hperm
  refine ⟨?_, hties, hres, ?_⟩
  · rw [hsorted]
    exact Slices.insertAll_sorted cmpUpdatedAt (fun t => t.UpdatedAt) cmpUpdatedAt_neg_iff
      (tags.filter (isRelease c env)) [] List.Pairwise.nil
  · intro u
    rw [hres, ← hties u]
    apply List.IsPrefix.filter
    unfold releaseTagsToDelete
    split_ifs
    · exact List.take_prefix _ _
    · exact List.nil_prefix

/-- The run of C11: of three release tags updated at the same instant, listed as `2.0.0`,
`1.0.0`, `1.5.0`, and an older one, `KeepTags = 2` deletes the older one and `2.0.0`,
the first listed of the three. -/
theorem C11_ties_up_to_twelve_witness :
    (RunCleanup ⟨"test-token", []⟩ (goEnv (fun r => r) shortTieListing exampleNow)
        ⟨"test", "test", true, 2, 0⟩ ()).tags.map (fun t => t.Tag) = ["3.0.0", "2.0.0"] ∧
    (∀ u : Int,
      ((RunCleanup ⟨"test-token", []⟩ (goEnv (fun r => r) shortTieListing exampleNow)
          ⟨"test", "test", true, 2, 0⟩ ()).tags.filter
            (isRelease ⟨"test-token", []⟩ (goEnv (fun r => r) shortTieListing exampleNow))).filter
          (fun t => decide (t.UpdatedAt = u))
        <+: (shortTieListing.filter
            (isRelease ⟨"test-token", []⟩
              (goEnv (fun r => r) shortTieListing exampleNow))).filter
          (fun t => decide (t.UpdatedAt = u))) :=
  ⟨by decide,
   (C11_ties_up_to_twelve ⟨"test-token", []⟩ (goEnv (fun r => r) shortTieListing exampleNow)
     ⟨"test", "test", true, 2, 0⟩ () shortTieListing () (fun r => r) rfl rfl (Or.inl rfl)
     (by decide)).2.2.2⟩

set_option maxRecDepth 100000

/-- C11 as stated fails on a listing of 13 release tags, which `slices.SortFunc` sorts by
partitioning: `1.0.0` to `1.0.11` carry one `UpdatedAt` and `1.0.12` an earlier one.
With `KeepTags = 11` the dry run returns `1.0.12` and then `1.0.6`, not `1.0.0`, the
earliest listed of the twelve. The generator of `breakPatternsCmpFunc` is not consulted
on a slice this short (`Slices.SortFunc_thirteen`). -/
theorem C11_counterexample :
    Slices.pdqsortCmpFunc (fun r => r) cmpUpdatedAt 14 tieListing 0 13 4 true true
      = some [mkTag "1.0.12" (exampleNow - 11 * day), mkTag "1.0.6" (exampleNow - 10 * day),
          mkTag "1.0.2" (exampleNow - 10 * day), mkTag "1.0.3" (exampleNow - 10 * day),
          mkTag "1.0.4" (exampleNow - 10 * day), mkTag "1.0.5" (exampleNow - 10 * day),
          mkTag "1.0.0" (exampleNow - 10 * day), mkTag "1.0.7" (exampleNow - 10 * day),
          mkTag "1.0.8" (exampleNow - 10 * day), mkTag "1.0.9" (exampleNow - 10 * day),
          mkTag "1.0.10" (exampleNow - 10 * day), mkTag "1.0.11" (exampleNow - 10 * day),
          mkTag "1.0.1" (exampleNow - 10 * day)] ∧
    (RunCleanup ⟨"test-token", []⟩ (goEnv (fun r => r) tieListing exampleNow)
        ⟨"test", "test", true, 11, 0⟩ ()).tags.map (fun t => t.Tag) = ["1.0.12", "1.0.6"] ∧
    ¬ (((RunCleanup ⟨"test-token", []⟩ (goEnv (fun r => r) tieListing exampleNow)
          ⟨"test", "test", true, 11, 0⟩ ()).tags.filter
            (isRelease ⟨"test-token", []⟩ (goEnv (fun r => r) tieListing exampleNow))).filter
          (fun t => decide (t.UpdatedAt = exampleNow - 10 * day))
        <+: (tieListing.filter
            (isRelease ⟨"test-token", []⟩ (goEnv (fun r => r) tieListing exampleNow))).filter
          (fun t => decide (t.UpdatedAt = exampleNow - 10 * day))) := by
  decide

end Do
